import Mathlib

/-!
Queue operations of `queue.c` over a circular doubly-linked list

A shallow embedding of `src/queue.c`.

* Pointers are natural numbers, `0` is `NULL`.
* The heap gives every address its `next` and `prev` link, the string owned by
  the element embedding that link (`list_entry` is the identity on addresses)
  and a flag telling whether `q_release_element` was called on it.
* A stored string is the list of its bytes before the terminating NUL.
* Loops whose trip count depends on the heap take a `fuel` bound and return
  `none` when it runs out; every result below is stated for sufficient fuel.
* `int` counters are natural numbers (the counts are numbers of nodes);
  `size_t` arithmetic is taken modulo `2 ^ 64`.
* Results of `malloc` are arguments of the operation that allocates.
* The staging array of `q_sort` is a function on indices. `q_sort_divide` and
  `q_sort_pass` have no result once an index is outside the `QUEUE_SLOTS`
  slots of the array; `q_sort_divide_stores` is the divide loop with no such
  test, as it is written, and records every store.
* The copy of a removal into a non-null buffer is that of the source for
  `bufsize ≥ 1`; for `bufsize = 0` the model describes the `2 ^ 64` bytes the
  call sets out to write, and nothing is stated of the call beyond them.
-/

namespace Queue

/-! ## Memory -/

/-- Memory as seen by the queue code: the two links of every node, the payload
of the element around it, and the released flag. -/
@[ext]
structure Heap where
  next : Nat → Nat
  prev : Nat → Nat
  value : Nat → List Nat
  freed : Nat → Bool

/-- The store `p->next = v`. -/
def Heap.setNext (h : Heap) (p v : Nat) : Heap :=
  { h with next := fun q => if q = p then v else h.next q }

/-- The store `p->prev = v`. -/
def Heap.setPrev (h : Heap) (p v : Nat) : Heap :=
  { h with prev := fun q => if q = p then v else h.prev q }

/-- The payload written by `q_new_element` at a fresh element. -/
def Heap.setValue (h : Heap) (p : Nat) (s : List Nat) : Heap :=
  { h with value := fun q => if q = p then s else h.value q,
           freed := fun q => if q = p then false else h.freed q }

/-- A heap with nothing in it. -/
def Heap.empty : Heap :=
  { next := fun _ => 0, prev := fun _ => 0, value := fun _ => [], freed := fun _ => false }

/-! ## C library -/

/-- The function `strcmp` on byte strings: the difference of the first pair of
bytes that differ, the end of a string reading as the byte 0. -/
def strcmp : List Nat → List Nat → Int
  | [], [] => 0
  | [], b :: _ => 0 - (b : Int)
  | a :: _, [] => (a : Int)
  | a :: as, b :: bs =>
    if a = b then (if a = 0 then 0 else strcmp as bs) else (a : Int) - (b : Int)

/-- The value of `n - 1` in `size_t`. -/
def sizeSub1 (n : Nat) : Nat := (n + (2 ^ 64 - 1)) % 2 ^ 64

/-- The function `strncpy (dst, src, n)` on a buffer indexed by offset: exactly
`n` bytes are written, the bytes of `src` first and NUL afterwards. -/
def strncpy (dst : Nat → Nat) (src : List Nat) (n : Nat) : Nat → Nat :=
  fun i => if i < n then src.getD i 0 else dst i

/-- The store `buf[i] = v`. -/
def bufStore (buf : Nat → Nat) (i v : Nat) : Nat → Nat :=
  fun k => if k = i then v else buf k

/-! ## List primitives -/

/-- Modelled from the spec: the header `list.h` is not among the sources;
`INIT_LIST_HEAD` makes a node a one-element cycle referencing itself. -/
def INIT_LIST_HEAD (h : Heap) (q : Nat) : Heap :=
  (h.setNext q q).setPrev q q

/-- Modelled from the spec: the header `list.h` is not among the sources;
`list_add` splices `node` into the cycle right after `head`. -/
def list_add (h : Heap) (node head : Nat) : Heap :=
  let nxt := h.next head
  let h1 := h.setPrev nxt node
  let h2 := h1.setNext node nxt
  let h3 := h2.setPrev node head
  h3.setNext head node

/-- Modelled from the spec: the header `list.h` is not among the sources;
`list_add_tail` splices `node` into the cycle right before `head`. -/
def list_add_tail (h : Heap) (node head : Nat) : Heap :=
  let prv := h.prev head
  let h1 := h.setNext prv node
  let h2 := h1.setNext node head
  let h3 := h2.setPrev node prv
  h3.setPrev head node

/-! ## Queue operations -/

/-- The function `q_new`; `a` is the result of `malloc`. -/
def q_new (h : Heap) (a : Nat) : Heap × Nat :=
  if a = 0 then (h, 0) else (INIT_LIST_HEAD h a, a)

/-- The function `q_release_element`. -/
def q_release_element (h : Heap) (e : Nat) : Heap :=
  { h with freed := fun q => if q = e then true else h.freed q }

/-- The function `q_new_element`; `a` is the result of the `malloc` of the
element and `b` the result of the `malloc` of its string. When the second one
fails the element is freed again and nothing is left in the heap. The `strncpy`
of `strlen(s) + 1` bytes stores the whole of `s` and its terminator. -/
def q_new_element (h : Heap) (s : List Nat) (a b : Nat) : Heap × Nat :=
  if a = 0 then (h, 0)
  else if b = 0 then (h, 0)
  else (h.setValue a s, a)

/-- The function `q_insert_head`. -/
def q_insert_head (h : Heap) (head : Nat) (s : List Nat) (a b : Nat) : Heap × Bool :=
  if head = 0 then (h, false)
  else
    let r := q_new_element h s a b
    if r.2 = 0 then (r.1, false)
    else (list_add r.1 r.2 head, true)

/-- The function `q_insert_tail`. -/
def q_insert_tail (h : Heap) (head : Nat) (s : List Nat) (a b : Nat) : Heap × Bool :=
  if head = 0 then (h, false)
  else
    let r := q_new_element h s a b
    if r.2 = 0 then (r.1, false)
    else (list_add_tail r.1 r.2 head, true)

/-- What a removal leaves: the heap, the returned element (`0` for `NULL`) and
the output buffer (`none` when `sp` is `NULL`). -/
structure Removed where
  heap : Heap
  ele : Nat
  buf : Option (Nat → Nat)

/-- The copy into `sp` shared by the two removals: `strncpy` of
`bufsize - 1` bytes, the subtraction being that of `size_t`, then the
terminator at index `bufsize - 1`. With `bufsize = 0` the count is
`2 ^ 64 - 1` and the buffer described is the one an unbounded buffer would
hold; the call on a real buffer writes past its end there. -/
def copyOut (sp : Option (Nat → Nat)) (s : List Nat) (bufsize : Nat) : Option (Nat → Nat) :=
  match sp with
  | none => none
  | some b => some (bufStore (strncpy b s (sizeSub1 bufsize)) (sizeSub1 bufsize) 0)

/-- The function `q_remove_head`. The relinking is that of the source for
every call; the copy into a non-null `sp` is that of the source when
`bufsize ≥ 1` (see `copyOut` for `bufsize = 0`). -/
def q_remove_head (h : Heap) (head : Nat) (sp : Option (Nat → Nat)) (bufsize : Nat) : Removed :=
  if head = 0 ∨ h.next head = head then ⟨h, 0, sp⟩
  else
    let ele := h.next head
    let h1 := h.setPrev (h.next (h.next head)) head
    let h2 := h1.setNext head (h1.next (h1.next head))
    ⟨h2, ele, copyOut sp (h2.value ele) bufsize⟩

/-- The function `q_remove_tail`. The relinking is that of the source for
every call; the copy into a non-null `sp` is that of the source when
`bufsize ≥ 1` (see `copyOut` for `bufsize = 0`). -/
def q_remove_tail (h : Heap) (head : Nat) (sp : Option (Nat → Nat)) (bufsize : Nat) : Removed :=
  if head = 0 ∨ h.next head = head then ⟨h, 0, sp⟩
  else
    let ele := h.prev head
    let h1 := h.setNext (h.prev (h.prev head)) head
    let h2 := h1.setPrev head (h1.prev (h1.prev head))
    ⟨h2, ele, copyOut sp (h2.value ele) bufsize⟩

/-- Modelled from the spec: the header `list.h` is not among the sources;
the loop of `q_size` under `list_for_each`, which visits the nodes from
`head->next` until `head` is reached again. -/
def q_size_loop : Nat → Heap → Nat → Nat → Nat → Option Nat
  | 0, _, _, _, _ => none
  | fuel + 1, h, head, li, len =>
    if li = head then some len else q_size_loop fuel h head (h.next li) (len + 1)

/-- The function `q_size`. -/
def q_size (fuel : Nat) (h : Heap) (head : Nat) : Option Nat :=
  if head = 0 then some 0 else q_size_loop fuel h head (h.next head) 0

/-- The loop `for (i = 0; i < mid; i++) pos = pos->next` of `q_delete_mid`. -/
def advance (h : Heap) : Nat → Nat → Nat
  | 0, pos => pos
  | n + 1, pos => advance h n (h.next pos)

/-- The function `q_delete_mid`; `return NULL` in a `bool` function is `false`. -/
def q_delete_mid (fuel : Nat) (h : Heap) (head : Nat) : Option (Heap × Bool) :=
  if head = 0 ∨ h.next head = head then some (h, false)
  else
    match q_size fuel h head with
    | none => none
    | some n =>
      let pos := advance h (n / 2) (h.next head)
      let h1 := h.setPrev (h.next pos) (h.prev pos)
      let h2 := h1.setNext (h1.prev pos) (h1.next pos)
      some (q_release_element h2 pos, true)

/-- The inner `while` of `q_delete_dup`: `fast` moves to the last node of the
run of equal strings. -/
def dup_extend : Nat → Heap → Nat → Nat → Option Nat
  | 0, _, _, _ => none
  | fuel + 1, h, head, fast =>
    if h.next fast ≠ head ∧ strcmp (h.value fast) (h.value (h.next fast)) = 0 then
      dup_extend fuel h head (h.next fast)
    else some fast

/-- The release loop of `q_delete_dup`: every node from `del` up to `fast`
(excluded) is released, its `next` being read before the release. -/
def dup_release : Nat → Heap → Nat → Nat → Option Heap
  | 0, _, _, _ => none
  | fuel + 1, h, del, fast =>
    if del ≠ fast then
      let tmp := h.next del
      dup_release fuel (q_release_element h del) tmp fast
    else some h

/-- The outer loop of `q_delete_dup`; `F` bounds its two inner loops. -/
def q_delete_dup_loop : Nat → Nat → Heap → Nat → Nat → Nat → Option Heap
  | 0, _, _, _, _, _ => none
  | fuel + 1, F, h, head, slow, fast =>
    if fast ≠ head ∧ fast ≠ h.next head then
      if strcmp (h.value slow) (h.value fast) = 0 then
        match dup_extend F h head fast with
        | none => none
        | some fast1 =>
          let slow1 := h.prev slow
          let fast2 := h.next fast1
          match dup_release F h (h.next slow1) fast2 with
          | none => none
          | some h1 =>
            let h2 := h1.setNext slow1 fast2
            let h3 := h2.setPrev fast2 slow1
            let slow2 := h3.next slow1
            q_delete_dup_loop fuel F h3 head slow2 (h3.next slow2)
      else
        let slow2 := h.next slow
        q_delete_dup_loop fuel F h head slow2 (h.next slow2)
    else some h

/-- The function `q_delete_dup`. -/
def q_delete_dup (fuel : Nat) (h : Heap) (head : Nat) : Option (Heap × Bool) :=
  if head = 0 then some (h, false)
  else
    match q_delete_dup_loop fuel fuel h head (h.next head) (h.next (h.next head)) with
    | none => none
    | some h1 => some (h1, true)

/-- The loop of `q_swap`. -/
def q_swap_loop : Nat → Heap → Nat → Nat → Nat → Option Heap
  | 0, _, _, _, _ => none
  | fuel + 1, h, head, slow, fast =>
    if fast ≠ head ∧ fast ≠ h.next head then
      let h1 := h.setNext (h.prev slow) fast
      let h2 := h1.setPrev (h1.next fast) slow
      let h3 := h2.setNext slow (h2.next fast)
      let h4 := h3.setPrev fast (h3.prev slow)
      let h5 := h4.setPrev slow fast
      let h6 := h5.setNext fast slow
      let slow1 := h6.next slow
      q_swap_loop fuel h6 head slow1 (h6.next slow1)
    else some h

/-- The function `q_swap`. -/
def q_swap (fuel : Nat) (h : Heap) (head : Nat) : Option Heap :=
  if head = 0 then some h
  else
    match q_size fuel h head with
    | none => none
    | some n =>
      if n < 2 then some h
      else q_swap_loop fuel h head (h.next head) (h.next (h.next head))

/-- Modelled from the spec: the header `list.h` is not among the sources;
the body of `q_reverse` under `list_for_each_safe`, which fetches
`safe = node->next` before the body runs. -/
def q_reverse_loop : Nat → Heap → Nat → Nat → Nat → Option Heap
  | 0, _, _, _, _ => none
  | fuel + 1, h, head, node, safe =>
    if node ≠ head then
      let h1 := h.setNext node (h.prev node)
      let h2 := h1.setPrev node safe
      q_reverse_loop fuel h2 head safe (h2.next safe)
    else some h

/-- The function `q_reverse`. -/
def q_reverse (fuel : Nat) (h : Heap) (head : Nat) : Option Heap :=
  if head = 0 then some h
  else
    match q_reverse_loop fuel h head (h.next head) (h.next (h.next head)) with
    | none => none
    | some h1 =>
      let safe := h1.prev head
      let h2 := h1.setPrev head (h1.next head)
      some (h2.setNext head safe)

/-! ## Sorting -/

/-- The cell `*ptr` of `merge_2_Queue`: `none` is the address of the local
`head`, `some p` the address of `p->next`. -/
def loadPtr (h : Heap) (head : Nat) : Option Nat → Nat
  | none => head
  | some p => h.next p

/-- The store `*ptr = v` of `merge_2_Queue`; the local `head` is carried
beside the heap. -/
def storePtr (h : Heap) (head : Nat) (ptr : Option Nat) (v : Nat) : Heap × Nat :=
  match ptr with
  | none => (h, v)
  | some p => (h.setNext p v, head)

/-- The loop of `merge_2_Queue` and the store after it. `node` is `&L1` when
the comparison is negative and `&L2` otherwise. -/
def merge_loop : Nat → Heap → Nat → Option Nat → Nat → Nat → Option (Heap × Nat)
  | 0, _, _, _, _, _ => none
  | fuel + 1, h, head, ptr, L1, L2 =>
    if L1 ≠ 0 ∧ L2 ≠ 0 then
      let left := decide (strcmp (h.value L1) (h.value L2) < 0)
      let cur := if left then L1 else L2
      let s := storePtr h head ptr cur
      let ptr1 := some (loadPtr s.1 s.2 ptr)
      if left then merge_loop fuel s.1 s.2 ptr1 (s.1.next L1) L2
      else merge_loop fuel s.1 s.2 ptr1 L1 (s.1.next L2)
    else some (storePtr h head ptr (L1 ||| L2))

/-- The function `merge_2_Queue`. -/
def merge_2_Queue (fuel : Nat) (h : Heap) (L1 L2 : Nat) : Option (Heap × Nat) :=
  merge_loop fuel h 0 none L1 L2

/-- The number of slots of the staging array `queue` of `q_sort`. -/
def QUEUE_SLOTS : Nat := 10000

/-- The divide loop of `q_sort`; a store outside the staging array has no
result. -/
def q_sort_divide : Nat → Heap → Nat → Nat → (Nat → Nat) → Nat →
    Option (Heap × (Nat → Nat) × Nat)
  | 0, _, _, _, _, _ => none
  | fuel + 1, h, head, tmp, queue, queueSize =>
    if tmp ≠ h.next head then
      let h1 := h.setNext (h.prev tmp) 0
      let h2 := h1.setPrev (h1.prev tmp) 0
      if queueSize < QUEUE_SLOTS then
        q_sort_divide fuel h2 head (h2.next tmp) (bufStore queue queueSize (h2.prev tmp))
          (queueSize + 1)
      else none
    else some (h, queue, queueSize)

/-- The divide loop of `q_sort` as written, `queue[queueSize++] = tmp->prev`
with no test of `queueSize` against the size of the array: it records every
store, those at an index that the array `queue[10000]` does not have
included. -/
def q_sort_divide_stores : Nat → Heap → Nat → Nat → (Nat → Nat) → Nat →
    Option (Heap × (Nat → Nat) × Nat)
  | 0, _, _, _, _, _ => none
  | fuel + 1, h, head, tmp, queue, queueSize =>
    if tmp ≠ h.next head then
      let h1 := h.setNext (h.prev tmp) 0
      let h2 := h1.setPrev (h1.prev tmp) 0
      q_sort_divide_stores fuel h2 head (h2.next tmp) (bufStore queue queueSize (h2.prev tmp))
        (queueSize + 1)
    else some (h, queue, queueSize)

/-- The inner `for` of the merge phase of `q_sort`: slot `i` receives the merge
of slots `i` and `j`. `F` bounds the loop of each merge. -/
def q_sort_pass : Nat → Nat → Heap → (Nat → Nat) → Nat → Nat → Option (Heap × (Nat → Nat))
  | 0, _, _, _, _, _ => none
  | fuel + 1, F, h, queue, i, j =>
    if i < j then
      if j < QUEUE_SLOTS then
        match merge_2_Queue F h (queue i) (queue j) with
        | none => none
        | some r => q_sort_pass fuel F r.1 (bufStore queue i r.2) (i + 1) (j - 1)
      else none
    else some (h, queue)

/-- The outer `while` of the merge phase of `q_sort`. -/
def q_sort_merge : Nat → Nat → Heap → (Nat → Nat) → Nat → Option (Heap × (Nat → Nat) × Nat)
  | 0, _, _, _, _ => none
  | fuel + 1, F, h, queue, queueSize =>
    if queueSize > 1 then
      match q_sort_pass F F h queue 0 (queueSize - 1) with
      | none => none
      | some r => q_sort_merge fuel F r.1 r.2 ((queueSize + 1) / 2)
    else some (h, queue, queueSize)

/-- The repair loop of `q_sort`: every `prev` along the chain is restored; the
result carries the last node of the chain. -/
def q_sort_repair : Nat → Heap → Nat → Option (Heap × Nat)
  | 0, _, _ => none
  | fuel + 1, h, tmp =>
    if h.next tmp ≠ 0 then
      let h1 := h.setPrev (h.next tmp) tmp
      q_sort_repair fuel h1 (h1.next tmp)
    else some (h, tmp)

/-- The function `q_sort`. -/
def q_sort (fuel : Nat) (h : Heap) (head : Nat) : Option Heap :=
  if head = 0 then some h
  else
    match q_size fuel h head with
    | none => none
    | some n =>
      if n < 2 then some h
      else
        match q_sort_divide fuel h head (h.next (h.next head)) (fun _ => 0) 0 with
        | none => none
        | some d =>
          match q_sort_merge fuel fuel d.1 d.2.1 d.2.2 with
          | none => none
          | some m =>
            let h3 := m.1.setNext head (m.2.1 0)
            match q_sort_repair fuel h3 head with
            | none => none
            | some r =>
              let h5 := r.1.setNext r.2 head
              some (h5.setPrev head r.2)

/-! ## Reading a queue -/

/-- The addresses met from `p` following `next` until `head`. -/
def walk : Nat → Heap → Nat → Nat → List Nat
  | 0, _, _, _ => []
  | fuel + 1, h, head, p => if p = head then [] else p :: walk fuel h head (h.next p)

/-- The elements of the queue read forward from the sentinel. -/
def toList (fuel : Nat) (h : Heap) (head : Nat) : List Nat :=
  walk fuel h head (h.next head)

/-- The elements of the queue read backward from the sentinel. -/
def walkBack : Nat → Heap → Nat → Nat → List Nat
  | 0, _, _, _ => []
  | fuel + 1, h, head, p => if p = head then [] else p :: walkBack fuel h head (h.prev p)

/-- A queue built by `q_new` at address `head` and one `q_insert_tail` per
string, the elements at the addresses after `head`. -/
def buildFrom (h : Heap) (head : Nat) : Nat → List (List Nat) → Heap
  | _, [] => h
  | a, s :: ss => buildFrom (q_insert_tail h head s a 1).1 head (a + 1) ss

/-- The queue at address `1` holding the given strings at addresses `2`, `3`, ... -/
def build (ss : List (List Nat)) : Heap :=
  buildFrom (q_new Heap.empty 1).1 1 2 ss

/-! ## Well-formed queues -/

/-- A chain of `f`-links: from `p`, through the nodes `xs` in order, to `q`. -/
def Seg (f : Nat → Nat) : Nat → List Nat → Nat → Prop
  | p, [], q => f p = q
  | p, x :: xs, q => f p = x ∧ Seg f x xs q

instance Seg.dec (f : Nat → Nat) : ∀ p xs q, Decidable (Seg f p xs q)
  | p, [], q => inferInstanceAs (Decidable (f p = q))
  | _, x :: xs, q => @instDecidableAnd _ _ _ (Seg.dec f x xs q)

/-- The heap holds at `head` a circular doubly-linked queue whose elements are,
in order, the distinct non-null nodes `xs`: following `next` from the sentinel
visits `xs` and returns to the sentinel, following `prev` visits them in
reverse. -/
def IsQueue (h : Heap) (head : Nat) (xs : List Nat) : Prop :=
  head ≠ 0 ∧ (∀ x ∈ xs, x ≠ 0) ∧ (head :: xs).Nodup ∧
    Seg h.next head xs head ∧ Seg h.prev head xs.reverse head

instance IsQueue.dec (h : Heap) (head : Nat) (xs : List Nat) : Decidable (IsQueue h head xs) := by
  unfold IsQueue; exact inferInstance

/-- The strings stored in the nodes `xs`. -/
def strings (h : Heap) (xs : List Nat) : List (List Nat) := xs.map h.value

/-- The order of `strcmp`: `a` does not come after `b`. -/
def StrLe (a b : List Nat) : Prop := strcmp a b ≤ 0

instance StrLe.dec (a b : List Nat) : Decidable (StrLe a b) := by
  unfold StrLe; exact inferInstance

/-! ## Sequences of calls -/

/-- One call of an insertion or a removal, with the results of its `malloc`s
or its output buffer. -/
inductive Op
  | insertHead (s : List Nat) (a b : Nat)
  | insertTail (s : List Nat) (a b : Nat)
  | removeHead (sp : Option (Nat → Nat)) (bufsize : Nat)
  | removeTail (sp : Option (Nat → Nat)) (bufsize : Nat)

/-- The heap after one call on the queue at `head`. -/
def Op.run (h : Heap) (head : Nat) : Op → Heap
  | .insertHead s a b => (q_insert_head h head s a b).1
  | .insertTail s a b => (q_insert_tail h head s a b).1
  | .removeHead sp n => (q_remove_head h head sp n).heap
  | .removeTail sp n => (q_remove_tail h head sp n).heap

/-- The heap after a sequence of calls on the queue at `head`. -/
def runOps (h : Heap) (head : Nat) : List Op → Heap
  | [] => h
  | o :: os => runOps (o.run h head) head os

/-- The call is an insertion. -/
def Op.isInsert : Op → Bool
  | .insertHead _ _ _ => true
  | .insertTail _ _ _ => true
  | _ => false

/-- The element address an insertion receives from `malloc`. -/
def Op.addr : Op → Nat
  | .insertHead _ a _ => a
  | .insertTail _ a _ => a
  | _ => 0

/-- The string address an insertion receives from `malloc`. -/
def Op.strAddr : Op → Nat
  | .insertHead _ _ b => b
  | .insertTail _ _ b => b
  | _ => 0

/-- Every call of the sequence is an insertion whose two allocations succeed,
the elements being allocated at distinct addresses that are not `head`. -/
def SuccessfulInserts (head : Nat) (ins : List Op) : Prop :=
  (∀ o ∈ ins, o.isInsert = true ∧ o.addr ≠ 0 ∧ o.strAddr ≠ 0) ∧
    (head :: ins.map Op.addr).Nodup

/-- The output buffer of a removal is null or has room for at least one byte,
so that the copy of `bufsize - 1` bytes and the terminator stay inside it;
an insertion has no output buffer. -/
def Op.bufferOk : Op → Prop
  | .removeHead sp bufsize => sp = none ∨ 1 ≤ bufsize
  | .removeTail sp bufsize => sp = none ∨ 1 ≤ bufsize
  | _ => True

/-- Every call of the sequence is a removal whose output buffer is null or has
a capacity of at least one byte. -/
def Removals (rems : List Op) : Prop := ∀ o ∈ rems, o.isInsert = false ∧ o.bufferOk

/-! ## Descriptions of results -/

/-- The heap in which every node of `S` has its two links exchanged. -/
def flipOn (S : List Nat) (h : Heap) : Heap :=
  { h with next := fun y => if y ∈ S then h.prev y else h.next y,
           prev := fun y => if y ∈ S then h.next y else h.prev y }

/-- Spec of the pairwise swap: every two adjacent elements exchanged, a final
unpaired element left in place. -/
def swapPairs : List Nat → List Nat
  | x :: y :: rest => y :: x :: swapPairs rest
  | xs => xs

/-- A null-terminated singly-linked run: from `p`, following `next`, the
non-null nodes `xs` and then `NULL`. -/
def Run (h : Heap) : Nat → List Nat → Prop
  | p, [] => p = 0
  | p, x :: xs => p = x ∧ x ≠ 0 ∧ Run h (h.next x) xs

/-- The order in which `merge_2_Queue` links the nodes of two runs: the front
of the left run when `strcmp` of the two fronts is negative, the front of the
right run otherwise. `v` gives the string of a node. -/
def mergeRuns (v : Nat → List Nat) : List Nat → List Nat → List Nat
  | [], ys => ys
  | x :: xs, [] => x :: xs
  | x :: xs, y :: ys =>
    if strcmp (v x) (v y) < 0 then x :: mergeRuns v xs (y :: ys)
    else y :: mergeRuns v (x :: xs) ys

/-- The heap in which every node of `S` has both links cleared to `NULL`. -/
def detachOn (S : List Nat) (h : Heap) : Heap :=
  { h with next := fun y => if y ∈ S then 0 else h.next y,
           prev := fun y => if y ∈ S then 0 else h.prev y }

/-- The slots of the staging array from `off` on hold the addresses `ys`. -/
def Slots (queue : Nat → Nat) : Nat → List Nat → Prop
  | _, [] => True
  | off, y :: ys => queue off = y ∧ Slots queue (off + 1) ys

/-- The slots of the staging array from `off` on point to the runs `rs`. -/
def Staged (h : Heap) (queue : Nat → Nat) : Nat → List (List Nat) → Prop
  | _, [] => True
  | off, r :: rs => Run h (queue off) r ∧ Staged h queue (off + 1) rs

/-- Every node of `xs` has its `g`-link to the node before it, `p` being
before the first. -/
def BackLinks (g : Nat → Nat) : Nat → List Nat → Prop
  | _, [] => True
  | p, x :: xs => g x = p ∧ BackLinks g x xs

/-- The strings of the nodes `xs` are non-decreasing in the order of `strcmp`. -/
def SortedRun (v : Nat → List Nat) (xs : List Nat) : Prop :=
  xs.Pairwise (fun a b => StrLe (v a) (v b))

/-- What a merge leaves: the cell `*ptr` starts the merged run; only the `next`
links of the merged nodes and that cell change. -/
def MergePost (h : Heap) (head : Nat) (ptr : Option Nat) (r1 r2 : List Nat)
    (res : Heap × Nat) : Prop :=
  Run res.1 (loadPtr res.1 res.2 ptr) (mergeRuns h.value r1 r2) ∧
    (∀ q, q ∉ r1 ++ r2 → ptr ≠ some q → res.1.next q = h.next q) ∧
    (ptr ≠ none → res.2 = head) ∧
    res.1.prev = h.prev ∧ res.1.value = h.value ∧ res.1.freed = h.freed

/-- The number of nodes of `l` whose string compares equal to the string of `x`. -/
def eqCount (v : Nat → List Nat) (l : List Nat) (x : Nat) : Nat :=
  l.countP (fun y => decide (strcmp (v x) (v y) = 0))

/-- Spec of the deletion of duplicates: the nodes of `l` whose string occurs
exactly once in `l`, in their order. -/
def keepUnique (v : Nat → List Nat) (l : List Nat) : List Nat :=
  l.filter (fun x => decide (eqCount v l x = 1))

/-- The heap in which every node of `S` is released. -/
def releaseOn (S : List Nat) (h : Heap) : Heap :=
  { h with freed := fun q => if q ∈ S then true else h.freed q }

/-- The C string found in a buffer: the bytes from offset `i` up to the first
NUL, at most `n` of them. -/
def readString : Nat → (Nat → Nat) → Nat → List Nat
  | 0, _, _ => []
  | n + 1, buf, i => if buf i = 0 then [] else buf i :: readString n buf (i + 1)

/-- The heap holds at `head` a valid circular doubly-linked structure: the
`next` chain from the sentinel passes through distinct nodes and returns to
the sentinel, and every node `n` of that cycle, the sentinel included,
satisfies `n->next->prev == n` and `n->prev->next == n`. -/
def ValidRing (h : Heap) (head : Nat) : Prop :=
  ∃ xs, IsQueue h head xs ∧
    ∀ n ∈ head :: xs, h.prev (h.next n) = n ∧ h.next (h.prev n) = n

/-- Every insertion of the sequence whose two allocations succeed receives an
element address that is not a node of the queue at the time of the call. -/
def FreshAllocs (h : Heap) (head : Nat) : List Op → Prop
  | [] => True
  | o :: os =>
    (o.isInsert = true → o.addr ≠ 0 → o.strAddr ≠ 0 →
      ∀ xs, IsQueue h head xs → o.addr ∉ head :: xs) ∧
    FreshAllocs (o.run h head) head os

/-! ## Heap stores -/

@[simp] theorem setNext_next (h : Heap) (p v q : Nat) :
    (h.setNext p v).next q = if q = p then v else h.next q := rfl
@[simp] theorem setNext_prev (h : Heap) (p v : Nat) : (h.setNext p v).prev = h.prev := rfl
@[simp] theorem setNext_value (h : Heap) (p v : Nat) : (h.setNext p v).value = h.value := rfl
@[simp] theorem setNext_freed (h : Heap) (p v : Nat) : (h.setNext p v).freed = h.freed := rfl
@[simp] theorem setPrev_prev (h : Heap) (p v q : Nat) :
    (h.setPrev p v).prev q = if q = p then v else h.prev q := rfl
@[simp] theorem setPrev_next (h : Heap) (p v : Nat) : (h.setPrev p v).next = h.next := rfl
@[simp] theorem setPrev_value (h : Heap) (p v : Nat) : (h.setPrev p v).value = h.value := rfl
@[simp] theorem setPrev_freed (h : Heap) (p v : Nat) : (h.setPrev p v).freed = h.freed := rfl
@[simp] theorem setValue_next (h : Heap) (p : Nat) (s : List Nat) :
    (h.setValue p s).next = h.next := rfl
@[simp] theorem setValue_prev (h : Heap) (p : Nat) (s : List Nat) :
    (h.setValue p s).prev = h.prev := rfl
@[simp] theorem setValue_value (h : Heap) (p : Nat) (s : List Nat) (q : Nat) :
    (h.setValue p s).value q = if q = p then s else h.value q := rfl
@[simp] theorem setValue_freed (h : Heap) (p : Nat) (s : List Nat) (q : Nat) :
    (h.setValue p s).freed q = if q = p then false else h.freed q := rfl
@[simp] theorem release_next (h : Heap) (e : Nat) : (q_release_element h e).next = h.next := rfl
@[simp] theorem release_prev (h : Heap) (e : Nat) : (q_release_element h e).prev = h.prev := rfl
@[simp] theorem release_value (h : Heap) (e : Nat) : (q_release_element h e).value = h.value := rfl
@[simp] theorem release_freed (h : Heap) (e q : Nat) :
    (q_release_element h e).freed q = if q = e then true else h.freed q := rfl

/-! ## Chains of links -/

@[simp] theorem Seg_nil (f : Nat → Nat) (p q : Nat) : Seg f p [] q ↔ f p = q := Iff.rfl
@[simp] theorem Seg_cons (f : Nat → Nat) (p x : Nat) (xs : List Nat) (q : Nat) :
    Seg f p (x :: xs) q ↔ f p = x ∧ Seg f x xs q := Iff.rfl

/-- A chain only depends on the links of its nodes; it may restart from a node
with the same link. -/
theorem Seg.restart {f g : Nat → Nat} {p1 : Nat} : ∀ {p : Nat} {xs : List Nat} {q : Nat},
    g p1 = f p → (∀ y ∈ xs, g y = f y) → Seg f p xs q → Seg g p1 xs q
  | p, [], q, h1, _, hs => by
    simp only [Seg_nil] at hs ⊢
    rw [h1]; exact hs
  | p, x :: xs, q, h1, hfg, hs => by
    simp only [Seg_cons] at hs ⊢
    refine ⟨by rw [h1]; exact hs.1, ?_⟩
    exact Seg.restart (hfg x (by simp)) (fun y hy => hfg y (List.mem_cons_of_mem _ hy)) hs.2

theorem Seg.congr {f g : Nat → Nat} {p : Nat} {xs : List Nat} {q : Nat}
    (hfg : ∀ y ∈ p :: xs, g y = f y) (hs : Seg f p xs q) : Seg g p xs q :=
  Seg.restart (hfg p (by simp)) (fun y hy => hfg y (List.mem_cons_of_mem _ hy)) hs

/-- The first link of a chain. -/
theorem Seg.first {f : Nat → Nat} {p : Nat} {xs : List Nat} {q : Nat} (hs : Seg f p xs q) :
    f p = (xs ++ [q]).head (by simp) := by
  cases xs with
  | nil => simpa using hs
  | cons x xs => simpa using hs.1

theorem getLast_cons_reverse (p : Nat) (xs : List Nat) :
    (p :: xs.reverse).getLast (by simp) = (xs ++ [p]).head (by simp) := by
  cases xs <;> simp

theorem getLast_cons_eq (p : Nat) (xs : List Nat) :
    (p :: xs).getLast (by simp) = (xs.reverse ++ [p]).head (by simp) := by
  have := getLast_cons_reverse p xs.reverse
  simpa using this

theorem Seg.append {f : Nat → Nat} {p : Nat} {as : List Nat} {x : Nat} {bs : List Nat} {q : Nat} :
    Seg f p (as ++ x :: bs) q ↔ Seg f p as x ∧ Seg f x bs q := by
  induction as generalizing p with
  | nil => simp
  | cons a as ih => simp only [List.cons_append, Seg_cons, ih, and_assoc]

theorem Seg.snoc {f : Nat → Nat} {p : Nat} {as : List Nat} {x q : Nat} :
    Seg f p (as ++ [x]) q ↔ Seg f p as x ∧ f x = q := by
  rw [Seg.append]; simp

/-- The last node of a chain is the one linked to its end. -/
theorem Seg.last {f : Nat → Nat} : ∀ {p : Nat} {xs : List Nat} {q : Nat},
    Seg f p xs q → f ((p :: xs).getLast (by simp)) = q
  | p, [], q, hs => by simpa [Seg] using hs
  | p, x :: xs, q, hs => by
    simp only [Seg_nil, Seg_cons] at hs
    have := Seg.last hs.2
    simpa using this

/-- Redirecting the link of the last node of a chain redirects the chain. -/
theorem Seg.redirect {f : Nat → Nat} (q1 : Nat) : ∀ {p : Nat} {xs : List Nat} {q : Nat},
    (p :: xs).Nodup → Seg f p xs q →
      Seg (fun y => if y = (p :: xs).getLast (by simp) then q1 else f y) p xs q1
  | p, [], q, _, _ => by simp
  | p, x :: xs, q, hnd, hs => by
    simp only [Seg_nil, Seg_cons] at hs ⊢
    have hnd2 : (x :: xs).Nodup := (List.nodup_cons.1 hnd).2
    have hp : p ≠ (x :: xs).getLast (by simp) := by
      intro e
      exact (List.nodup_cons.1 hnd).1 (e ▸ List.getLast_mem _)
    refine ⟨by simp [hp, hs.1], ?_⟩
    have := Seg.redirect q1 hnd2 hs.2
    simpa using this

theorem IsQueue.head_ne {h : Heap} {head : Nat} {xs : List Nat} (hq : IsQueue h head xs) :
    head ≠ 0 := hq.1

theorem IsQueue.not_mem {h : Heap} {head : Nat} {xs : List Nat} (hq : IsQueue h head xs) :
    head ∉ xs := (List.nodup_cons.1 hq.2.2.1).1

theorem IsQueue.nodup {h : Heap} {head : Nat} {xs : List Nat} (hq : IsQueue h head xs) :
    xs.Nodup := (List.nodup_cons.1 hq.2.2.1).2

/-! ## Empty and non-empty queues -/

theorem IsQueue.next_head_ne {h : Heap} {head : Nat} {xs : List Nat} (hq : IsQueue h head xs)
    (hne : xs ≠ []) : h.next head ≠ head := by
  obtain ⟨_, _, hnd, hn, _⟩ := hq
  cases xs with
  | nil => exact absurd rfl hne
  | cons x xs =>
    simp only [Seg_cons] at hn
    rw [hn.1]
    intro e
    exact (List.nodup_cons.1 hnd).1 (by simp [e])

theorem IsQueue.next_head_nil {h : Heap} {head : Nat} (hq : IsQueue h head []) :
    h.next head = head := by
  simpa using hq.2.2.2.1

theorem IsQueue.prev_head {h : Heap} {head : Nat} {xs : List Nat} (hq : IsQueue h head xs) :
    h.prev head = (head :: xs).getLast (by simp) := by
  rw [getLast_cons_eq]
  exact Seg.first hq.2.2.2.2

/-! ## Insertion -/

theorem list_add_isQueue {h : Heap} {head : Nat} {xs : List Nat} (hq : IsQueue h head xs)
    {a : Nat} (ha : a ≠ 0) (hfresh : a ∉ head :: xs) :
    IsQueue (list_add h a head) head (a :: xs) := by
  obtain ⟨h0, hx0, hnd, hn, hp⟩ := hq
  have hah : a ≠ head := fun e => hfresh (by simp [e])
  have hax : a ∉ xs := fun e => hfresh (List.mem_cons_of_mem _ e)
  have hhx : head ∉ xs := (List.nodup_cons.1 hnd).1
  refine ⟨h0, ?_, ?_, ?_, ?_⟩
  · intro x hx
    rcases List.mem_cons.1 hx with e | e
    · exact e ▸ ha
    · exact hx0 x e
  · refine List.nodup_cons.2 ⟨?_, List.nodup_cons.2 ⟨hax, (List.nodup_cons.1 hnd).2⟩⟩
    simp only [List.mem_cons, not_or]
    exact ⟨fun e => hah e.symm, hhx⟩
  · simp only [Seg_cons, list_add, setNext_next, setPrev_next, if_true, true_and]
    refine Seg.restart ?_ ?_ hn
    · simp [hah]
    · intro y hy
      have h1 : y ≠ head := fun e => hhx (e ▸ hy)
      have h2 : y ≠ a := fun e => hax (e ▸ hy)
      simp [h1, h2]
  · rw [List.reverse_cons, Seg.snoc]
    have hr := Seg.redirect a (by simpa using hnd) hp
    rw [getLast_cons_reverse, ← Seg.first hn] at hr
    constructor
    · refine Seg.congr ?_ hr
      intro y hy
      have h2 : y ≠ a := by
        intro e; subst e
        rcases List.mem_cons.1 hy with e | e
        · exact hah e
        · exact hax (by simpa using e)
      simp [list_add, h2]
    · simp [list_add]

theorem list_add_tail_isQueue {h : Heap} {head : Nat} {xs : List Nat} (hq : IsQueue h head xs)
    {a : Nat} (ha : a ≠ 0) (hfresh : a ∉ head :: xs) :
    IsQueue (list_add_tail h a head) head (xs ++ [a]) := by
  have hprev := hq.prev_head
  obtain ⟨h0, hx0, hnd, hn, hp⟩ := hq
  have hah : a ≠ head := fun e => hfresh (by simp [e])
  have hax : a ∉ xs := fun e => hfresh (List.mem_cons_of_mem _ e)
  have hhx : head ∉ xs := (List.nodup_cons.1 hnd).1
  refine ⟨h0, ?_, ?_, ?_, ?_⟩
  · intro x hx
    rcases List.mem_append.1 hx with e | e
    · exact hx0 x e
    · simp only [List.mem_singleton] at e
      exact e ▸ ha
  · rw [← List.cons_append]
    refine List.Nodup.append hnd (List.nodup_singleton a) ?_
    simpa using hfresh
  · rw [Seg.snoc]
    have hr := Seg.redirect a hnd hn
    rw [← hprev] at hr
    constructor
    · refine Seg.congr ?_ hr
      intro y hy
      have h2 : y ≠ a := by
        intro e; subst e
        exact hfresh hy
      simp [list_add_tail, h2]
    · simp [list_add_tail]
  · rw [List.reverse_append, List.reverse_singleton, List.singleton_append, Seg_cons]
    constructor
    · simp [list_add_tail]
    · refine Seg.restart ?_ ?_ hp
      · simp [list_add_tail, hah]
      · intro y hy
        have hy2 : y ∈ xs := by simpa using hy
        have h1 : y ≠ head := fun e => hhx (e ▸ hy2)
        have h2 : y ≠ a := fun e => hax (e ▸ hy2)
        simp [list_add_tail, h1, h2]

theorem setValue_isQueue {h : Heap} {head : Nat} {xs : List Nat} (hq : IsQueue h head xs)
    (a : Nat) (s : List Nat) : IsQueue (h.setValue a s) head xs := hq

theorem list_add_value (h : Heap) (a head : Nat) : (list_add h a head).value = h.value := rfl
theorem list_add_freed (h : Heap) (a head : Nat) : (list_add h a head).freed = h.freed := rfl
theorem list_add_tail_value (h : Heap) (a head : Nat) :
    (list_add_tail h a head).value = h.value := rfl
theorem list_add_tail_freed (h : Heap) (a head : Nat) :
    (list_add_tail h a head).freed = h.freed := rfl

theorem q_insert_head_eq {h : Heap} {head : Nat} (s : List Nat) {a b : Nat}
    (h0 : head ≠ 0) (ha : a ≠ 0) (hb : b ≠ 0) :
    q_insert_head h head s a b = (list_add (h.setValue a s) a head, true) := by
  simp [q_insert_head, q_new_element, h0, ha, hb]

theorem q_insert_tail_eq {h : Heap} {head : Nat} (s : List Nat) {a b : Nat}
    (h0 : head ≠ 0) (ha : a ≠ 0) (hb : b ≠ 0) :
    q_insert_tail h head s a b = (list_add_tail (h.setValue a s) a head, true) := by
  simp [q_insert_tail, q_new_element, h0, ha, hb]

/-! ## Removal -/

theorem q_remove_head_heap {h : Heap} {head x : Nat} {xs : List Nat}
    (hq : IsQueue h head (x :: xs)) (sp : Option (Nat → Nat)) (bufsize : Nat) :
    q_remove_head h head sp bufsize =
      ⟨(h.setPrev (h.next x) head).setNext head (h.next x), x, copyOut sp (h.value x) bufsize⟩ := by
  have hne := hq.next_head_ne (by simp)
  have hx : h.next head = x := hq.2.2.2.1.1
  have hxh : x ≠ head := hx ▸ hne
  simp [q_remove_head, hq.1, hx, hxh]

theorem remove_head_isQueue {h : Heap} {head x : Nat} {xs : List Nat}
    (hq : IsQueue h head (x :: xs)) :
    IsQueue ((h.setPrev (h.next x) head).setNext head (h.next x)) head xs := by
  obtain ⟨h0, hx0, hnd, hn, hp⟩ := hq
  have hnd2 : (head :: xs).Nodup := by
    have := hnd
    simp only [List.nodup_cons, List.mem_cons, not_or] at this ⊢
    exact ⟨this.1.2, this.2.2⟩
  simp only [Seg_cons] at hn
  rw [List.reverse_cons, Seg.snoc] at hp
  refine ⟨h0, fun y hy => hx0 y (List.mem_cons_of_mem _ hy), hnd2, ?_, ?_⟩
  · refine Seg.restart ?_ ?_ hn.2
    · simp
    · intro y hy
      have : y ≠ head := fun e => (List.nodup_cons.1 hnd2).1 (e ▸ hy)
      simp [this]
  · have hr := Seg.redirect head (by simpa using hnd2) hp.1
    rw [getLast_cons_reverse, ← Seg.first hn.2] at hr
    exact hr

theorem q_remove_tail_heap {h : Heap} {head x : Nat} {xs : List Nat}
    (hq : IsQueue h head (xs ++ [x])) (sp : Option (Nat → Nat)) (bufsize : Nat) :
    q_remove_tail h head sp bufsize =
      ⟨(h.setNext (h.prev x) head).setPrev head (h.prev x), x, copyOut sp (h.value x) bufsize⟩ := by
  have hne := hq.next_head_ne (by simp)
  have hx : h.prev head = x := by
    have := hq.prev_head
    simpa using this
  simp [q_remove_tail, hq.1, hne, hx]

theorem remove_tail_isQueue {h : Heap} {head x : Nat} {xs : List Nat}
    (hq : IsQueue h head (xs ++ [x])) :
    IsQueue ((h.setNext (h.prev x) head).setPrev head (h.prev x)) head xs := by
  obtain ⟨h0, hx0, hnd, hn, hp⟩ := hq
  have hnd2 : (head :: xs).Nodup := by
    rw [← List.cons_append] at hnd
    exact (List.nodup_append.1 hnd).1
  rw [Seg.snoc] at hn
  rw [List.reverse_append, List.reverse_singleton, List.singleton_append, Seg_cons] at hp
  refine ⟨h0, fun y hy => hx0 y (List.mem_append_left _ hy), hnd2, ?_, ?_⟩
  · have hr := Seg.redirect head hnd2 hn.1
    rw [getLast_cons_eq, ← Seg.first hp.2] at hr
    exact hr
  · refine Seg.restart ?_ ?_ hp.2
    · simp
    · intro y hy
      have hy2 : y ∈ xs := by simpa using hy
      have : y ≠ head := fun e => (List.nodup_cons.1 hnd2).1 (e ▸ hy2)
      simp [this]

/-! ## Size -/

theorem q_size_loop_seg {h : Heap} {head : Nat} : ∀ (xs : List Nat) (p len fuel : Nat),
    Seg h.next p xs head → head ∉ xs → xs.length < fuel →
      q_size_loop fuel h head (h.next p) len = some (len + xs.length)
  | [], p, len, fuel, hs, _, hf => by
    obtain ⟨k, rfl⟩ : ∃ k, fuel = k + 1 := ⟨fuel - 1, by simp at hf; omega⟩
    simp only [Seg_nil] at hs
    simp [q_size_loop, hs]
  | x :: xs, p, len, fuel, hs, hx, hf => by
    obtain ⟨k, rfl⟩ : ∃ k, fuel = k + 1 := ⟨fuel - 1, by simp at hf; omega⟩
    simp only [Seg_cons] at hs
    have hxh : x ≠ head := fun e => hx (by simp [e])
    have ih := q_size_loop_seg xs x (len + 1) k hs.2
      (fun e => hx (List.mem_cons_of_mem _ e)) (by simp at hf; omega)
    simp only [q_size_loop, hs.1, hxh, if_false, ih, List.length_cons]
    congr 1; omega

theorem q_size_isQueue {h : Heap} {head : Nat} {xs : List Nat} (hq : IsQueue h head xs)
    {fuel : Nat} (hf : xs.length < fuel) : q_size fuel h head = some xs.length := by
  have := q_size_loop_seg xs head 0 fuel hq.2.2.2.1 hq.not_mem hf
  simp [q_size, hq.1, this]

theorem walk_seg {h : Heap} {head : Nat} : ∀ (xs : List Nat) (p fuel : Nat),
    Seg h.next p xs head → head ∉ xs → xs.length < fuel →
      walk fuel h head (h.next p) = xs
  | [], p, fuel, hs, _, hf => by
    obtain ⟨k, rfl⟩ : ∃ k, fuel = k + 1 := ⟨fuel - 1, by simp at hf; omega⟩
    simp only [Seg_nil] at hs
    simp [walk, hs]
  | x :: xs, p, fuel, hs, hx, hf => by
    obtain ⟨k, rfl⟩ : ∃ k, fuel = k + 1 := ⟨fuel - 1, by simp at hf; omega⟩
    simp only [Seg_cons] at hs
    have hxh : x ≠ head := fun e => hx (by simp [e])
    have ih := walk_seg xs x k hs.2
      (fun e => hx (List.mem_cons_of_mem _ e)) (by simp at hf; omega)
    simp [walk, hs.1, hxh, ih]

/-- Reading a well-formed queue forward gives its elements. -/
theorem IsQueue.toList_eq {h : Heap} {head : Nat} {xs : List Nat} (hq : IsQueue h head xs)
    {fuel : Nat} (hf : xs.length < fuel) : toList fuel h head = xs :=
  walk_seg xs head fuel hq.2.2.2.1 hq.not_mem hf

/-- Two readings of the same queue agree. -/
theorem IsQueue.unique {h : Heap} {head : Nat} {xs ys : List Nat} (hx : IsQueue h head xs)
    (hy : IsQueue h head ys) : xs = ys := by
  have h1 := hx.toList_eq (Nat.lt_succ_of_le (Nat.le_max_left xs.length ys.length))
  have h2 := hy.toList_eq (Nat.lt_succ_of_le (Nat.le_max_right xs.length ys.length))
  exact h1.symm.trans h2

/-! ## The queue made by `q_new` -/

theorem q_new_isQueue (h : Heap) {a : Nat} (ha : a ≠ 0) :
    (q_new h a).2 = a ∧ IsQueue (q_new h a).1 a [] := by
  simp [q_new, ha, IsQueue, INIT_LIST_HEAD]

/-! ## Sequences of insertions and removals -/

theorem runOps_inserts {head : Nat} : ∀ (ins : List Op) (h : Heap) (xs : List Nat),
    IsQueue h head xs →
    (∀ o ∈ ins, o.isInsert = true ∧ o.addr ≠ 0 ∧ o.strAddr ≠ 0) →
    (ins.map Op.addr).Nodup → (∀ o ∈ ins, o.addr ∉ head :: xs) →
      ∃ ys, IsQueue (runOps h head ins) head ys ∧ ys.length = xs.length + ins.length ∧
        ∀ y ∈ ys, y ∈ xs ∨ y ∈ ins.map Op.addr
  | [], h, xs, hq, _, _, _ => ⟨xs, hq, by simp, fun y hy => Or.inl hy⟩
  | o :: os, h, xs, hq, hok, hnd, hfr => by
    have ho := hok o (by simp)
    have hfo := hfr o (by simp)
    have hnd1 := List.nodup_cons.1 (by simpa using hnd : (o.addr :: os.map Op.addr).Nodup)
    have key : ∃ zs, IsQueue (o.run h head) head zs ∧ zs.length = xs.length + 1 ∧
        ∀ z ∈ zs, z ∈ xs ∨ z = o.addr := by
      cases o with
      | insertHead s a b =>
        have ha : a ≠ 0 := ho.2.1
        have hb : b ≠ 0 := ho.2.2
        have hfa : a ∉ head :: xs := hfo
        refine ⟨a :: xs, ?_, by simp, ?_⟩
        · rw [show Op.run h head (.insertHead s a b) = (q_insert_head h head s a b).1 from rfl,
            q_insert_head_eq s hq.1 ha hb]
          exact list_add_isQueue (setValue_isQueue hq a s) ha hfa
        · intro z hz
          rcases List.mem_cons.1 hz with e | e
          · exact Or.inr e
          · exact Or.inl e
      | insertTail s a b =>
        have ha : a ≠ 0 := ho.2.1
        have hb : b ≠ 0 := ho.2.2
        have hfa : a ∉ head :: xs := hfo
        refine ⟨xs ++ [a], ?_, by simp, ?_⟩
        · rw [show Op.run h head (.insertTail s a b) = (q_insert_tail h head s a b).1 from rfl,
            q_insert_tail_eq s hq.1 ha hb]
          exact list_add_tail_isQueue (setValue_isQueue hq a s) ha hfa
        · intro z hz
          rcases List.mem_append.1 hz with e | e
          · exact Or.inl e
          · exact Or.inr (by simpa using e)
      | removeHead sp n => simp [Op.isInsert] at ho
      | removeTail sp n => simp [Op.isInsert] at ho
    obtain ⟨zs, hz, hlen, hsub⟩ := key
    have hfr2 : ∀ o2 ∈ os, o2.addr ∉ head :: zs := by
      intro o2 ho2 hmem
      rcases List.mem_cons.1 hmem with e | e
      · exact hfr o2 (List.mem_cons_of_mem _ ho2) (by simp [e])
      · rcases hsub _ e with e1 | e1
        · exact hfr o2 (List.mem_cons_of_mem _ ho2) (List.mem_cons_of_mem _ e1)
        · exact hnd1.1 (e1 ▸ List.mem_map_of_mem _ ho2)
    obtain ⟨ys, hy, hylen, hysub⟩ := runOps_inserts os (o.run h head) zs hz
      (fun o2 ho2 => hok o2 (List.mem_cons_of_mem _ ho2)) hnd1.2 hfr2
    refine ⟨ys, hy, by simp [hylen, hlen]; omega, ?_⟩
    intro y hy
    rcases hysub y hy with e | e
    · rcases hsub y e with e1 | e1
      · exact Or.inl e1
      · exact Or.inr (by simp [e1])
    · exact Or.inr (by simp only [List.map_cons]; exact List.mem_cons_of_mem _ e)

theorem runOps_removals {head : Nat} : ∀ (rems : List Op) (h : Heap) (xs : List Nat),
    IsQueue h head xs → (∀ o ∈ rems, o.isInsert = false) → rems.length ≤ xs.length →
      ∃ ys, IsQueue (runOps h head rems) head ys ∧ ys.length = xs.length - rems.length
  | [], h, xs, hq, _, _ => ⟨xs, hq, by simp⟩
  | o :: os, h, xs, hq, hok, hlen => by
    have ho := hok o (by simp)
    have hpos : 0 < xs.length := by simp at hlen; omega
    have key : ∃ zs, IsQueue (o.run h head) head zs ∧ zs.length = xs.length - 1 := by
      cases o with
      | insertHead s a b => simp [Op.isInsert] at ho
      | insertTail s a b => simp [Op.isInsert] at ho
      | removeHead sp n =>
        cases xs with
        | nil => simp at hpos
        | cons x xs =>
          refine ⟨xs, ?_, by simp⟩
          simp only [Op.run, q_remove_head_heap hq]
          exact remove_head_isQueue hq
      | removeTail sp n =>
        rcases List.eq_nil_or_concat xs with e | ⟨ys, y, e⟩
        · simp [e] at hpos
        · subst e
          rw [List.concat_eq_append] at hq
          refine ⟨ys, ?_, by simp⟩
          simp only [Op.run, q_remove_tail_heap hq]
          exact remove_tail_isQueue hq
    obtain ⟨zs, hz, hzlen⟩ := key
    obtain ⟨ys, hy, hylen⟩ := runOps_removals os (o.run h head) zs hz
      (fun o2 ho2 => hok o2 (List.mem_cons_of_mem _ ho2)) (by simp at hlen; omega)
    exact ⟨ys, hy, by simp [hylen, hzlen]; omega⟩

/-! ## Unlinking one node -/

/-- Unlinking `x` from a chain: the node before it is linked to the node
after it. -/
theorem Seg.unlink {f : Nat → Nat} {p : Nat} {as : List Nat} {x : Nat} {bs : List Nat} {q : Nat}
    (hnd : (p :: (as ++ x :: bs)).Nodup) (hs : Seg f p (as ++ x :: bs) q) :
    Seg (fun z => if z = (p :: as).getLast (by simp) then f x else f z) p (as ++ bs) q := by
  rw [Seg.append] at hs
  have hnd1 : (p :: as).Nodup := by
    rw [← List.cons_append] at hnd
    exact (List.nodup_append.1 hnd).1
  have hr := Seg.redirect (f x) hnd1 hs.1
  have hlast : (p :: as).getLast (by simp) ∈ p :: as := List.getLast_mem _
  have hdisj : ∀ z ∈ bs, z ≠ (p :: as).getLast (by simp) := by
    intro z hz e
    rw [← List.cons_append] at hnd
    have hm : (p :: as).getLast (by simp) ∈ x :: bs := e ▸ List.mem_cons_of_mem _ hz
    exact (List.nodup_append.1 hnd).2.2 hlast hm
  cases bs with
  | nil =>
    simp only [Seg_nil] at hs
    rw [List.append_nil, ← hs.2]
    exact hr
  | cons b bs =>
    rw [Seg.append]
    have h2 := hs.2
    simp only [Seg_cons] at h2
    obtain ⟨hb, h2⟩ := h2
    subst hb
    refine ⟨hr, Seg.congr ?_ h2⟩
    intro z hz
    simp [hdisj z hz]

theorem advance_seg {h : Heap} {x : Nat} : ∀ (as : List Nat) (p : Nat),
    Seg h.next p as x → advance h as.length (h.next p) = x
  | [], p, hs => by simpa [advance] using hs
  | a :: as, p, hs => by
    simp only [Seg_cons] at hs
    simp only [List.length_cons, advance, hs.1]
    exact advance_seg as a hs.2

theorem delete_mid_isQueue {h : Heap} {head : Nat} {as : List Nat} {x : Nat} {bs : List Nat}
    (hq : IsQueue h head (as ++ x :: bs)) :
    IsQueue (((h.setPrev (h.next x) (h.prev x)).setNext (h.prev x) (h.next x))) head
      (as ++ bs) := by
  obtain ⟨h0, hx0, hnd, hn, hp⟩ := hq
  have hnd2 : (head :: (as ++ bs)).Nodup := by
    have : (as ++ bs).Sublist (as ++ x :: bs) :=
      List.Sublist.append_left (List.sublist_cons_self x bs) as
    exact hnd.sublist (this.cons₂ head)
  refine ⟨h0, ?_, hnd2, ?_, ?_⟩
  · intro y hy
    refine hx0 y ?_
    rcases List.mem_append.1 hy with e | e
    · exact List.mem_append_left _ e
    · exact List.mem_append_right _ (List.mem_cons_of_mem _ e)
  · have hu := Seg.unlink hnd hn
    have hpx : h.prev x = (head :: as).getLast (by simp) := by
      rw [List.reverse_append, List.reverse_cons, List.append_assoc, List.singleton_append,
        Seg.append] at hp
      rw [getLast_cons_eq]
      exact Seg.first hp.2
    rw [← hpx] at hu
    exact hu
  · rw [List.reverse_append, List.reverse_cons, List.append_assoc, List.singleton_append] at hp
    have hnd3 : (head :: (bs.reverse ++ x :: as.reverse)).Nodup := by
      refine List.nodup_cons.2 ⟨?_, ?_⟩
      · have := (List.nodup_cons.1 hnd).1
        simpa [or_comm, or_assoc, or_left_comm] using this
      · have := (List.nodup_cons.1 hnd).2
        have hperm : (bs.reverse ++ x :: as.reverse).Perm (as ++ x :: bs) := by
          have h1 : (bs.reverse ++ x :: as.reverse) = (as ++ x :: bs).reverse := by simp
          rw [h1]; exact List.reverse_perm _
        exact hperm.nodup_iff.2 this
    have hu := Seg.unlink hnd3 hp
    have hnx : h.next x = (head :: bs.reverse).getLast (by simp) := by
      rw [Seg.append] at hn
      rw [getLast_cons_reverse]
      exact Seg.first hn.2
    rw [← hnx] at hu
    rw [List.reverse_append]
    exact hu

theorem q_delete_mid_eq {h : Heap} {head : Nat} {xs : List Nat} (hq : IsQueue h head xs)
    (hne : xs ≠ []) {fuel : Nat} (hf : xs.length < fuel) :
    ∃ (x : Nat) (hx : xs.length / 2 < xs.length), xs[xs.length / 2] = x ∧
      q_delete_mid fuel h head = some (q_release_element
        ((h.setPrev (h.next x) (h.prev x)).setNext (h.prev x) (h.next x)) x, true) ∧
      IsQueue (q_release_element
        ((h.setPrev (h.next x) (h.prev x)).setNext (h.prev x) (h.next x)) x) head
        (xs.eraseIdx (xs.length / 2)) := by
  have hpos : 0 < xs.length := List.length_pos.2 hne
  have hm : xs.length / 2 < xs.length := Nat.div_lt_self hpos (by decide)
  have hsplit : xs = xs.take (xs.length / 2) ++ xs[xs.length / 2] :: xs.drop (xs.length / 2 + 1) := by
    rw [← List.drop_eq_getElem_cons hm, List.take_append_drop]
  have hlen : (xs.take (xs.length / 2)).length = xs.length / 2 := by
    rw [List.length_take]; omega
  refine ⟨xs[xs.length / 2], hm, rfl, ?_⟩
  generalize xs[xs.length / 2] = x at hsplit
  generalize xs.take (xs.length / 2) = as at hsplit hlen
  generalize xs.drop (xs.length / 2 + 1) = bs at hsplit
  have hq2 := hq
  rw [hsplit] at hq2
  have hadv : advance h (xs.length / 2) (h.next head) = x := by
    rw [← hlen]
    exact advance_seg as head (Seg.append.1 hq2.2.2.2.1).1
  have hnx : h.next x ≠ x := by
    have hs := (Seg.append.1 hq2.2.2.2.1).2
    rw [Seg.first hs]
    intro e
    have hmem : x ∈ bs ++ [head] := e ▸ List.head_mem _
    have hnd := hq2.2.2.1
    rcases List.mem_append.1 hmem with e1 | e1
    · have := (List.nodup_cons.1 hnd).2
      have := (List.nodup_append.1 this).2.1
      exact (List.nodup_cons.1 this).1 e1
    · simp only [List.mem_singleton] at e1
      exact (List.nodup_cons.1 hnd).1 (by simp [← e1])
  have hne2 := hq.next_head_ne hne
  constructor
  · simp only [q_delete_mid, hq.1, hne2, false_or, if_false, q_size_isQueue hq hf, hadv,
      setPrev_next, setPrev_prev]
    rw [if_neg (fun e => hnx e.symm)]
  · have := delete_mid_isQueue hq2
    have he : xs.eraseIdx (xs.length / 2) = as ++ bs := by
      rw [← hlen, hsplit, List.eraseIdx_append_of_length_le (le_refl _)]
      simp
    rw [he]
    exact this

/-! ## Reversal -/

theorem flipOn_nil (h : Heap) : flipOn [] h = h := by
  ext y <;> simp [flipOn]

theorem flipOn_value (S : List Nat) (h : Heap) : (flipOn S h).value = h.value := rfl
theorem flipOn_freed (S : List Nat) (h : Heap) : (flipOn S h).freed = h.freed := rfl

theorem flipOn_step (S : List Nat) (h : Heap) (c : Nat) (hc : c ∉ S) :
    ((flipOn S h).setNext c ((flipOn S h).prev c)).setPrev c (h.next c) = flipOn (S ++ [c]) h := by
  ext y
  · by_cases e : y = c
    · subst e; simp [flipOn, hc]
    · simp [flipOn, e]
  · by_cases e : y = c
    · subst e; simp [flipOn]
    · simp [flipOn, e]
  · rfl
  · rfl

theorem q_reverse_loop_eq {h : Heap} {head : Nat} : ∀ (rest : List Nat) (p : Nat)
    (done : List Nat) (fuel : Nat),
    Seg h.next p rest head → (head :: rest).Nodup → (∀ y ∈ head :: rest, y ∉ done) →
    rest.length < fuel →
      q_reverse_loop fuel (flipOn done h) head (h.next p) (h.next (h.next p)) =
        some (flipOn (done ++ rest) h)
  | [], p, done, fuel, hs, _, _, hf => by
    obtain ⟨k, rfl⟩ : ∃ k, fuel = k + 1 := ⟨fuel - 1, by simp at hf; omega⟩
    simp only [Seg_nil] at hs
    simp [q_reverse_loop, hs]
  | c :: rest, p, done, fuel, hs, hnd, hdone, hf => by
    obtain ⟨k, rfl⟩ : ∃ k, fuel = k + 1 := ⟨fuel - 1, by simp at hf; omega⟩
    simp only [Seg_cons] at hs
    obtain ⟨hpc, hs⟩ := hs
    have hch : c ≠ head := fun e => (List.nodup_cons.1 hnd).1 (by simp [e])
    have hcd : c ∉ done := hdone c (by simp)
    have hnd2 : (head :: rest).Nodup := by
      have := hnd
      simp only [List.nodup_cons, List.mem_cons, not_or] at this ⊢
      exact ⟨this.1.2, this.2.2⟩
    have hnc : h.next c ∈ head :: rest := by
      rw [Seg.first hs]
      have : (rest ++ [head]).head (by simp) ∈ rest ++ [head] := List.head_mem _
      rcases List.mem_append.1 this with e | e
      · exact List.mem_cons_of_mem _ e
      · exact List.mem_cons.2 (Or.inl (by simpa using e))
    have hncd : h.next c ∉ done ++ [c] := by
      intro e
      rcases List.mem_append.1 e with e1 | e1
      · rcases List.mem_cons.1 hnc with e2 | e2
        · exact hdone head (by simp) (e2 ▸ e1)
        · exact hdone _ (List.mem_cons_of_mem _ (List.mem_cons_of_mem _ e2)) e1
      · simp only [List.mem_singleton] at e1
        rcases List.mem_cons.1 hnc with e2 | e2
        · exact hch (e1 ▸ e2)
        · have := (List.nodup_cons.1 hnd).2
          exact (List.nodup_cons.1 this).1 (e1 ▸ e2)
    have ih := q_reverse_loop_eq rest c (done ++ [c]) k hs hnd2 (by
      intro y hy e
      rcases List.mem_append.1 e with e1 | e1
      · rcases List.mem_cons.1 hy with e2 | e2
        · exact hdone head (by simp) (e2 ▸ e1)
        · exact hdone y (List.mem_cons_of_mem _ (List.mem_cons_of_mem _ e2)) e1
      · simp only [List.mem_singleton] at e1
        subst e1
        rcases List.mem_cons.1 hy with e2 | e2
        · exact hch e2
        · have := (List.nodup_cons.1 hnd).2
          exact (List.nodup_cons.1 this).1 e2) (by simp at hf; omega)
    have hstep := flipOn_step done h c hcd
    have hsafe : (flipOn (done ++ [c]) h).next (h.next c) = h.next (h.next c) := by
      simp only [flipOn]
      rw [if_neg hncd]
    rw [q_reverse_loop, hpc, if_pos hch]
    simp only []
    rw [hstep, hsafe, ih, List.append_assoc, List.singleton_append]

theorem q_reverse_eq {h : Heap} {head : Nat} {xs : List Nat} (hq : IsQueue h head xs)
    {fuel : Nat} (hf : xs.length < fuel) :
    q_reverse fuel h head = some (flipOn (head :: xs) h) := by
  have hl := q_reverse_loop_eq xs head [] fuel hq.2.2.2.1 hq.2.2.1 (by simp) hf
  rw [flipOn_nil, List.nil_append] at hl
  have hx := hq.not_mem
  simp only [q_reverse, hq.1, if_false, hl]
  congr 1
  ext y
  · by_cases e : y = head
    · subst e; simp [flipOn, hx]
    · simp [flipOn, e]
  · by_cases e : y = head
    · subst e; simp [flipOn, hx]
    · simp [flipOn, e]
  · rfl
  · rfl

theorem flipOn_isQueue {h : Heap} {head : Nat} {xs : List Nat} (hq : IsQueue h head xs) :
    IsQueue (flipOn (head :: xs) h) head xs.reverse := by
  obtain ⟨h0, hx0, hnd, hn, hp⟩ := hq
  refine ⟨h0, fun y hy => hx0 y (List.mem_reverse.1 hy), ?_, ?_, ?_⟩
  · exact (List.Perm.cons head (List.reverse_perm xs)).nodup_iff.2 hnd
  · refine Seg.congr ?_ hp
    intro y hy
    have : y ∈ head :: xs := by simpa using hy
    simp only [flipOn]
    rw [if_pos this]
  · rw [List.reverse_reverse]
    refine Seg.congr ?_ hn
    intro y hy
    simp only [flipOn]
    rw [if_pos hy]

/-! ## Pairwise swap -/

/-- Exchanging two adjacent nodes `x`, `y` of a chain by three stores. -/
theorem Seg.swapAdj {f : Nat → Nat} {p : Nat} {as : List Nat} {x y : Nat} {bs : List Nat}
    {q : Nat} (hnd : (p :: (as ++ x :: y :: bs)).Nodup) (hs : Seg f p (as ++ x :: y :: bs) q) :
    Seg (fun z => if z = y then x else if z = x then f y
      else if z = (p :: as).getLast (by simp) then y else f z) p (as ++ y :: x :: bs) q := by
  rw [Seg.append] at hs
  obtain ⟨hs1, hs2⟩ := hs
  simp only [Seg_cons] at hs2
  rw [← List.cons_append] at hnd
  obtain ⟨hnd1, hnd2, hdisj⟩ := List.nodup_append.1 hnd
  have hxy : x ≠ y := fun e => (List.nodup_cons.1 hnd2).1 (by simp [e])
  have hx : ∀ z ∈ p :: as, z ≠ x := fun z hz e => hdisj hz (by simp [e])
  have hy : ∀ z ∈ p :: as, z ≠ y := fun z hz e => hdisj hz (by simp [e])
  have hbx : ∀ z ∈ bs, z ≠ x := by
    intro z hz e
    subst e
    exact (List.nodup_cons.1 hnd2).1 (List.mem_cons_of_mem _ hz)
  have hby : ∀ z ∈ bs, z ≠ y := by
    intro z hz e
    subst e
    exact (List.nodup_cons.1 (List.nodup_cons.1 hnd2).2).1 hz
  have hbl : ∀ z ∈ bs, z ≠ (p :: as).getLast (by simp) := by
    intro z hz e
    exact hdisj (List.getLast_mem _) (e ▸ List.mem_cons_of_mem _ (List.mem_cons_of_mem _ hz))
  rw [Seg.append, Seg_cons]
  refine ⟨?_, by simp, ?_⟩
  · refine Seg.congr ?_ (Seg.redirect y hnd1 hs1)
    intro z hz
    simp only [if_neg (hy z hz), if_neg (hx z hz)]
  · refine Seg.restart ?_ ?_ hs2.2
    · simp only [if_neg hxy, if_true]
    · intro z hz
      simp only [if_neg (hby z hz), if_neg (hbx z hz), if_neg (hbl z hz)]

theorem swap_step_isQueue {h : Heap} {head : Nat} {done : List Nat} {x y : Nat} {rest : List Nat}
    (hq : IsQueue h head (done ++ x :: y :: rest)) :
    IsQueue ((((((h.setNext (h.prev x) y).setPrev (h.next y) x).setNext x (h.next y)).setPrev y
      (h.prev x)).setPrev x y).setNext y x) head (done ++ y :: x :: rest) := by
  obtain ⟨h0, hx0, hnd, hn, hp⟩ := hq
  have hrev : (done ++ x :: y :: rest).reverse = rest.reverse ++ y :: x :: done.reverse := by
    simp
  have hrev2 : (done ++ y :: x :: rest).reverse = rest.reverse ++ x :: y :: done.reverse := by
    simp
  have hperm : (done ++ y :: x :: rest).Perm (done ++ x :: y :: rest) :=
    List.Perm.append_left done (List.Perm.swap x y rest)
  rw [hrev] at hp
  have hnd3 : (head :: (rest.reverse ++ y :: x :: done.reverse)).Nodup := by
    rw [← hrev]
    exact (List.Perm.cons head (List.reverse_perm _)).nodup_iff.2 hnd
  have hP : h.prev x = (head :: done).getLast (by simp) := by
    have := (Seg.append.1 hp).2
    simp only [Seg_cons] at this
    rw [getLast_cons_eq]
    exact Seg.first this.2
  have hN : h.next y = (head :: rest.reverse).getLast (by simp) := by
    have := (Seg.append.1 hn).2
    simp only [Seg_cons] at this
    rw [getLast_cons_reverse]
    exact Seg.first this.2
  have hxy : (h.next x = y) := by
    have := (Seg.append.1 hn).2
    simp only [Seg_cons] at this
    exact this.1
  have hyx : (h.prev y = x) := by
    have := (Seg.append.1 hp).2
    simp only [Seg_cons] at this
    exact this.1
  refine ⟨h0, fun z hz => hx0 z (hperm.subset hz), (List.Perm.cons head hperm).nodup_iff.2 hnd,
    ?_, ?_⟩
  · have := Seg.swapAdj hnd hn
    rw [← hP] at this
    refine Seg.congr ?_ this
    intro z _
    simp only [setNext_next, setPrev_next]
  · rw [hrev2]
    have := Seg.swapAdj hnd3 hp
    rw [← hN] at this
    refine Seg.congr ?_ this
    intro z _
    simp only [setNext_prev, setPrev_prev]

theorem swapPairs_length : ∀ (xs : List Nat), (swapPairs xs).length = xs.length
  | [] => rfl
  | [_] => rfl
  | x :: y :: rest => by simp [swapPairs, swapPairs_length rest]

theorem q_swap_loop_spec {head : Nat} : ∀ (n : Nat) (cur done : List Nat) (h : Heap)
    (fuel : Nat), cur.length ≤ n → IsQueue h head (done ++ cur) → cur.length < fuel →
      ∃ h1, q_swap_loop fuel h head ((cur ++ [head]).head (by simp))
          (h.next ((cur ++ [head]).head (by simp))) = some h1 ∧
        IsQueue h1 head (done ++ swapPairs cur) ∧ h1.value = h.value ∧ h1.freed = h.freed := by
  intro n
  induction n with
  | zero =>
    intro cur done h fuel hn hq hf
    have : cur = [] := List.length_eq_zero.1 (Nat.le_zero.1 hn)
    subst this
    obtain ⟨k, rfl⟩ : ∃ k, fuel = k + 1 := ⟨fuel - 1, by simp at hf; omega⟩
    exact ⟨h, by simp [q_swap_loop], by simpa [swapPairs] using hq, rfl, rfl⟩
  | succ n ih =>
    intro cur done h fuel hn hq hf
    obtain ⟨k, rfl⟩ : ∃ k, fuel = k + 1 := ⟨fuel - 1, by omega⟩
    match cur, hn, hq, hf with
    | [], _, hq, _ => exact ⟨h, by simp [q_swap_loop], by simpa [swapPairs] using hq, rfl, rfl⟩
    | [x], _, hq, _ =>
      have hx : h.next x = head := (Seg.snoc.1 hq.2.2.2.1).2
      exact ⟨h, by simp [q_swap_loop, hx], by simpa [swapPairs] using hq, rfl, rfl⟩
    | x :: y :: rest, hn, hq, hf =>
      have hs := (Seg.append.1 hq.2.2.2.1).2
      simp only [Seg_cons] at hs
      obtain ⟨hxy, hs⟩ := hs
      have hnd := hq.2.2.1
      have hyh : y ≠ head := by
        intro e
        exact (List.nodup_cons.1 hnd).1 (by simp [e])
      have hyn : y ≠ h.next head := by
        rw [Seg.first hq.2.2.2.1]
        have hnd2 := (List.nodup_cons.1 hnd).2
        cases done with
        | nil =>
          simp only [List.nil_append, List.cons_append, List.head_cons]
          intro e
          exact (List.nodup_cons.1 hnd2).1 (by simp [e])
        | cons d ds =>
          simp only [List.cons_append, List.head_cons]
          intro e
          exact (List.nodup_cons.1 hnd2).1 (by simp [e])
      have hP : h.prev x ≠ y := by
        have hp := hq.2.2.2.2
        have hrev : (done ++ x :: y :: rest).reverse = rest.reverse ++ y :: x :: done.reverse := by
          simp
        rw [hrev] at hp
        have := (Seg.append.1 hp).2
        simp only [Seg_cons] at this
        rw [Seg.first this.2]
        intro e
        have hm : y ∈ done.reverse ++ [head] := e ▸ List.head_mem _
        rcases List.mem_append.1 hm with e1 | e1
        · have hnd2 := (List.nodup_cons.1 hnd).2
          exact (List.nodup_append.1 hnd2).2.2 (List.mem_reverse.1 e1) (by simp)
        · exact hyh (by simpa using e1)
      have hN : h.next y ≠ x := by
        rw [Seg.first hs]
        intro e
        have hm : x ∈ rest ++ [head] := e ▸ List.head_mem _
        have hnd2 := (List.nodup_append.1 (List.nodup_cons.1 hnd).2).2.1
        rcases List.mem_append.1 hm with e1 | e1
        · exact (List.nodup_cons.1 hnd2).1 (List.mem_cons_of_mem _ e1)
        · simp only [List.mem_singleton] at e1
          exact (List.nodup_cons.1 hnd).1 (by simp [← e1])
      have hstep := swap_step_isQueue hq
      have hq2 : IsQueue ((((((h.setNext (h.prev x) y).setPrev (h.next y) x).setNext x
          (h.next y)).setPrev y (h.prev x)).setPrev x y).setNext y x) head
          ((done ++ [y, x]) ++ rest) := by
        simpa using hstep
      obtain ⟨h1, hl, hq1, hv, hfr⟩ := ih rest (done ++ [y, x]) _ k
        (by simp at hn; omega) hq2 (by simp at hf; omega)
      have hxy2 : x ≠ y := by
        intro e
        have hnd2 := (List.nodup_append.1 (List.nodup_cons.1 hnd).2).2.1
        exact (List.nodup_cons.1 hnd2).1 (by simp [e])
      refine ⟨h1, ?_, by simpa [swapPairs] using hq1, hv, hfr⟩
      rw [← hl]
      simp only [List.cons_append, List.head_cons, hxy]
      rw [q_swap_loop, if_pos ⟨hyh, hyn⟩]
      simp only [setNext_next, setPrev_next, setPrev_prev, setNext_prev, if_neg hP.symm,
        if_neg hN.symm, if_neg hxy2, if_true, ← Seg.first hs]

theorem q_swap_spec {h : Heap} {head : Nat} {xs : List Nat} (hq : IsQueue h head xs)
    {fuel : Nat} (hf : xs.length < fuel) :
    ∃ h1, q_swap fuel h head = some h1 ∧ IsQueue h1 head (swapPairs xs) ∧
      h1.value = h.value ∧ h1.freed = h.freed ∧ (xs.length < 2 → h1 = h) := by
  by_cases h2 : xs.length < 2
  · refine ⟨h, by simp [q_swap, hq.1, q_size_isQueue hq hf, h2], ?_, rfl, rfl, fun _ => rfl⟩
    match xs, h2 with
    | [], _ => exact hq
    | [_], _ => exact hq
  · obtain ⟨h1, hl, hq1, hv, hfr⟩ := q_swap_loop_spec xs.length xs [] h fuel (le_refl _)
      (by simpa using hq) hf
    rw [← Seg.first hq.2.2.2.1] at hl
    exact ⟨h1, by simp [q_swap, hq.1, q_size_isQueue hq hf, h2, hl], by simpa using hq1, hv, hfr,
      fun e => absurd e h2⟩

/-! ## The order of `strcmp` -/

theorem strcmp_self : ∀ (a : List Nat), strcmp a a = 0
  | [] => rfl
  | x :: a => by
    simp only [strcmp, if_true]
    split
    · rfl
    · exact strcmp_self a

theorem strcmp_neg : ∀ (a b : List Nat), strcmp b a = - strcmp a b
  | [], [] => rfl
  | [], y :: b => by simp [strcmp]
  | x :: a, [] => by simp [strcmp]
  | x :: a, y :: b => by
    simp only [strcmp]
    by_cases e : x = y
    · subst e
      simp only [if_true]
      split
      · rfl
      · exact strcmp_neg a b
    · rw [if_neg e, if_neg (fun e2 => e e2.symm)]
      omega

theorem strcmp_le_trans : ∀ (a b c : List Nat),
    strcmp a b ≤ 0 → strcmp b c ≤ 0 → strcmp a c ≤ 0
  | [], [], c, _, h2 => h2
  | [], y :: b, [], _, _ => by simp [strcmp]
  | [], y :: b, z :: c, h1, h2 => by
    simp only [strcmp] at h1 h2 ⊢
    split at h2 <;> omega
  | x :: a, [], [], h1, _ => h1
  | x :: a, [], z :: c, h1, h2 => by
    simp only [strcmp] at h1 h2 ⊢
    have hx : x = 0 := by omega
    subst hx
    split
    · simp
    · omega
  | x :: a, y :: b, [], h1, h2 => by
    simp only [strcmp] at h1 h2 ⊢
    split at h1
    · rename_i e
      subst e
      omega
    · omega
  | x :: a, y :: b, z :: c, h1, h2 => by
    simp only [strcmp] at h1 h2 ⊢
    by_cases e1 : x = y
    · subst e1
      simp only [if_true] at h1
      by_cases e2 : x = z
      · subst e2
        simp only [if_true] at h2 ⊢
        by_cases e3 : x = 0
        · simp [e3]
        · rw [if_neg e3] at h1 h2 ⊢
          exact strcmp_le_trans a b c h1 h2
      · rw [if_neg e2] at h2 ⊢
        exact h2
    · rw [if_neg e1] at h1
      by_cases e2 : y = z
      · subst e2
        rw [if_neg e1]
        exact h1
      · rw [if_neg e2] at h2
        have : x ≠ z := by omega
        rw [if_neg this]
        omega

theorem StrLe.refl (a : List Nat) : StrLe a a := by
  simp [StrLe, strcmp_self]

theorem StrLe.trans {a b c : List Nat} (h1 : StrLe a b) (h2 : StrLe b c) : StrLe a c :=
  strcmp_le_trans a b c h1 h2

theorem StrLe.of_not_lt {a b : List Nat} (h : ¬ strcmp a b < 0) : StrLe b a := by
  unfold StrLe
  rw [strcmp_neg a b]
  omega

theorem StrLe.of_lt {a b : List Nat} (h : strcmp a b < 0) : StrLe a b := by
  unfold StrLe
  omega

theorem strcmp_eq_zero_iff : ∀ (a b : List Nat), (∀ c ∈ a, c ≠ 0) → (∀ c ∈ b, c ≠ 0) →
    (strcmp a b = 0 ↔ a = b)
  | [], [], _, _ => by simp [strcmp]
  | [], y :: b, _, hb => by
    have : y ≠ 0 := hb y (by simp)
    simp only [strcmp]
    constructor
    · intro h; omega
    · intro h; simp at h
  | x :: a, [], ha, _ => by
    have : x ≠ 0 := ha x (by simp)
    simp only [strcmp]
    constructor
    · intro h; omega
    · intro h; simp at h
  | x :: a, y :: b, ha, hb => by
    have hx : x ≠ 0 := ha x (by simp)
    simp only [strcmp]
    by_cases e : x = y
    · subst e
      simp only [if_true, if_neg hx, List.cons.injEq, true_and]
      exact strcmp_eq_zero_iff a b (fun c hc => ha c (List.mem_cons_of_mem _ hc))
        (fun c hc => hb c (List.mem_cons_of_mem _ hc))
    · rw [if_neg e]
      constructor
      · intro h; omega
      · intro h
        simp only [List.cons.injEq] at h
        exact absurd h.1 e

/-! ## Merging two runs -/

@[simp] theorem Run_nil (h : Heap) (p : Nat) : Run h p [] ↔ p = 0 := Iff.rfl
@[simp] theorem Run_cons (h : Heap) (p x : Nat) (xs : List Nat) :
    Run h p (x :: xs) ↔ p = x ∧ x ≠ 0 ∧ Run h (h.next x) xs := Iff.rfl

/-- A run only depends on the `next` links of its nodes. -/
theorem Run.frame {h h1 : Heap} : ∀ {p : Nat} {r : List Nat},
    (∀ q ∈ r, h1.next q = h.next q) → Run h p r → Run h1 p r
  | p, [], _, hr => hr
  | p, x :: r, hfr, hr => by
    simp only [Run_cons] at hr ⊢
    refine ⟨hr.1, hr.2.1, ?_⟩
    rw [hfr x (by simp)]
    exact Run.frame (fun q hq => hfr q (List.mem_cons_of_mem _ hq)) hr.2.2

theorem Run.ne_zero {h : Heap} : ∀ {p : Nat} {r : List Nat}, Run h p r → ∀ x ∈ r, x ≠ 0
  | p, [], _, x, hx => by simp at hx
  | p, y :: r, hr, x, hx => by
    simp only [Run_cons] at hr
    rcases List.mem_cons.1 hx with e | e
    · exact e ▸ hr.2.1
    · exact Run.ne_zero hr.2.2 x e

theorem mergeRuns_nil_right (v : Nat → List Nat) (xs : List Nat) : mergeRuns v xs [] = xs := by
  cases xs <;> simp [mergeRuns]

theorem mergeRuns_perm (v : Nat → List Nat) : ∀ (xs ys : List Nat),
    (mergeRuns v xs ys).Perm (xs ++ ys)
  | [], ys => by simp [mergeRuns]
  | x :: xs, [] => by simp [mergeRuns]
  | x :: xs, y :: ys => by
    simp only [mergeRuns]
    split
    · exact List.Perm.cons x (mergeRuns_perm v xs (y :: ys))
    · have := mergeRuns_perm v (x :: xs) ys
      exact (List.Perm.cons y this).trans (List.perm_middle.symm)

theorem mergeRuns_sorted (v : Nat → List Nat) : ∀ (xs ys : List Nat),
    SortedRun v xs → SortedRun v ys → SortedRun v (mergeRuns v xs ys)
  | [], ys, _, hy => by simpa [mergeRuns] using hy
  | x :: xs, [], hx, _ => by simpa [mergeRuns] using hx
  | x :: xs, y :: ys, hx, hy => by
    simp only [mergeRuns]
    unfold SortedRun at hx hy ⊢
    split
    · rename_i hlt
      have ih := mergeRuns_sorted v xs (y :: ys) (List.Pairwise.of_cons hx) hy
      refine List.Pairwise.cons ?_ ih
      intro z hz
      have hz2 := (mergeRuns_perm v xs (y :: ys)).subset hz
      rcases List.mem_append.1 hz2 with e | e
      · exact List.rel_of_pairwise_cons hx e
      · rcases List.mem_cons.1 e with e1 | e1
        · exact e1 ▸ StrLe.of_lt hlt
        · exact (StrLe.of_lt hlt).trans (List.rel_of_pairwise_cons hy e1)
    · rename_i hlt
      have ih := mergeRuns_sorted v (x :: xs) ys hx (List.Pairwise.of_cons hy)
      refine List.Pairwise.cons ?_ ih
      intro z hz
      have hz2 := (mergeRuns_perm v (x :: xs) ys).subset hz
      rcases List.mem_append.1 hz2 with e | e
      · rcases List.mem_cons.1 e with e1 | e1
        · exact e1 ▸ StrLe.of_not_lt hlt
        · exact (StrLe.of_not_lt hlt).trans (List.rel_of_pairwise_cons hx e1)
      · exact List.rel_of_pairwise_cons hy e

theorem loadPtr_storePtr (h : Heap) (head : Nat) (ptr : Option Nat) (v : Nat) :
    loadPtr (storePtr h head ptr v).1 (storePtr h head ptr v).2 ptr = v := by
  cases ptr <;> simp [loadPtr, storePtr]

theorem storePtr_next (h : Heap) (head : Nat) (ptr : Option Nat) (v q : Nat)
    (hq : ptr ≠ some q) : (storePtr h head ptr v).1.next q = h.next q := by
  cases ptr with
  | none => rfl
  | some p =>
    have : q ≠ p := fun e => hq (by rw [e])
    simp [storePtr, this]

theorem storePtr_prev (h : Heap) (head : Nat) (ptr : Option Nat) (v : Nat) :
    (storePtr h head ptr v).1.prev = h.prev := by
  cases ptr <;> rfl

theorem storePtr_value (h : Heap) (head : Nat) (ptr : Option Nat) (v : Nat) :
    (storePtr h head ptr v).1.value = h.value := by
  cases ptr <;> rfl

theorem storePtr_freed (h : Heap) (head : Nat) (ptr : Option Nat) (v : Nat) :
    (storePtr h head ptr v).1.freed = h.freed := by
  cases ptr <;> rfl

theorem storePtr_head (h : Heap) (head : Nat) (ptr : Option Nat) (v : Nat) (hp : ptr ≠ none) :
    (storePtr h head ptr v).2 = head := by
  cases ptr with
  | none => exact absurd rfl hp
  | some p => rfl

theorem merge_loop_spec : ∀ (n : Nat) (r1 r2 : List Nat) (h : Heap) (head : Nat)
    (ptr : Option Nat) (L1 L2 fuel : Nat), r1.length + r2.length ≤ n →
    Run h L1 r1 → Run h L2 r2 → (r1 ++ r2).Nodup → (∀ p, ptr = some p → p ∉ r1 ++ r2) →
    r1.length + r2.length < fuel →
      ∃ res, merge_loop fuel h head ptr L1 L2 = some res ∧ MergePost h head ptr r1 r2 res := by
  intro n
  induction n with
  | zero =>
    intro r1 r2 h head ptr L1 L2 fuel hn h1 h2 _ hp hf
    obtain ⟨k, rfl⟩ : ∃ k, fuel = k + 1 := ⟨fuel - 1, by omega⟩
    have e1 : r1 = [] := List.length_eq_zero.1 (by omega)
    have e2 : r2 = [] := List.length_eq_zero.1 (by omega)
    subst e1 e2
    simp only [Run_nil] at h1 h2
    subst h1 h2
    refine ⟨storePtr h head ptr (0 ||| 0), by simp [merge_loop], ?_, ?_, ?_, ?_, ?_, ?_⟩
    · simp [mergeRuns, loadPtr_storePtr]
    · intro q _ hq; exact storePtr_next _ _ _ _ _ hq
    · exact storePtr_head _ _ _ _
    · exact storePtr_prev _ _ _ _
    · exact storePtr_value _ _ _ _
    · exact storePtr_freed _ _ _ _
  | succ n ih =>
    intro r1 r2 h head ptr L1 L2 fuel hn h1 h2 hnd hp hf
    obtain ⟨k, rfl⟩ : ∃ k, fuel = k + 1 := ⟨fuel - 1, by omega⟩
    have hstore : ∀ (r : List Nat) (v w : Nat), (∀ q ∈ r, q ∈ r1 ++ r2) → Run h v r →
        Run (storePtr h head ptr w).1 v r := by
      intro r v w hsub hr
      refine Run.frame ?_ hr
      intro q hq
      exact storePtr_next _ _ _ _ _ (fun e => hp q e (hsub q hq))
    match r1, r2, h1, h2, hn, hnd, hp, hf, hstore with
    | [], r2, h1, h2, _, _, hp, _, hstore =>
      simp only [Run_nil] at h1
      subst h1
      refine ⟨storePtr h head ptr (0 ||| L2), by simp [merge_loop], ?_, ?_, ?_, ?_, ?_, ?_⟩
      · simp only [mergeRuns, loadPtr_storePtr, Nat.zero_or]
        exact hstore r2 L2 _ (by simp) h2
      · intro q _ hq; exact storePtr_next _ _ _ _ _ hq
      · exact storePtr_head _ _ _ _
      · exact storePtr_prev _ _ _ _
      · exact storePtr_value _ _ _ _
      · exact storePtr_freed _ _ _ _
    | x :: r1, [], h1, h2, _, _, hp, _, hstore =>
      simp only [Run_nil] at h2
      subst h2
      refine ⟨storePtr h head ptr (L1 ||| 0), by simp [merge_loop], ?_, ?_, ?_, ?_, ?_, ?_⟩
      · simp only [mergeRuns, loadPtr_storePtr, Nat.or_zero]
        exact hstore (x :: r1) L1 _ (by simp) h1
      · intro q _ hq; exact storePtr_next _ _ _ _ _ hq
      · exact storePtr_head _ _ _ _
      · exact storePtr_prev _ _ _ _
      · exact storePtr_value _ _ _ _
      · exact storePtr_freed _ _ _ _
    | x :: r1, y :: r2, h1, h2, hn, hnd, hp, hf, hstore =>
      simp only [Run_cons] at h1 h2
      obtain ⟨e1, hx0, h1⟩ := h1
      obtain ⟨e2, hy0, h2⟩ := h2
      subst e1 e2
      have hpx : ptr ≠ some L1 := fun e => hp L1 e (by simp)
      have hpy : ptr ≠ some L2 := fun e => hp L2 e (by simp)
      by_cases hlt : strcmp (h.value L1) (h.value L2) < 0
      · -- the left front is linked
        have hnd2 : (r1 ++ L2 :: r2).Nodup := (List.nodup_cons.1 hnd).2
        have hx1 : L1 ∉ r1 ++ L2 :: r2 := (List.nodup_cons.1 hnd).1
        obtain ⟨res, hl, hrun, hfr, hhd, hpv, hval, hfd⟩ :=
          ih r1 (L2 :: r2) (storePtr h head ptr L1).1 (storePtr h head ptr L1).2 (some L1)
            (h.next L1) L2 k (by simp at hn ⊢; omega)
            (hstore r1 _ _ (fun q hq => by simp [hq]) h1)
            (hstore (L2 :: r2) _ _ (fun q hq => List.mem_append_right _ hq)
              (by simp [Run_cons, hy0, h2]))
            hnd2 (fun p e => by
              simp only [Option.some.injEq] at e
              subst e; exact hx1) (by simp at hf ⊢; omega)
        refine ⟨res, ?_, ?_, ?_, ?_, ?_, ?_, ?_⟩
        · rw [merge_loop, if_pos ⟨hx0, hy0⟩]
          simp only [hlt, decide_True, if_true, loadPtr_storePtr]
          rw [storePtr_next _ _ _ _ _ hpx]
          exact hl
        · simp only [mergeRuns, if_pos hlt, Run_cons]
          rw [storePtr_value] at hrun
          refine ⟨?_, hx0, hrun⟩
          cases ptr with
          | none =>
            simp only [loadPtr]
            rw [hhd (by simp)]
            rfl
          | some p =>
            simp only [loadPtr]
            have hp1 : p ∉ L1 :: r1 ++ L2 :: r2 := hp p rfl
            rw [hfr p (fun e => hp1 (List.mem_cons_of_mem _ e))
              (fun e => hp1 (by simp only [Option.some.injEq] at e; simp [e])) ]
            simp [storePtr]
        · intro q hq hpq
          have hq1 : q ≠ L1 := fun e => hq (by simp [e])
          rw [hfr q (fun e => hq (List.mem_cons_of_mem _ e))
            (fun e => hq1 (by simp only [Option.some.injEq] at e; exact e.symm))]
          exact storePtr_next _ _ _ _ _ hpq
        · intro hne
          rw [hhd (by simp)]
          exact storePtr_head _ _ _ _ hne
        · rw [hpv]; exact storePtr_prev _ _ _ _
        · rw [hval]; exact storePtr_value _ _ _ _
        · rw [hfd]; exact storePtr_freed _ _ _ _
      · -- the right front is linked
        have hperm : (L2 :: (L1 :: r1 ++ r2)).Perm (L1 :: r1 ++ L2 :: r2) :=
          List.perm_middle.symm
        have hnd1 : (L2 :: (L1 :: r1 ++ r2)).Nodup := hperm.nodup_iff.2 hnd
        have hnd2 : (L1 :: r1 ++ r2).Nodup := (List.nodup_cons.1 hnd1).2
        have hy1 : L2 ∉ L1 :: r1 ++ r2 := (List.nodup_cons.1 hnd1).1
        obtain ⟨res, hl, hrun, hfr, hhd, hpv, hval, hfd⟩ :=
          ih (L1 :: r1) r2 (storePtr h head ptr L2).1 (storePtr h head ptr L2).2 (some L2)
            L1 (h.next L2) k (by simp at hn ⊢; omega)
            (hstore (L1 :: r1) _ _ (fun q hq => List.mem_append_left _ hq)
              (by simp [Run_cons, hx0, h1]))
            (hstore r2 _ _ (fun q hq =>
              List.mem_append_right _ (List.mem_cons_of_mem _ hq)) h2)
            hnd2 (fun p e => by
              simp only [Option.some.injEq] at e
              subst e; exact hy1) (by simp at hf ⊢; omega)
        have hmem : ∀ q, q ∉ L1 :: r1 ++ L2 :: r2 → q ∉ L1 :: r1 ++ r2 ∧ q ≠ L2 := by
          intro q hq
          have : q ∉ L2 :: (L1 :: r1 ++ r2) := fun e => hq (hperm.subset e)
          exact ⟨fun e => this (List.mem_cons_of_mem _ e), fun e => this (by simp [e])⟩
        refine ⟨res, ?_, ?_, ?_, ?_, ?_, ?_, ?_⟩
        · rw [merge_loop, if_pos ⟨hx0, hy0⟩]
          simp only [hlt, decide_False, if_false, loadPtr_storePtr]
          rw [storePtr_next _ _ _ _ _ hpy]
          simpa using hl
        · simp only [mergeRuns, if_neg hlt, Run_cons]
          rw [storePtr_value] at hrun
          refine ⟨?_, hy0, hrun⟩
          cases ptr with
          | none =>
            simp only [loadPtr]
            rw [hhd (by simp)]
            rfl
          | some p =>
            simp only [loadPtr]
            have hp1 := hmem p (hp p rfl)
            rw [hfr p hp1.1 (fun e => hp1.2 (by simp only [Option.some.injEq] at e; exact e.symm))]
            simp [storePtr]
        · intro q hq hpq
          have hq1 := hmem q hq
          rw [hfr q hq1.1 (fun e => hq1.2 (by simp only [Option.some.injEq] at e; exact e.symm))]
          exact storePtr_next _ _ _ _ _ hpq
        · intro hne
          rw [hhd (by simp)]
          exact storePtr_head _ _ _ _ hne
        · rw [hpv]; exact storePtr_prev _ _ _ _
        · rw [hval]; exact storePtr_value _ _ _ _
        · rw [hfd]; exact storePtr_freed _ _ _ _

theorem merge_2_Queue_spec {h : Heap} {L1 L2 : Nat} {r1 r2 : List Nat} {fuel : Nat}
    (h1 : Run h L1 r1) (h2 : Run h L2 r2) (hnd : (r1 ++ r2).Nodup)
    (hf : r1.length + r2.length < fuel) :
    ∃ res, merge_2_Queue fuel h L1 L2 = some res ∧
      Run res.1 res.2 (mergeRuns h.value r1 r2) ∧
      (∀ q, q ∉ r1 ++ r2 → res.1.next q = h.next q) ∧
      res.1.prev = h.prev ∧ res.1.value = h.value ∧ res.1.freed = h.freed := by
  obtain ⟨res, hl, hrun, hfr, _, hp, hv, hfd⟩ :=
    merge_loop_spec _ r1 r2 h 0 none L1 L2 fuel (le_refl _) h1 h2 hnd (by simp) hf
  exact ⟨res, hl, hrun, fun q hq => hfr q hq (by simp), hp, hv, hfd⟩

/-! ## The staging array -/

@[simp] theorem Staged_nil (h : Heap) (queue : Nat → Nat) (off : Nat) :
    Staged h queue off [] ↔ True := Iff.rfl
@[simp] theorem Staged_cons (h : Heap) (queue : Nat → Nat) (off : Nat) (r : List Nat)
    (rs : List (List Nat)) :
    Staged h queue off (r :: rs) ↔ Run h (queue off) r ∧ Staged h queue (off + 1) rs := Iff.rfl

theorem Staged.split {h : Heap} {queue : Nat → Nat} : ∀ {as : List (List Nat)} {off : Nat}
    {bs : List (List Nat)},
    Staged h queue off (as ++ bs) ↔ Staged h queue off as ∧ Staged h queue (off + as.length) bs
  | [], off, bs => by simp
  | a :: as, off, bs => by
    simp only [List.cons_append, Staged_cons, List.length_cons, and_assoc]
    rw [@Staged.split h queue as (off + 1) bs]
    have : off + 1 + as.length = off + (as.length + 1) := by omega
    rw [this]

theorem Staged.preserved {h h1 : Heap} {queue queue1 : Nat → Nat} : ∀ {rs : List (List Nat)}
    {off : Nat}, (∀ k, off ≤ k → k < off + rs.length → queue1 k = queue k) →
    (∀ q ∈ rs.flatten, h1.next q = h.next q) → Staged h queue off rs → Staged h1 queue1 off rs
  | [], _, _, _, _ => trivial
  | r :: rs, off, hq, hn, hs => by
    simp only [Staged_cons] at hs ⊢
    constructor
    · rw [hq off (le_refl _) (by simp)]
      exact Run.frame (fun q hq => hn q (by simp [hq])) hs.1
    · refine Staged.preserved (fun k h1 h2 => hq k (by omega) (by simp at h2 ⊢; omega)) ?_ hs.2
      intro q hq
      exact hn q (by
        simp only [List.flatten_cons, List.mem_append]
        exact Or.inr hq)

/-! ## One pass of merges -/

theorem q_sort_pass_spec : ∀ (n : Nat) (mid done : List (List Nat)) (h : Heap)
    (queue : Nat → Nat) (j fuel F : Nat), mid.length ≤ n →
    Staged h queue 0 (done ++ mid) → (done ++ mid).flatten.Nodup →
    (∀ r ∈ done ++ mid, SortedRun h.value r) →
    j + 1 = done.length + mid.length → done.length + mid.length ≤ QUEUE_SLOTS →
    mid.length < fuel → (done ++ mid).flatten.length < F →
      ∃ res rs, q_sort_pass fuel F h queue done.length j = some res ∧
        Staged res.1 res.2 0 rs ∧ rs.length = done.length + (mid.length + 1) / 2 ∧
        rs.flatten.Perm (done ++ mid).flatten ∧ (∀ r ∈ rs, SortedRun h.value r) ∧
        res.1.value = h.value ∧ res.1.freed = h.freed := by
  intro n
  induction n using Nat.strong_induction_on with
  | _ n ih =>
    intro mid done h queue j fuel F hn hst hnd hso hj hcap hf hF
    obtain ⟨k, rfl⟩ : ∃ k, fuel = k + 1 := ⟨fuel - 1, by omega⟩
    by_cases hlen : mid.length ≤ 1
    · refine ⟨(h, queue), done ++ mid, ?_, hst, ?_, List.Perm.refl _, hso, rfl, rfl⟩
      · rw [q_sort_pass, if_neg (by omega)]
      · rw [List.length_append]
        have : mid.length = 0 ∨ mid.length = 1 := by omega
        rcases this with e | e <;> simp [e]
    · obtain ⟨a, t, rfl⟩ : ∃ a t, mid = a :: t := by
        cases mid with
        | nil => simp at hlen
        | cons a t => exact ⟨a, t, rfl⟩
      obtain ⟨mid1, b, rfl⟩ : ∃ m b, t = m ++ [b] := by
        rcases List.eq_nil_or_concat t with e | ⟨m, b, e⟩
        · simp [e] at hlen
        · exact ⟨m, b, by simpa using e⟩
      have hji : done.length < j := by simp at hj; omega
      have hjc : j < QUEUE_SLOTS := by omega
      have hjeq : j = done.length + (mid1.length + 1) := by simp at hj; omega
      -- the two runs merged
      have hst2 := Staged.split.1 hst
      have hsa : Run h (queue done.length) a := by
        have := hst2.2
        simp only [Staged_cons, Nat.zero_add] at this
        exact this.1
      have hsb : Run h (queue j) b := by
        have := hst2.2
        rw [show a :: (mid1 ++ [b]) = (a :: mid1) ++ [b] from rfl, Staged.split] at this
        have h3 := this.2
        simp only [Staged_cons, Nat.zero_add, List.length_cons] at h3
        rw [hjeq]
        exact h3.1
      have hperm0 : (done ++ a :: (mid1 ++ [b])).flatten.Perm
          ((a ++ b) ++ (done.flatten ++ mid1.flatten)) := by
        rw [List.perm_iff_count]
        intro x
        simp only [List.flatten_append, List.flatten_cons, List.flatten_nil, List.append_nil,
          List.count_append]
        omega
      have hnd0 := hperm0.nodup_iff.1 hnd
      obtain ⟨hndab, _, hdisj⟩ := List.nodup_append.1 hnd0
      have hFab : a.length + b.length < F := by
        have := hperm0.length_eq
        simp only [List.length_append] at this
        omega
      obtain ⟨res1, hm, hrun, hfr, _, hv, hfd⟩ := merge_2_Queue_spec hsa hsb hndab hFab
      have hout : ∀ q, q ∈ done.flatten ++ mid1.flatten → res1.1.next q = h.next q :=
        fun q hq => hfr q (fun e => hdisj e hq)
      -- the state after the merge
      have hst3 : Staged res1.1 (bufStore queue done.length res1.2) 0
          ((done ++ [mergeRuns h.value a b]) ++ mid1) := by
        rw [Staged.split, Staged.split]
        refine ⟨⟨?_, ?_⟩, ?_⟩
        · refine Staged.preserved ?_ ?_ hst2.1
          · intro k _ hk
            have : k ≠ done.length := by omega
            simp [bufStore, this]
          · intro q hq
            exact hout q (List.mem_append_left _ hq)
        · simp only [Staged_cons, Nat.zero_add, Staged_nil, and_true, bufStore, if_true]
          exact hrun
        · have := hst2.2
          simp only [Staged_cons, Nat.zero_add] at this
          have h4 := this.2
          rw [Staged.split] at h4
          simp only [List.length_append, List.length_singleton, Nat.zero_add]
          refine Staged.preserved ?_ ?_ h4.1
          · intro k hk _
            have : k ≠ done.length := by omega
            simp [bufStore, this]
          · intro q hq
            exact hout q (List.mem_append_right _ hq)
      have hperm1 : ((done ++ [mergeRuns h.value a b]) ++ mid1).flatten.Perm
          (done ++ a :: (mid1 ++ [b])).flatten := by
        have hmp := mergeRuns_perm h.value a b
        rw [List.perm_iff_count] at hmp ⊢
        intro x
        have := hmp x
        simp only [List.flatten_append, List.flatten_cons, List.flatten_nil, List.append_nil,
          List.count_append] at this ⊢
        omega
      have hso1 : ∀ r ∈ (done ++ [mergeRuns h.value a b]) ++ mid1, SortedRun res1.1.value r := by
        intro r hr
        rw [hv]
        simp only [List.mem_append, List.mem_singleton] at hr
        rcases hr with (e | e) | e
        · exact hso r (List.mem_append_left _ e)
        · rw [e]
          exact mergeRuns_sorted _ _ _ (hso a (by simp)) (hso b (by simp))
        · exact hso r (by simp [e])
      obtain ⟨res, rs, hp, hst4, hl4, hperm4, hso4, hv4, hfd4⟩ :=
        ih mid1.length (by simp at hn ⊢; omega) mid1 (done ++ [mergeRuns h.value a b]) res1.1
          (bufStore queue done.length res1.2) (j - 1) k F (le_refl _) hst3
          (hperm1.nodup_iff.2 hnd) hso1 (by simp; omega) (by simp at hcap ⊢; omega)
          (by simp at hf; omega) (by rw [hperm1.length_eq]; exact hF)
      refine ⟨res, rs, ?_, hst4, ?_, hperm4.trans hperm1, ?_, by rw [hv4, hv], by rw [hfd4, hfd]⟩
      · rw [q_sort_pass, if_pos hji, if_pos hjc, hm]
        simp only []
        simpa using hp
      · rw [hl4]
        simp only [List.length_append, List.length_cons, List.length_nil]
        omega
      · intro r hr
        rw [← hv]
        exact hso4 r hr

/-! ## The merge phase -/

theorem q_sort_merge_spec : ∀ (n : Nat) (rs : List (List Nat)) (h : Heap) (queue : Nat → Nat)
    (fuel F : Nat), rs.length ≤ n → rs ≠ [] → Staged h queue 0 rs → rs.flatten.Nodup →
    (∀ r ∈ rs, SortedRun h.value r) → rs.length ≤ QUEUE_SLOTS → rs.length ≤ fuel →
    rs.length < F → rs.flatten.length < F →
      ∃ res r, q_sort_merge fuel F h queue rs.length = some res ∧ Run res.1 (res.2.1 0) r ∧
        r.Perm rs.flatten ∧ SortedRun h.value r ∧ res.1.value = h.value ∧
        res.1.freed = h.freed := by
  intro n
  induction n using Nat.strong_induction_on with
  | _ n ih =>
    intro rs h queue fuel F hn hne hst hnd hso hcap hf hF hF2
    have hpos : 0 < rs.length := List.length_pos.2 hne
    obtain ⟨k, rfl⟩ : ∃ k, fuel = k + 1 := ⟨fuel - 1, by omega⟩
    by_cases h1 : rs.length = 1
    · obtain ⟨r, rfl⟩ : ∃ r, rs = [r] := List.length_eq_one.1 h1
      simp only [Staged_cons, Staged_nil, and_true] at hst
      refine ⟨(h, queue, 1), r, by simp [q_sort_merge], hst, by simp, hso r (by simp), rfl, rfl⟩
    · obtain ⟨res1, rs1, hp, hst1, hl1, hperm1, hso1, hv1, hfd1⟩ :=
        q_sort_pass_spec rs.length rs [] h queue (rs.length - 1) F F (le_refl _)
          (by simpa using hst) (by simpa using hnd) (by simpa using hso)
          (by simp; omega) (by simpa using hcap) hF (by simpa using hF2)
      simp only [List.length_nil, Nat.zero_add, List.nil_append] at hp hl1 hperm1
      have hlt : rs1.length < rs.length := by omega
      obtain ⟨res, r, hm, hrun, hperm, hsr, hv, hfd⟩ :=
        ih rs1.length (by omega) rs1 res1.1 res1.2 k F (le_refl _)
          (by intro e; simp [e] at hl1; omega) hst1 (hperm1.nodup_iff.2 hnd)
          (by intro r hr; rw [hv1]; exact hso1 r hr) (by omega) (by omega) (by omega)
          (by rw [hperm1.length_eq]; exact hF2)
      refine ⟨res, r, ?_, hrun, hperm.trans hperm1, by rw [← hv1]; exact hsr, by rw [hv, hv1],
        by rw [hfd, hfd1]⟩
      rw [q_sort_merge, if_pos (by omega), hp]
      simp only []
      rw [← hl1]
      exact hm

/-! ## The divide phase -/

theorem detachOn_nil (h : Heap) : detachOn [] h = h := by
  ext y <;> simp [detachOn]

theorem detachOn_step (S : List Nat) (h : Heap) (c : Nat) :
    ((detachOn S h).setNext c 0).setPrev c 0 = detachOn (S ++ [c]) h := by
  ext y
  · by_cases e : y = c
    · subst e; simp [detachOn]
    · simp [detachOn, e]
  · by_cases e : y = c
    · subst e; simp [detachOn]
    · simp [detachOn, e]
  · rfl
  · rfl

@[simp] theorem Slots_nil (queue : Nat → Nat) (off : Nat) : Slots queue off [] ↔ True := Iff.rfl
@[simp] theorem Slots_cons (queue : Nat → Nat) (off y : Nat) (ys : List Nat) :
    Slots queue off (y :: ys) ↔ queue off = y ∧ Slots queue (off + 1) ys := Iff.rfl

/-- The links around the node `cur` of a queue. -/
theorem IsQueue.around {h : Heap} {head : Nat} {done : List Nat} {cur : Nat} {rest : List Nat}
    (hq : IsQueue h head (done ++ cur :: rest)) :
    h.next cur = (rest ++ [head]).head (by simp) ∧ h.prev (h.next cur) = cur ∧
      h.next cur ∉ done ++ [cur] ∧ h.next head ∈ done ++ [cur] ∧ head ∉ done ++ [cur] := by
  obtain ⟨_, _, hnd, hn, hp⟩ := hq
  have hn2 := (Seg.append.1 hn).2
  have e1 : h.next cur = (rest ++ [head]).head (by simp) := Seg.first hn2
  have hrev : (done ++ cur :: rest).reverse = rest.reverse ++ cur :: done.reverse := by simp
  rw [hrev] at hp
  have hp1 := Seg.last (Seg.append.1 hp).1
  rw [getLast_cons_reverse] at hp1
  have hmem : h.next cur ∈ rest ++ [head] := e1 ▸ List.head_mem _
  have hnd2 : (done ++ [cur] ++ (rest ++ [head])).Nodup := by
    have hperm : (done ++ [cur] ++ (rest ++ [head])).Perm (head :: (done ++ cur :: rest)) := by
      rw [List.perm_iff_count]
      intro x
      simp only [List.count_append, List.count_cons, List.count_nil]
      omega
    exact hperm.nodup_iff.2 hnd
  have hdisj := (List.nodup_append.1 hnd2).2.2
  refine ⟨e1, by rw [e1]; exact hp1, fun e => hdisj e hmem, ?_, fun e => hdisj e (by simp)⟩
  rw [Seg.first hn]
  cases done with
  | nil => simp
  | cons d ds => simp

theorem q_sort_divide_spec {h : Heap} {head : Nat} : ∀ (rest : List Nat) (cur : Nat)
    (done : List Nat) (queue : Nat → Nat) (fuel : Nat),
    IsQueue h head (done ++ cur :: rest) → done.length + rest.length + 1 ≤ QUEUE_SLOTS →
    rest.length + 1 < fuel →
      ∃ queue1, q_sort_divide fuel (detachOn done h) head (h.next cur) queue done.length =
          some (detachOn (done ++ cur :: rest) h, queue1, done.length + rest.length + 1) ∧
        (∀ k, k < done.length → queue1 k = queue k) ∧ Slots queue1 done.length (cur :: rest) := by
  intro rest
  induction rest with
  | nil =>
    intro cur done queue fuel hq hcap hf
    obtain ⟨k, rfl⟩ : ∃ k, fuel = k + 2 := ⟨fuel - 2, by simp at hf; omega⟩
    obtain ⟨e1, e2, e3, e4, e5⟩ := hq.around
    have e6 : h.next cur ∉ done := fun e => e3 (List.mem_append_left _ e)
    have e7 : head ∉ done := fun e => e5 (List.mem_append_left _ e)
    have e8 : h.next cur ≠ h.next head := fun e => e3 (e ▸ e4)
    have e9 : h.next cur = head := by simpa using e1
    refine ⟨bufStore queue done.length cur, ?_, ?_, ?_⟩
    · rw [q_sort_divide]
      have c1 : h.next cur ≠ (detachOn done h).next head := by
        simp only [detachOn, if_neg e7]; exact e8
      rw [if_pos c1]
      have p1 : (detachOn done h).prev (h.next cur) = cur := by
        simp only [detachOn, if_neg e6]; exact e2
      simp only [setNext_prev, p1, detachOn_step, setPrev_next, setNext_next]
      have p2 : (detachOn (done ++ [cur]) h).prev (h.next cur) = cur := by
        simp only [detachOn, if_neg e3]; exact e2
      have p3 : (detachOn (done ++ [cur]) h).next (h.next cur) = h.next (h.next cur) := by
        simp only [detachOn, if_neg e3]
      rw [if_pos (by omega), p2, p3, q_sort_divide]
      have c2 : ¬ (h.next (h.next cur) ≠ (detachOn (done ++ [cur]) h).next head) := by
        simp only [detachOn, if_neg e5, e9, ne_eq, not_not]
      rw [if_neg c2]
      simp
    · intro k hk
      have : k ≠ done.length := by omega
      simp [bufStore, this]
    · simp [bufStore]
  | cons r rest ih =>
    intro cur done queue fuel hq hcap hf
    obtain ⟨k, rfl⟩ : ∃ k, fuel = k + 1 := ⟨fuel - 1, by omega⟩
    obtain ⟨e1, e2, e3, e4, e5⟩ := hq.around
    have e6 : h.next cur ∉ done := fun e => e3 (List.mem_append_left _ e)
    have e7 : head ∉ done := fun e => e5 (List.mem_append_left _ e)
    have e8 : h.next cur ≠ h.next head := fun e => e3 (e ▸ e4)
    have e9 : h.next cur = r := by simpa using e1
    have hq2 : IsQueue h head ((done ++ [cur]) ++ r :: rest) := by simpa using hq
    obtain ⟨queue1, hd, hk, hs⟩ := ih r (done ++ [cur]) (bufStore queue done.length cur) k hq2
      (by simp at hcap ⊢; omega) (by simp at hf; omega)
    refine ⟨queue1, ?_, ?_, ?_⟩
    · rw [q_sort_divide]
      have c1 : h.next cur ≠ (detachOn done h).next head := by
        simp only [detachOn, if_neg e7]; exact e8
      rw [if_pos c1]
      have p1 : (detachOn done h).prev (h.next cur) = cur := by
        simp only [detachOn, if_neg e6]; exact e2
      simp only [setNext_prev, p1, detachOn_step, setPrev_next, setNext_next]
      have p2 : (detachOn (done ++ [cur]) h).prev (h.next cur) = cur := by
        simp only [detachOn, if_neg e3]; exact e2
      have p3 : (detachOn (done ++ [cur]) h).next (h.next cur) = h.next (h.next cur) := by
        simp only [detachOn, if_neg e3]
      rw [if_pos (by simp at hcap; omega), p2, p3, e9]
      simp only [List.length_append, List.length_singleton, List.append_assoc,
        List.singleton_append, List.length_cons, List.length_nil, Nat.zero_add] at hd ⊢
      rw [hd]
      congr 3
      omega
    · intro k1 hk1
      rw [hk k1 (by simp; omega)]
      have : k1 ≠ done.length := by omega
      simp [bufStore, this]
    · simp only [Slots_cons]
      refine ⟨?_, by simpa using hs⟩
      rw [hk done.length (by simp)]
      simp [bufStore]

theorem Staged_of_Slots {h : Heap} {queue : Nat → Nat} : ∀ {ys : List Nat} {off : Nat},
    Slots queue off ys → (∀ y ∈ ys, y ≠ 0 ∧ h.next y = 0) →
      Staged h queue off (ys.map (fun y => [y]))
  | [], _, _, _ => trivial
  | y :: ys, off, hs, hy => by
    simp only [Slots_cons] at hs
    simp only [List.map_cons, Staged_cons, Run_cons, Run_nil]
    exact ⟨⟨hs.1, (hy y (by simp)).1, (hy y (by simp)).2⟩,
      Staged_of_Slots hs.2 (fun z hz => hy z (List.mem_cons_of_mem _ hz))⟩

theorem flatten_map_singleton : ∀ (ys : List Nat), (ys.map (fun y => [y])).flatten = ys
  | [] => rfl
  | y :: ys => by simp [flatten_map_singleton ys]

/-! ## The repair phase -/

@[simp] theorem BackLinks_nil (g : Nat → Nat) (p : Nat) : BackLinks g p [] ↔ True := Iff.rfl
@[simp] theorem BackLinks_cons (g : Nat → Nat) (p x : Nat) (xs : List Nat) :
    BackLinks g p (x :: xs) ↔ g x = p ∧ BackLinks g x xs := Iff.rfl

theorem BackLinks.agree {g g1 : Nat → Nat} : ∀ {r : List Nat} {p : Nat},
    (∀ y ∈ r, g1 y = g y) → BackLinks g p r → BackLinks g1 p r
  | [], _, _, _ => trivial
  | x :: r, p, hg, hb => by
    simp only [BackLinks_cons] at hb ⊢
    exact ⟨by rw [hg x (by simp)]; exact hb.1,
      BackLinks.agree (fun y hy => hg y (List.mem_cons_of_mem _ hy)) hb.2⟩

/-- Back links along a run, closed by the link of `q` to the last node, are a
chain through the reversed run. -/
theorem BackLinks.toSeg {g : Nat → Nat} {q : Nat} : ∀ {r : List Nat} {p : Nat},
    BackLinks g p r → g q = (p :: r).getLast (by simp) → Seg g q r.reverse p
  | [], p, _, hq => by simpa using hq
  | x :: r, p, hb, hq => by
    simp only [BackLinks_cons] at hb
    rw [List.reverse_cons, Seg.snoc]
    refine ⟨BackLinks.toSeg hb.2 ?_, hb.1⟩
    rw [hq]
    simp

/-- A run is a chain of `next` links ending in `NULL`. -/
theorem Run.chain {h : Heap} : ∀ {r : List Nat} {p : Nat}, Run h (h.next p) r → Seg h.next p r 0
  | [], p, hr => by simpa using hr
  | x :: r, p, hr => by
    simp only [Run_cons] at hr
    simp only [Seg_cons]
    exact ⟨hr.1, Run.chain hr.2.2⟩

theorem q_sort_repair_spec : ∀ (r : List Nat) (p : Nat) (h : Heap) (fuel : Nat),
    Run h (h.next p) r → (p :: r).Nodup → r.length < fuel →
      ∃ h1, q_sort_repair fuel h p = some (h1, (p :: r).getLast (by simp)) ∧
        h1.next = h.next ∧ BackLinks h1.prev p r ∧ (∀ q, q ∉ r → h1.prev q = h.prev q) ∧
        h1.value = h.value ∧ h1.freed = h.freed
  | [], p, h, fuel, hr, _, hf => by
    obtain ⟨k, rfl⟩ : ∃ k, fuel = k + 1 := ⟨fuel - 1, by simp at hf; omega⟩
    simp only [Run_nil] at hr
    exact ⟨h, by simp [q_sort_repair, hr], rfl, trivial, fun _ _ => rfl, rfl, rfl⟩
  | x :: r, p, h, fuel, hr, hnd, hf => by
    obtain ⟨k, rfl⟩ : ∃ k, fuel = k + 1 := ⟨fuel - 1, by simp at hf; omega⟩
    simp only [Run_cons] at hr
    obtain ⟨hpx, hx0, hr⟩ := hr
    have hnd2 : (x :: r).Nodup := (List.nodup_cons.1 hnd).2
    obtain ⟨h1, hl, hn, hb, hfr, hv, hfd⟩ :=
      q_sort_repair_spec r x (h.setPrev x p) k (@Run.frame h (h.setPrev x p) _ _ (fun _ _ => rfl) hr) hnd2
        (by simp at hf; omega)
    refine ⟨h1, ?_, by rw [hn]; rfl, ?_, ?_, by rw [hv]; rfl, by rw [hfd]; rfl⟩
    · rw [q_sort_repair, hpx, if_pos hx0]
      simp only [setPrev_next, hpx, hl]
      simp
    · simp only [BackLinks_cons]
      refine ⟨?_, hb⟩
      rw [hfr x (List.nodup_cons.1 hnd2).1]
      simp
    · intro q hq
      have hqx : q ≠ x := fun e => hq (by simp [e])
      rw [hfr q (fun e => hq (List.mem_cons_of_mem _ e))]
      simp [hqx]

/-! ## Sorting -/

theorem q_sort_spec {h : Heap} {head : Nat} {xs : List Nat} (hq : IsQueue h head xs)
    (hcap : xs.length ≤ QUEUE_SLOTS) {fuel : Nat} (hf : xs.length + 1 < fuel) :
    ∃ h1 ys, q_sort fuel h head = some h1 ∧ IsQueue h1 head ys ∧ ys.Perm xs ∧
      SortedRun h.value ys ∧ h1.value = h.value ∧ h1.freed = h.freed := by
  have hsz := q_size_isQueue hq (show xs.length < fuel by omega)
  by_cases h2 : xs.length < 2
  · refine ⟨h, xs, by simp [q_sort, hq.1, hsz, h2], hq, List.Perm.refl _, ?_, rfl, rfl⟩
    match xs, h2 with
    | [], _ => exact List.Pairwise.nil
    | [_], _ => exact List.pairwise_singleton _ _
  · obtain ⟨x0, rest, rfl⟩ : ∃ x0 rest, xs = x0 :: rest := by
      cases xs with
      | nil => simp at h2
      | cons a t => exact ⟨a, t, rfl⟩
    have hx0 : h.next head = x0 := hq.2.2.2.1.1
    -- divide
    obtain ⟨queue1, hd, _, hs⟩ := q_sort_divide_spec rest x0 [] (fun _ => 0) fuel
      (by simpa using hq) (by simpa using hcap) (by simp at hf; omega)
    simp only [detachOn_nil, List.length_nil, Nat.zero_add, List.nil_append] at hd hs
    have hst : Staged (detachOn (x0 :: rest) h) queue1 0 ((x0 :: rest).map (fun y => [y])) := by
      refine Staged_of_Slots hs ?_
      intro y hy
      exact ⟨hq.2.1 y hy, by simp only [detachOn, if_pos hy]⟩
    have hnd : (x0 :: rest).Nodup := hq.nodup
    -- merge
    obtain ⟨m, r, hm, hrun, hperm, hsr, hv, hfd⟩ :=
      q_sort_merge_spec _ ((x0 :: rest).map (fun y => [y])) (detachOn (x0 :: rest) h) queue1
        fuel fuel (le_refl _) (by simp) hst (by rw [flatten_map_singleton]; exact hnd)
        (by
          intro r hr
          obtain ⟨y, _, rfl⟩ := List.mem_map.1 hr
          exact List.pairwise_singleton _ _)
        (by simpa using hcap) (by simp at hf ⊢; omega) (by simp at hf ⊢; omega)
        (by rw [flatten_map_singleton]; simp at hf ⊢; omega)
    rw [flatten_map_singleton] at hperm
    simp only [List.length_map, List.length_cons] at hm
    have hhr : head ∉ r := fun e => hq.not_mem (hperm.subset e)
    have hndr : (head :: r).Nodup := List.nodup_cons.2 ⟨hhr, hperm.nodup_iff.2 hnd⟩
    -- repair
    have hrun3 : Run (m.1.setNext head (m.2.1 0)) ((m.1.setNext head (m.2.1 0)).next head) r := by
      simp only [setNext_next, if_true]
      refine Run.frame ?_ hrun
      intro q hqr
      have : q ≠ head := fun e => hhr (e ▸ hqr)
      simp [this]
    obtain ⟨h4, hrep, hn4, hb4, hfr4, hv4, hfd4⟩ :=
      q_sort_repair_spec r head (m.1.setNext head (m.2.1 0)) fuel hrun3 hndr
        (by rw [hperm.length_eq]; omega)
    have hred := Seg.redirect head hndr (Run.chain hrun3)
    obtain ⟨L, hL⟩ : ∃ L, L = (head :: r).getLast (by simp) := ⟨_, rfl⟩
    rw [← hL] at hrep hred
    refine ⟨(h4.setNext L head).setPrev head L, r, ?_, ?_, hperm, hsr, ?_, ?_⟩
    · rw [q_sort, if_neg hq.1, hsz]
      simp only [List.length_cons] at h2 ⊢
      rw [if_neg h2, hx0, hd]
      simp only []
      rw [hm]
      simp only []
      rw [hrep]
    · refine ⟨hq.1, fun y hy => hq.2.1 y (hperm.subset hy), hndr, ?_, ?_⟩
      · refine Seg.congr ?_ hred
        intro y _
        simp only [setPrev_next, setNext_next, hn4]
      · refine BackLinks.toSeg (BackLinks.agree ?_ hb4) (by simp [hL])
        intro y hy
        have : y ≠ head := fun e => hhr (e ▸ hy)
        simp [this]
    · simp only [setPrev_value, setNext_value, hv4, hv]
      rfl
    · simp only [setPrev_freed, setNext_freed, hfd4, hfd]
      rfl

/-! ## Strings occurring once -/

theorem strcmp_eq_symm {a b : List Nat} (h : strcmp a b = 0) : strcmp b a = 0 := by
  rw [strcmp_neg a b, h]; rfl

theorem strcmp_eq_trans {a b c : List Nat} (h1 : strcmp a b = 0) (h2 : strcmp b c = 0) :
    strcmp a c = 0 := by
  have l1 := strcmp_le_trans a b c (by omega) (by omega)
  have l2 := strcmp_le_trans c b a (by rw [strcmp_neg b c]; omega) (by rw [strcmp_neg a b]; omega)
  rw [strcmp_neg a c] at l2
  omega

theorem strcmp_lt_of_lt_of_le {a b c : List Nat} (h1 : strcmp a b < 0) (h2 : strcmp b c ≤ 0) :
    strcmp a c < 0 := by
  by_contra hc
  have l1 : strcmp c a ≤ 0 := by rw [strcmp_neg a c]; omega
  have l2 := strcmp_le_trans b c a h2 l1
  rw [strcmp_neg a b] at l2
  omega

theorem strcmp_ne_of_eq_of_lt {a b c : List Nat} (h1 : strcmp a b = 0) (h2 : strcmp b c < 0) :
    strcmp a c ≠ 0 := by
  intro hc
  have := strcmp_eq_trans (strcmp_eq_symm h1) hc
  omega

theorem keepUnique_append (v : Nat → List Nat) (A B : List Nat)
    (hAB : ∀ a ∈ A, ∀ b ∈ B, strcmp (v a) (v b) ≠ 0) :
    keepUnique v (A ++ B) = keepUnique v A ++ keepUnique v B := by
  unfold keepUnique
  rw [List.filter_append]
  congr 1
  · refine List.filter_congr ?_
    intro a ha
    have : eqCount v (A ++ B) a = eqCount v A a := by
      unfold eqCount
      rw [List.countP_append, Nat.add_right_eq_self, List.countP_eq_zero]
      intro b hb
      simpa using hAB a ha b hb
    rw [this]
  · refine List.filter_congr ?_
    intro b hb
    have : eqCount v (A ++ B) b = eqCount v B b := by
      unfold eqCount
      rw [List.countP_append, Nat.add_left_eq_self, List.countP_eq_zero]
      intro a ha
      have := hAB a ha b hb
      simp only [decide_eq_true_eq]
      exact fun e => this (strcmp_eq_symm e)
    rw [this]

theorem keepUnique_run (v : Nat → List Nat) (run : List Nat) (hlen : 2 ≤ run.length)
    (hrun : ∀ a ∈ run, ∀ b ∈ run, strcmp (v a) (v b) = 0) : keepUnique v run = [] := by
  unfold keepUnique
  rw [List.filter_eq_nil_iff]
  intro a ha
  have : eqCount v run a = run.length := by
    unfold eqCount
    rw [List.countP_eq_length]
    intro b hb
    simpa using hrun a ha b hb
  simp only [this, decide_eq_true_eq]
  omega

theorem keepUnique_single (v : Nat → List Nat) (x : Nat) : keepUnique v [x] = [x] := by
  simp [keepUnique, eqCount, strcmp_self]

theorem keepUnique_nil (v : Nat → List Nat) : keepUnique v [] = [] := rfl

/-- In a sorted list whose first two strings differ, the first string occurs
once. -/
theorem keepUnique_cons_of_ne (v : Nat → List Nat) (x y : Nat) (rest : List Nat)
    (hs : SortedRun v (x :: y :: rest)) (hne : strcmp (v x) (v y) ≠ 0) :
    keepUnique v (x :: y :: rest) = x :: keepUnique v (y :: rest) := by
  have hxy : strcmp (v x) (v y) < 0 := by
    have : StrLe (v x) (v y) := List.rel_of_pairwise_cons hs (by simp)
    unfold StrLe at this
    omega
  have := keepUnique_append v [x] (y :: rest) (by
    intro a ha b hb
    simp only [List.mem_singleton] at ha
    subst ha
    have hyb : strcmp (v y) (v b) ≤ 0 := by
      rcases List.mem_cons.1 hb with e | e
      · rw [e, strcmp_self]
      · exact List.rel_of_pairwise_cons (List.Pairwise.of_cons hs) e
    have := strcmp_lt_of_lt_of_le hxy hyb
    omega)
  rw [keepUnique_single] at this
  exact this

/-- In a sorted list that starts with a run of at least two equal strings
followed by a different string, no node of the run is kept. -/
theorem keepUnique_drop_run (v : Nat → List Nat) (run rem : List Nat) (hlen : 2 ≤ run.length)
    (hs : SortedRun v (run ++ rem)) (hrun : ∀ a ∈ run, ∀ b ∈ run, strcmp (v a) (v b) = 0)
    (hrem : ∀ a ∈ run, ∀ b, rem.head? = some b → strcmp (v a) (v b) ≠ 0) :
    keepUnique v (run ++ rem) = keepUnique v rem := by
  have := keepUnique_append v run rem (by
    intro a ha b hb
    cases rem with
    | nil => simp at hb
    | cons z rem =>
      have h1 := hrem a ha z rfl
      have h2 : strcmp (v a) (v z) < 0 := by
        have : StrLe (v a) (v z) := (List.pairwise_append.1 hs).2.2 a ha z (by simp)
        unfold StrLe at this
        omega
      have h3 : strcmp (v z) (v b) ≤ 0 := by
        rcases List.mem_cons.1 hb with e | e
        · rw [e, strcmp_self]
        · exact List.rel_of_pairwise_cons (List.pairwise_append.1 hs).2.1 e
      have := strcmp_lt_of_lt_of_le h2 h3
      omega)
  rw [this, keepUnique_run v run hlen hrun, List.nil_append]

/-! ## Unlinking a run of nodes -/

/-- A chain through `as ++ cs` passes, after `as`, to the first node of `cs`. -/
theorem Seg.init {f : Nat → Nat} {p : Nat} {as cs : List Nat} {q : Nat}
    (hs : Seg f p (as ++ cs) q) : Seg f p as ((cs ++ [q]).head (by simp)) := by
  cases cs with
  | nil => simpa using hs
  | cons c cs => simpa using (Seg.append.1 hs).1

/-- Unlinking the nodes `run` from a chain: the node before them is linked to
the node after them. -/
theorem Seg.unlinkRun {f : Nat → Nat} {p : Nat} {as run bs : List Nat} {q : Nat}
    (hnd : (p :: (as ++ run ++ bs)).Nodup) (hs : Seg f p (as ++ run ++ bs) q) :
    Seg (fun z => if z = (p :: as).getLast (by simp) then (bs ++ [q]).head (by simp) else f z)
      p (as ++ bs) q := by
  have hnd1 : (p :: as).Nodup := by
    have : (p :: as).Sublist (p :: (as ++ run ++ bs)) := by
      refine List.Sublist.cons₂ p ?_
      rw [List.append_assoc]
      exact List.sublist_append_left as (run ++ bs)
    exact hnd.sublist this
  have hinit : Seg f p as (((run ++ bs) ++ [q]).head (by simp)) := by
    rw [List.append_assoc] at hs
    exact Seg.init hs
  cases bs with
  | nil =>
    simp only [List.append_nil, List.nil_append, List.head_cons]
    exact Seg.redirect q hnd1 hinit
  | cons b bs =>
    simp only [List.cons_append, List.head_cons]
    rw [Seg.append]
    refine ⟨Seg.redirect b hnd1 hinit, ?_⟩
    have h2 := (Seg.append.1 hs).2
    refine Seg.congr ?_ h2
    intro z hz
    have : z ≠ (p :: as).getLast (by simp) := by
      intro e
      have hl : (p :: as).getLast (by simp) ∈ p :: as := List.getLast_mem _
      rw [← e] at hl
      have hnd2 : ((p :: as) ++ (run ++ b :: bs)).Nodup := by
        simpa [List.append_assoc] using hnd
      exact (List.nodup_append.1 hnd2).2.2 hl (List.mem_append_right _ hz)
    simp only [if_neg this]

/-! ## Deleting duplicates -/

theorem releaseOn_nil (h : Heap) : releaseOn [] h = h := by
  ext y <;> simp [releaseOn]

theorem releaseOn_step (S : List Nat) (h : Heap) (c : Nat) :
    q_release_element (releaseOn S h) c = releaseOn (S ++ [c]) h := by
  ext y
  · rfl
  · rfl
  · rfl
  · by_cases e : y = c
    · subst e; simp [releaseOn]
    · simp [releaseOn, e]

theorem dup_release_spec {h : Heap} {N : Nat} : ∀ (run : List Nat) (p : Nat) (S : List Nat)
    (fuel : Nat), Seg h.next p run N → N ∉ run → run.length < fuel →
      dup_release fuel (releaseOn S h) (h.next p) N = some (releaseOn (S ++ run) h)
  | [], p, S, fuel, hs, _, hf => by
    obtain ⟨k, rfl⟩ : ∃ k, fuel = k + 1 := ⟨fuel - 1, by simp at hf; omega⟩
    simp only [Seg_nil] at hs
    simp [dup_release, hs]
  | c :: run, p, S, fuel, hs, hN, hf => by
    obtain ⟨k, rfl⟩ : ∃ k, fuel = k + 1 := ⟨fuel - 1, by simp at hf; omega⟩
    simp only [Seg_cons] at hs
    have hc : c ≠ N := fun e => hN (by simp [e])
    have ih := dup_release_spec run c (S ++ [c]) k hs.2
      (fun e => hN (List.mem_cons_of_mem _ e)) (by simp at hf; omega)
    rw [dup_release, hs.1, if_pos hc]
    simp only [releaseOn_step]
    rw [show (releaseOn S h).next c = h.next c from rfl, ih, List.append_assoc,
      List.singleton_append]

theorem dup_extend_spec {h : Heap} {head : Nat} : ∀ (rest : List Nat) (y : Nat) (fuel : Nat),
    Seg h.next y rest head → head ∉ rest → rest.length < fuel →
      ∃ run rem, rest = run ++ rem ∧
        dup_extend fuel h head y = some ((y :: run).getLast (by simp)) ∧
        (∀ z ∈ run, strcmp (h.value y) (h.value z) = 0) ∧
        (∀ b, rem.head? = some b →
          strcmp (h.value ((y :: run).getLast (by simp))) (h.value b) ≠ 0)
  | [], y, fuel, hs, _, hf => by
    obtain ⟨k, rfl⟩ : ∃ k, fuel = k + 1 := ⟨fuel - 1, by simp at hf; omega⟩
    simp only [Seg_nil] at hs
    exact ⟨[], [], rfl, by simp [dup_extend, hs], by simp, by simp⟩
  | z :: rest, y, fuel, hs, hh, hf => by
    obtain ⟨k, rfl⟩ : ∃ k, fuel = k + 1 := ⟨fuel - 1, by simp at hf; omega⟩
    simp only [Seg_cons] at hs
    have hz : z ≠ head := fun e => hh (by simp [e])
    by_cases he : strcmp (h.value y) (h.value z) = 0
    · obtain ⟨run, rem, e, hd, hrun, hrem⟩ := dup_extend_spec rest z k hs.2
        (fun e => hh (List.mem_cons_of_mem _ e)) (by simp at hf; omega)
      refine ⟨z :: run, rem, by simp [e], ?_, ?_, ?_⟩
      · rw [dup_extend, hs.1, if_pos ⟨hz, he⟩, hd]
        simp
      · intro w hw
        rcases List.mem_cons.1 hw with e1 | e1
        · rw [e1]; exact he
        · exact strcmp_eq_trans he (hrun w e1)
      · intro b hb
        have := hrem b hb
        simpa using this
    · refine ⟨[], z :: rest, rfl, ?_, by simp, ?_⟩
      · rw [dup_extend, hs.1, if_neg (fun c => he c.2)]
        simp
      · intro b hb
        simp only [List.head?_cons, Option.some.injEq] at hb
        subst hb
        simpa using he

theorem unlinkRun_isQueue {h : Heap} {head : Nat} {done run rem : List Nat}
    (hq : IsQueue h head (done ++ run ++ rem)) (S : List Nat) :
    IsQueue (((releaseOn S h).setNext ((head :: done).getLast (by simp))
        ((rem ++ [head]).head (by simp))).setPrev ((rem ++ [head]).head (by simp))
        ((head :: done).getLast (by simp))) head (done ++ rem) := by
  obtain ⟨h0, hx0, hnd, hn, hp⟩ := hq
  have hsub : (done ++ rem).Sublist (done ++ run ++ rem) := by
    rw [List.append_assoc]
    exact List.Sublist.append_left (List.sublist_append_right run rem) done
  refine ⟨h0, fun y hy => hx0 y (hsub.subset hy), hnd.sublist (hsub.cons₂ head), ?_, ?_⟩
  · have := Seg.unlinkRun hnd hn
    refine Seg.congr ?_ this
    intro z _
    simp only [setPrev_next, setNext_next, releaseOn]
  · have hrev : (done ++ run ++ rem).reverse = rem.reverse ++ run.reverse ++ done.reverse := by
      simp [List.append_assoc]
    rw [hrev] at hp
    have hnd3 : (head :: (rem.reverse ++ run.reverse ++ done.reverse)).Nodup := by
      rw [← hrev]
      exact (List.Perm.cons head (List.reverse_perm _)).nodup_iff.2 hnd
    have := Seg.unlinkRun hnd3 hp
    rw [getLast_cons_reverse] at this
    rw [List.reverse_append]
    refine Seg.congr ?_ this
    intro z _
    simp only [setPrev_prev, setNext_prev, releaseOn, getLast_cons_eq]

/-- The second node of the part of a queue still to visit is neither the
sentinel nor the first node of the queue. -/
theorem IsQueue.second_ne {h : Heap} {head : Nat} {done : List Nat} {x y : Nat}
    {rest : List Nat} (hq : IsQueue h head (done ++ x :: y :: rest)) :
    y ≠ head ∧ y ≠ h.next head := by
  have hnd := hq.2.2.1
  refine ⟨fun e => (List.nodup_cons.1 hnd).1 (by simp [e]), ?_⟩
  rw [Seg.first hq.2.2.2.1]
  have hnd2 := (List.nodup_cons.1 hnd).2
  cases done with
  | nil =>
    simp only [List.nil_append, List.cons_append, List.head_cons]
    intro e
    exact (List.nodup_cons.1 hnd2).1 (by simp [e])
  | cons d ds =>
    simp only [List.cons_append, List.head_cons]
    intro e
    exact (List.nodup_cons.1 hnd2).1 (by simp [e])

theorem q_delete_dup_loop_spec {head : Nat} : ∀ (n : Nat) (cur done : List Nat) (h : Heap)
    (fuel F : Nat), cur.length ≤ n → IsQueue h head (done ++ cur) → SortedRun h.value cur →
    cur.length < fuel → cur.length < F →
      ∃ h1, q_delete_dup_loop fuel F h head ((cur ++ [head]).head (by simp))
          (h.next ((cur ++ [head]).head (by simp))) = some h1 ∧
        IsQueue h1 head (done ++ keepUnique h.value cur) ∧ h1.value = h.value := by
  intro n
  induction n using Nat.strong_induction_on with
  | _ n ih =>
    intro cur done h fuel F hn hq hso hf hF
    obtain ⟨k, rfl⟩ : ∃ k, fuel = k + 1 := ⟨fuel - 1, by omega⟩
    match cur, hn, hq, hso, hf, hF with
    | [], _, hq, _, _, _ =>
      exact ⟨h, by simp [q_delete_dup_loop], by simpa [keepUnique_nil] using hq, rfl⟩
    | [x], _, hq, _, _, _ =>
      have hx : h.next x = head := (Seg.snoc.1 hq.2.2.2.1).2
      exact ⟨h, by simp [q_delete_dup_loop, hx], by simpa [keepUnique_single] using hq, rfl⟩
    | x :: y :: rest, hn, hq, hso, hf, hF =>
      have hs := (Seg.append.1 hq.2.2.2.1).2
      simp only [Seg_cons] at hs
      obtain ⟨hxy, hs⟩ := hs
      have hcond := hq.second_ne
      have hnd := hq.2.2.1
      by_cases he : strcmp (h.value x) (h.value y) = 0
      · -- a run of equal strings starts at `x`
        have hhr : head ∉ rest := fun e => (List.nodup_cons.1 hnd).1 (by simp [e])
        obtain ⟨run, rem, e, hd, hrun, hrem⟩ := dup_extend_spec rest y F hs hhr
          (by simp at hF; omega)
        subst e
        have hq1 : IsQueue h head (done ++ (x :: y :: run) ++ rem) := by
          simpa [List.append_assoc] using hq
        have hP : h.prev x = (head :: done).getLast (by simp) := by
          have hp := hq.2.2.2.2
          have hrev : (done ++ x :: y :: (run ++ rem)).reverse =
              (y :: (run ++ rem)).reverse ++ x :: done.reverse := by simp
          rw [hrev] at hp
          rw [getLast_cons_eq]
          exact Seg.first (Seg.append.1 hp).2
        have hPx : h.next ((head :: done).getLast (by simp)) = x :=
          Seg.last (Seg.append.1 hq.2.2.2.1).1
        have hrunseg : Seg h.next y run ((rem ++ [head]).head (by simp)) := Seg.init hs
        have hN : h.next ((y :: run).getLast (by simp)) = (rem ++ [head]).head (by simp) :=
          Seg.last hrunseg
        have hNmem : (rem ++ [head]).head (by simp) ∈ rem ++ [head] := List.head_mem _
        have hNrun : (rem ++ [head]).head (by simp) ∉ x :: y :: run := by
          intro e
          have hnd2 : ((x :: y :: run) ++ (rem ++ [head])).Nodup := by
            have hsub : ((x :: y :: run) ++ (rem ++ [head])).Perm
                (head :: ((x :: y :: run) ++ rem)) := by
              rw [List.perm_iff_count]
              intro w
              simp only [List.count_append, List.count_cons, List.count_nil]
              omega
            refine hsub.nodup_iff.2 ?_
            have hsl : (head :: ((x :: y :: run) ++ rem)).Sublist
                (head :: (done ++ x :: y :: (run ++ rem))) := by
              refine List.Sublist.cons₂ head ?_
              simp
            exact hnd.sublist hsl
          exact (List.nodup_append.1 hnd2).2.2 e hNmem
        have hrel := dup_release_spec (x :: y :: run) ((head :: done).getLast (by simp)) [] F
          (by simp only [Seg_cons]; exact ⟨hPx, hxy, hrunseg⟩) hNrun (by simp at hF ⊢; omega)
        rw [releaseOn_nil, List.nil_append, hPx] at hrel
        have hq3 := unlinkRun_isQueue hq1 (x :: y :: run)
        -- the rest of the loop
        have hso3 : SortedRun h.value rem := by
          have : rem.Sublist (x :: y :: (run ++ rem)) := by
            refine List.Sublist.cons _ (List.Sublist.cons _ ?_)
            exact List.sublist_append_right run rem
          exact List.Pairwise.sublist this hso
        obtain ⟨h1, hl, hq4, hv⟩ := ih rem.length (by simp at hn ⊢; omega) rem done _ k F
          (le_refl _) hq3 hso3 (by simp at hf; omega) (by simp at hF; omega)
        have hku : keepUnique h.value (x :: y :: (run ++ rem)) = keepUnique h.value rem := by
          have hall : ∀ a ∈ x :: y :: run, strcmp (h.value x) (h.value a) = 0 := by
            intro a ha
            rcases List.mem_cons.1 ha with e1 | e1
            · rw [e1, strcmp_self]
            · rcases List.mem_cons.1 e1 with e2 | e2
              · rw [e2]; exact he
              · exact strcmp_eq_trans he (hrun a e2)
          have hlastmem : (y :: run).getLast (by simp) ∈ x :: y :: run :=
            List.mem_cons_of_mem _ (List.getLast_mem _)
          refine keepUnique_drop_run h.value (x :: y :: run) rem (by simp) hso ?_ ?_
          · intro a ha b hb
            exact strcmp_eq_trans (strcmp_eq_symm (hall a ha)) (hall b hb)
          · intro a ha b hb hc
            refine hrem b hb ?_
            exact strcmp_eq_trans (strcmp_eq_symm (hall _ hlastmem))
              (strcmp_eq_trans (hall a ha) hc)
        refine ⟨h1, ?_, by rw [hku]; exact hq4, hv⟩
        rw [← hl]
        simp only [List.cons_append, List.head_cons, hxy]
        rw [q_delete_dup_loop, if_pos hcond, if_pos he, hd]
        simp only [hP, hN, hPx, hrel, setNext_next, setPrev_next, if_true]
      · -- the string of `x` occurs once
        have hq2 : IsQueue h head ((done ++ [x]) ++ y :: rest) := by simpa using hq
        obtain ⟨h1, hl, hq3, hv⟩ := ih (y :: rest).length (by simp at hn ⊢; omega) (y :: rest)
          (done ++ [x]) h k F (le_refl _) hq2 (List.Pairwise.of_cons hso)
          (by simp at hf ⊢; omega) (by simp at hF ⊢; omega)
        refine ⟨h1, ?_, ?_, hv⟩
        · rw [← hl]
          simp only [List.cons_append, List.head_cons, hxy]
          rw [q_delete_dup_loop, if_pos hcond, if_neg he]
          simp only [hxy]
        · rw [keepUnique_cons_of_ne h.value x y rest hso he]
          simpa using hq3

theorem q_delete_dup_spec {h : Heap} {head : Nat} {xs : List Nat} (hq : IsQueue h head xs)
    (hso : SortedRun h.value xs) {fuel : Nat} (hf : xs.length < fuel) :
    ∃ h1, q_delete_dup fuel h head = some (h1, true) ∧
      IsQueue h1 head (keepUnique h.value xs) ∧ h1.value = h.value := by
  obtain ⟨h1, hl, hq1, hv⟩ := q_delete_dup_loop_spec xs.length xs [] h fuel fuel (le_refl _)
    (by simpa using hq) hso hf hf
  rw [← Seg.first hq.2.2.2.1] at hl
  exact ⟨h1, by simp [q_delete_dup, hq.1, hl], by simpa using hq1, hv⟩

/-! ## Positions after the pairwise swap -/

theorem swapPairs_pair : ∀ (xs : List Nat) (i : Nat), 2 * i + 1 < xs.length →
    (swapPairs xs)[2 * i]? = xs[2 * i + 1]? ∧ (swapPairs xs)[2 * i + 1]? = xs[2 * i]?
  | [], i, hi => by simp at hi
  | [_], i, hi => by simp at hi
  | x :: y :: rest, 0, _ => by simp [swapPairs]
  | x :: y :: rest, i + 1, hi => by
    have ih := swapPairs_pair rest i (by simp at hi; omega)
    have e1 : 2 * (i + 1) = (2 * i + 1) + 1 := by omega
    have e2 : 2 * (i + 1) + 1 = (2 * i + 1 + 1) + 1 := by omega
    simp only [swapPairs]
    rw [e2, List.getElem?_cons_succ, List.getElem?_cons_succ, List.getElem?_cons_succ,
      List.getElem?_cons_succ, e1, List.getElem?_cons_succ, List.getElem?_cons_succ,
      List.getElem?_cons_succ, List.getElem?_cons_succ]
    exact ih

theorem swapPairs_last : ∀ (xs : List Nat), xs.length % 2 = 1 →
    (swapPairs xs)[xs.length - 1]? = xs[xs.length - 1]?
  | [], h => by simp at h
  | [_], _ => rfl
  | x :: y :: rest, h => by
    have hr : rest.length % 2 = 1 := by simp at h; omega
    have hpos : 0 < rest.length := by omega
    have ih := swapPairs_last rest hr
    have e : (x :: y :: rest).length - 1 = (rest.length - 1) + 1 + 1 := by simp; omega
    simp only [swapPairs]
    rw [e, List.getElem?_cons_succ, List.getElem?_cons_succ, List.getElem?_cons_succ,
      List.getElem?_cons_succ]
    exact ih

theorem swapPairs_short : ∀ (xs : List Nat), xs.length < 2 → swapPairs xs = xs
  | [], _ => rfl
  | [_], _ => rfl
  | _ :: _ :: _, h => by simp at h; omega

theorem swapPairs_swapPairs : ∀ (xs : List Nat), swapPairs (swapPairs xs) = xs
  | [] => rfl
  | [_] => rfl
  | x :: y :: rest => by simp [swapPairs, swapPairs_swapPairs rest]

/-! ## Reversing twice -/

theorem flipOn_flipOn (S T : List Nat) (h : Heap) (hST : ∀ y, y ∈ T ↔ y ∈ S) :
    flipOn T (flipOn S h) = h := by
  ext y
  · by_cases e : y ∈ S
    · simp [flipOn, e, (hST y).2 e]
    · have e2 : y ∉ T := fun c => e ((hST y).1 c)
      simp [flipOn, e, e2]
  · by_cases e : y ∈ S
    · simp [flipOn, e, (hST y).2 e]
    · have e2 : y ∉ T := fun c => e ((hST y).1 c)
      simp [flipOn, e, e2]
  · rfl
  · rfl

/-! ## Counting strings -/

theorem eqCount_eq_count {v : Nat → List Nat} {xs : List Nat}
    (hstr : ∀ x ∈ xs, ∀ c ∈ v x, c ≠ 0) {x : Nat} (hx : x ∈ xs) :
    eqCount v xs x = (xs.map v).count (v x) := by
  unfold eqCount
  rw [List.count, List.countP_map]
  refine List.countP_congr ?_
  intro y hy
  simp only [decide_eq_true_eq, Function.comp_apply, beq_iff_eq]
  rw [strcmp_eq_zero_iff _ _ (hstr x hx) (hstr y hy)]
  exact eq_comm

theorem keepUnique_eq_filter {v : Nat → List Nat} {xs : List Nat}
    (hstr : ∀ x ∈ xs, ∀ c ∈ v x, c ≠ 0) :
    keepUnique v xs = xs.filter (fun x => decide ((xs.map v).count (v x) = 1)) := by
  unfold keepUnique
  refine List.filter_congr ?_
  intro x hx
  rw [eqCount_eq_count hstr hx]

/-! ## The copy into the output buffer -/

theorem sizeSub1_eq {n : Nat} (h1 : 1 ≤ n) (h64 : n < 2 ^ 64) : sizeSub1 n = n - 1 := by
  unfold sizeSub1
  have : n + (2 ^ 64 - 1) = (n - 1) + 2 ^ 64 := by omega
  rw [this, Nat.add_mod_right, Nat.mod_eq_of_lt (by omega)]

theorem copyOut_spec (buf : Nat → Nat) (s : List Nat) {n : Nat} (h1 : 1 ≤ n) (h64 : n < 2 ^ 64) :
    ∃ out, copyOut (some buf) s n = some out ∧
      (∀ i, i < min s.length (n - 1) → s[i]? = some (out i)) ∧
      out (min s.length (n - 1)) = 0 ∧ (∀ i, n ≤ i → out i = buf i) := by
  refine ⟨_, rfl, ?_, ?_, ?_⟩
  · intro i hi
    have hi1 : i < s.length := lt_of_lt_of_le hi (Nat.min_le_left _ _)
    have hi2 : i < n - 1 := lt_of_lt_of_le hi (Nat.min_le_right _ _)
    have hne : i ≠ n - 1 := by omega
    rw [sizeSub1_eq h1 h64]
    simp only [bufStore, if_neg hne, strncpy, if_pos hi2]
    rw [List.getD_eq_getElem?_getD, List.getElem?_eq_getElem hi1]
    rfl
  · rw [sizeSub1_eq h1 h64]
    by_cases hc : s.length < n - 1
    · have hm : min s.length (n - 1) = s.length := Nat.min_eq_left (by omega)
      have hne : s.length ≠ n - 1 := by omega
      rw [hm]
      simp only [bufStore, if_neg hne, strncpy, if_pos hc]
      rw [List.getD_eq_getElem?_getD, List.getElem?_eq_none (le_refl _)]
      rfl
    · have hm : min s.length (n - 1) = n - 1 := Nat.min_eq_right (by omega)
      rw [hm]
      simp [bufStore]
  · intro i hi
    rw [sizeSub1_eq h1 h64]
    have hne : i ≠ n - 1 := by omega
    have hlt : ¬ i < n - 1 := by omega
    simp only [bufStore, if_neg hne, strncpy, if_neg hlt]

/-! ## Results -/

/-- C1: on a well-formed queue of at most 10000 elements `q_sort`, given enough
fuel, returns; the queue it leaves is well formed, its elements are a
permutation of the elements before the call, so that the stored strings are a
permutation of the strings before the call, and the strings read in queue order
are non-decreasing in the order of `strcmp`. -/
theorem q_sort_sorted_perm (h : Heap) (head : Nat) (xs : List Nat) (fuel : Nat)
    (hq : IsQueue h head xs) (hcap : xs.length ≤ 10000) (hf : xs.length + 1 < fuel) :
    ∃ h1 ys, q_sort fuel h head = some h1 ∧ IsQueue h1 head ys ∧
      (strings h1 ys).Pairwise StrLe ∧ ys.Perm xs ∧ (strings h1 ys).Perm (strings h xs) := by
  obtain ⟨h1, ys, hs, hq1, hperm, hso, hv, _⟩ := q_sort_spec hq hcap hf
  refine ⟨h1, ys, hs, hq1, ?_, hperm, ?_⟩
  · unfold strings
    rw [List.pairwise_map, hv]
    exact hso
  · unfold strings
    rw [hv]
    exact hperm.map _

theorem q_sort_sorted_perm_witness :
    IsQueue (build [[100], [97], [99], [98], [101], [97]]) 1 [2, 3, 4, 5, 6, 7] ∧
      ∃ h1 ys, q_sort 8 (build [[100], [97], [99], [98], [101], [97]]) 1 = some h1 ∧
        IsQueue h1 1 ys ∧ (strings h1 ys).Pairwise StrLe ∧ ys.Perm [2, 3, 4, 5, 6, 7] ∧
        (strings h1 ys).Perm
          (strings (build [[100], [97], [99], [98], [101], [97]]) [2, 3, 4, 5, 6, 7]) :=
  ⟨by decide, q_sort_sorted_perm _ 1 [2, 3, 4, 5, 6, 7] 8 (by decide) (by decide) (by decide)⟩

/-- C2: on a well-formed queue whose strings (byte strings without NUL) are in
ascending order `q_delete_dup`, given enough fuel, returns true and leaves
exactly the elements whose string occurs exactly once among the strings of the
queue, in their original order and with their strings unchanged; a string that
occurs twice or more is left in no element. -/
theorem q_delete_dup_keeps_unique (h : Heap) (head : Nat) (xs : List Nat) (fuel : Nat)
    (hq : IsQueue h head xs) (hstr : ∀ x ∈ xs, ∀ c ∈ h.value x, c ≠ 0)
    (hso : (strings h xs).Pairwise StrLe) (hf : xs.length < fuel) :
    ∃ h1, q_delete_dup fuel h head = some (h1, true) ∧
      IsQueue h1 head (xs.filter (fun x => decide ((strings h xs).count (h.value x) = 1))) ∧
      h1.value = h.value := by
  have hso2 : SortedRun h.value xs := by
    unfold strings at hso
    rw [List.pairwise_map] at hso
    exact hso
  obtain ⟨h1, hd, hq1, hv⟩ := q_delete_dup_spec hq hso2 hf
  rw [keepUnique_eq_filter hstr] at hq1
  exact ⟨h1, hd, hq1, hv⟩

theorem q_delete_dup_keeps_unique_witness :
    IsQueue (build [[97], [98], [98], [99]]) 1 [2, 3, 4, 5] ∧
      ∃ h1, q_delete_dup 5 (build [[97], [98], [98], [99]]) 1 = some (h1, true) ∧
        IsQueue h1 1 [2, 5] ∧ strings h1 [2, 5] = [[97], [99]] := by
  refine ⟨by decide, ?_⟩
  obtain ⟨h1, hd, hq1, hv⟩ := q_delete_dup_keeps_unique (build [[97], [98], [98], [99]]) 1
    [2, 3, 4, 5] 5 (by decide) (by decide) (by decide) (by decide)
  refine ⟨h1, hd, ?_, ?_⟩
  · have e : ([2, 3, 4, 5].filter (fun x => decide ((strings (build [[97], [98], [98], [99]])
        [2, 3, 4, 5]).count ((build [[97], [98], [98], [99]]).value x) = 1))) = [2, 5] := by
      decide
    rw [e] at hq1
    exact hq1
  · unfold strings
    rw [hv]
    decide

/-- C3: on a well-formed non-empty queue of `n` elements `q_delete_mid`, given
enough fuel, returns true and leaves the queue without the element at index
`n / 2`, the other elements in their order with their strings; the removed
element is released and no other one is. -/
theorem q_delete_mid_removes_middle (h : Heap) (head : Nat) (xs : List Nat) (fuel : Nat)
    (hq : IsQueue h head xs) (hne : xs ≠ []) (hf : xs.length < fuel) :
    ∃ h1, q_delete_mid fuel h head = some (h1, true) ∧
      IsQueue h1 head (xs.eraseIdx (xs.length / 2)) ∧ h1.value = h.value ∧
      (∀ x, xs[xs.length / 2]? = some x → h1.freed x = true) ∧
      (∀ y ∈ xs.eraseIdx (xs.length / 2), h1.freed y = h.freed y) := by
  obtain ⟨x, hx, hxe, hd, hq1⟩ := q_delete_mid_eq hq hne hf
  refine ⟨_, hd, hq1, rfl, ?_, ?_⟩
  · intro z hz
    rw [List.getElem?_eq_getElem hx, hxe] at hz
    simp only [Option.some.injEq] at hz
    subst hz
    simp
  · intro y hy
    have hyx : y ≠ x := by
      intro e
      subst e
      obtain ⟨i, hi, hik, hiy⟩ := List.mem_eraseIdx_iff_getElem.1 hy
      exact hik ((hq.nodup.getElem_inj_iff).1 (hiy.trans hxe.symm))
    simp [hyx]

theorem q_delete_mid_removes_middle_witness :
    IsQueue (build [[97], [98], [99], [100], [101], [102]]) 1 [2, 3, 4, 5, 6, 7] ∧
      ∃ h1, q_delete_mid 7 (build [[97], [98], [99], [100], [101], [102]]) 1 = some (h1, true) ∧
        IsQueue h1 1 [2, 3, 4, 6, 7] ∧
        strings h1 [2, 3, 4, 6, 7] = [[97], [98], [99], [101], [102]] := by
  refine ⟨by decide, ?_⟩
  obtain ⟨h1, hd, hq1, hv, _, _⟩ := q_delete_mid_removes_middle
    (build [[97], [98], [99], [100], [101], [102]]) 1 [2, 3, 4, 5, 6, 7] 7 (by decide)
    (by decide) (by decide)
  refine ⟨h1, hd, hq1, ?_⟩
  unfold strings
  rw [hv]
  decide

/-- C4: on a well-formed queue of `n` elements `q_swap`, given enough fuel,
returns and leaves a well-formed queue of the same nodes with their strings,
in which position `2i` holds the node that was at `2i + 1` and position
`2i + 1` the node that was at `2i` whenever `2i + 1 < n`; for odd `n` the last
node stays in place, and for `n < 2` the heap is unchanged. -/
theorem q_swap_exchanges_pairs (h : Heap) (head : Nat) (xs : List Nat) (fuel : Nat)
    (hq : IsQueue h head xs) (hf : xs.length < fuel) :
    ∃ h1 ys, q_swap fuel h head = some h1 ∧ IsQueue h1 head ys ∧ ys.length = xs.length ∧
      h1.value = h.value ∧
      (∀ i, 2 * i + 1 < xs.length → ys[2 * i]? = xs[2 * i + 1]? ∧ ys[2 * i + 1]? = xs[2 * i]?) ∧
      (xs.length % 2 = 1 → ys[xs.length - 1]? = xs[xs.length - 1]?) ∧
      (xs.length < 2 → h1 = h) := by
  obtain ⟨h1, hs, hq1, hv, _, hsmall⟩ := q_swap_spec hq hf
  exact ⟨h1, swapPairs xs, hs, hq1, swapPairs_length xs, hv, swapPairs_pair xs,
    swapPairs_last xs, hsmall⟩

theorem q_swap_exchanges_pairs_witness :
    IsQueue (build [[97], [98], [99], [100], [101]]) 1 [2, 3, 4, 5, 6] ∧
      ∃ h1, q_swap 6 (build [[97], [98], [99], [100], [101]]) 1 = some h1 ∧
        IsQueue h1 1 [3, 2, 5, 4, 6] ∧
        strings h1 [3, 2, 5, 4, 6] = [[98], [97], [100], [99], [101]] := by
  refine ⟨by decide, ?_⟩
  obtain ⟨h1, ys, hs, hq1, hlen, hv, hpair, hlast, _⟩ := q_swap_exchanges_pairs
    (build [[97], [98], [99], [100], [101]]) 1 [2, 3, 4, 5, 6] 6 (by decide) (by decide)
  have e : ys = [3, 2, 5, 4, 6] := by
    have p0 := hpair 0 (by decide)
    have p1 := hpair 1 (by decide)
    have p2 := hlast (by decide)
    match ys, hlen with
    | [a, b, c, d, e], _ =>
      simp at p0 p1 p2
      obtain ⟨rfl, rfl⟩ := p0
      obtain ⟨rfl, rfl⟩ := p1
      subst p2
      rfl
  subst e
  refine ⟨h1, hs, hq1, ?_⟩
  unfold strings
  rw [hv]
  decide

/-- C5: on a well-formed queue, empty or not, `q_reverse`, given enough fuel,
returns and leaves a well-formed queue whose elements, read forward from the
sentinel, are the elements before the call in reverse order: the same nodes
with the same strings. -/
theorem q_reverse_reverses (h : Heap) (head : Nat) (xs : List Nat) (fuel : Nat)
    (hq : IsQueue h head xs) (hf : xs.length < fuel) :
    ∃ h1, q_reverse fuel h head = some h1 ∧ IsQueue h1 head xs.reverse ∧
      toList fuel h1 head = xs.reverse ∧ h1.value = h.value ∧ h1.freed = h.freed := by
  have hq1 := flipOn_isQueue hq
  exact ⟨_, q_reverse_eq hq hf, hq1, hq1.toList_eq (by simpa using hf), rfl, rfl⟩

theorem q_reverse_reverses_witness :
    IsQueue (build [[97], [98], [99]]) 1 [2, 3, 4] ∧
      ∃ h1, q_reverse 4 (build [[97], [98], [99]]) 1 = some h1 ∧
        IsQueue h1 1 [2, 3, 4].reverse ∧ toList 4 h1 1 = [2, 3, 4].reverse ∧
        h1.value = (build [[97], [98], [99]]).value ∧
        h1.freed = (build [[97], [98], [99]]).freed :=
  ⟨by decide, q_reverse_reverses _ 1 [2, 3, 4] 4 (by decide) (by decide)⟩

/-- C6: on a well-formed queue of zero or more elements, `q_reverse` applied
twice, given enough fuel, restores the heap it started from, hence the
original order of the elements. -/
theorem q_reverse_involution (h : Heap) (head : Nat) (xs : List Nat) (fuel : Nat)
    (hq : IsQueue h head xs) (hf : xs.length < fuel) :
    ∃ h1, q_reverse fuel h head = some h1 ∧ q_reverse fuel h1 head = some h ∧
      toList fuel h head = xs := by
  have hq1 := flipOn_isQueue hq
  refine ⟨_, q_reverse_eq hq hf, ?_, hq.toList_eq hf⟩
  rw [q_reverse_eq hq1 (by simpa using hf)]
  congr 1
  refine flipOn_flipOn _ _ h ?_
  intro y
  simp

theorem q_reverse_involution_witness :
    IsQueue (build [[97], [98], [99]]) 1 [2, 3, 4] ∧
      ∃ h1, q_reverse 4 (build [[97], [98], [99]]) 1 = some h1 ∧
        q_reverse 4 h1 1 = some (build [[97], [98], [99]]) ∧
        toList 4 (build [[97], [98], [99]]) 1 = [2, 3, 4] :=
  ⟨by decide, q_reverse_involution _ 1 [2, 3, 4] 4 (by decide) (by decide)⟩

/-- C7: `q_size` of a null queue and of the queue made by `q_new` is 0; after
`k` successful insertions at either end into the queue made by `q_new` it is
`k`, and after `j ≤ k` further removals at either end, each with a null
output buffer or a capacity `bufsize ≥ 1`, it is `k - j`. -/
theorem q_size_counts (h0 : Heap) (a : Nat) (ins rems : List Op) (fuel : Nat)
    (ha : a ≠ 0) (hins : SuccessfulInserts a ins) (hrems : Removals rems)
    (hj : rems.length ≤ ins.length) (hf : ins.length < fuel) :
    q_size fuel h0 0 = some 0 ∧ q_size fuel (q_new h0 a).1 a = some 0 ∧
      q_size fuel (runOps (q_new h0 a).1 a ins) a = some ins.length ∧
      q_size fuel (runOps (runOps (q_new h0 a).1 a ins) a rems) a =
        some (ins.length - rems.length) := by
  have hnew := (q_new_isQueue h0 ha).2
  have hnd := hins.2
  obtain ⟨ys, hy, hlen, _⟩ := runOps_inserts ins (q_new h0 a).1 [] hnew hins.1
    (List.nodup_cons.1 hnd).2 (by
      intro o ho e
      simp only [List.mem_cons, List.not_mem_nil, or_false] at e
      exact (List.nodup_cons.1 hnd).1 (e ▸ List.mem_map_of_mem _ ho))
  simp only [List.length_nil, Nat.zero_add] at hlen
  obtain ⟨zs, hz, hzlen⟩ := runOps_removals rems _ ys hy (fun o ho => (hrems o ho).1) (by omega)
  refine ⟨by simp [q_size], ?_, ?_, ?_⟩
  · have := q_size_isQueue hnew (show ([] : List Nat).length < fuel by simp; omega)
    simpa using this
  · rw [q_size_isQueue hy (by omega), hlen]
  · rw [q_size_isQueue hz (by omega), hzlen, hlen]

theorem q_size_counts_witness :
    (1 ≠ 0 ∧
      SuccessfulInserts 1 [Op.insertHead [97] 2 9, Op.insertTail [98] 3 9, Op.insertHead [99] 4 9] ∧
      Removals [Op.removeTail none 0, Op.removeHead (some (fun _ => 0)) 4]) ∧
    (q_size 4 Heap.empty 0 = some 0 ∧ q_size 4 (q_new Heap.empty 1).1 1 = some 0 ∧
      q_size 4 (runOps (q_new Heap.empty 1).1 1
        [Op.insertHead [97] 2 9, Op.insertTail [98] 3 9, Op.insertHead [99] 4 9]) 1 = some 3 ∧
      q_size 4 (runOps (runOps (q_new Heap.empty 1).1 1
        [Op.insertHead [97] 2 9, Op.insertTail [98] 3 9, Op.insertHead [99] 4 9]) 1
        [Op.removeTail none 0, Op.removeHead (some (fun _ => 0)) 4]) 1 = some (3 - 2)) := by
  have hi : SuccessfulInserts 1
      [Op.insertHead [97] 2 9, Op.insertTail [98] 3 9, Op.insertHead [99] 4 9] := by
    refine ⟨?_, by decide⟩
    intro o ho
    simp only [List.mem_cons, List.mem_singleton, List.not_mem_nil, or_false] at ho
    rcases ho with rfl | rfl | rfl <;> exact ⟨rfl, by decide, by decide⟩
  have hr : Removals [Op.removeTail none 0, Op.removeHead (some (fun _ => 0)) 4] := by
    intro o ho
    simp only [List.mem_cons, List.mem_singleton, List.not_mem_nil, or_false] at ho
    rcases ho with rfl | rfl
    · exact ⟨rfl, Or.inl rfl⟩
    · exact ⟨rfl, Or.inr (by decide)⟩
  exact ⟨⟨by decide, hi, hr⟩,
    q_size_counts Heap.empty 1 _ _ 4 (by decide) hi hr (by decide) (by decide)⟩

/-- C8: on a well-formed queue holding `xs`, when both allocations succeed and
the element is allocated at an unused address `a`, `q_insert_head` returns true
and leaves the queue `a :: xs`, `q_insert_tail` returns true and leaves the
queue `xs ++ [a]`; the new element holds the string `s` and the strings of the
existing elements are unchanged. -/
theorem q_insert_adds_element (h : Heap) (head : Nat) (xs : List Nat) (s : List Nat) (a b : Nat)
    (hq : IsQueue h head xs) (ha : a ≠ 0) (hb : b ≠ 0) (hfresh : a ∉ head :: xs) :
    ((q_insert_head h head s a b).2 = true ∧
      IsQueue (q_insert_head h head s a b).1 head (a :: xs) ∧
      strings (q_insert_head h head s a b).1 (a :: xs) = s :: strings h xs) ∧
    ((q_insert_tail h head s a b).2 = true ∧
      IsQueue (q_insert_tail h head s a b).1 head (xs ++ [a]) ∧
      strings (q_insert_tail h head s a b).1 (xs ++ [a]) = strings h xs ++ [s]) := by
  have hax : a ∉ xs := fun e => hfresh (List.mem_cons_of_mem _ e)
  have hold : xs.map (h.setValue a s).value = xs.map h.value := by
    refine List.map_congr_left ?_
    intro y hy
    have : y ≠ a := fun e => hax (e ▸ hy)
    simp [this]
  constructor
  · rw [q_insert_head_eq s hq.1 ha hb]
    refine ⟨rfl, list_add_isQueue (setValue_isQueue hq a s) ha hfresh, ?_⟩
    simp only [strings, list_add_value, List.map_cons, hold, setValue_value, if_true]
  · rw [q_insert_tail_eq s hq.1 ha hb]
    refine ⟨rfl, list_add_tail_isQueue (setValue_isQueue hq a s) ha hfresh, ?_⟩
    simp only [strings, list_add_tail_value, List.map_append, List.map_cons, List.map_nil, hold,
      setValue_value, if_true]

theorem q_insert_adds_element_witness :
    (IsQueue (build [[97], [98]]) 1 [2, 3] ∧ 4 ≠ 0 ∧ 9 ≠ 0 ∧ 4 ∉ [1, 2, 3]) ∧
    (((q_insert_head (build [[97], [98]]) 1 [99] 4 9).2 = true ∧
      IsQueue (q_insert_head (build [[97], [98]]) 1 [99] 4 9).1 1 [4, 2, 3] ∧
      strings (q_insert_head (build [[97], [98]]) 1 [99] 4 9).1 [4, 2, 3] =
        [99] :: strings (build [[97], [98]]) [2, 3]) ∧
    ((q_insert_tail (build [[97], [98]]) 1 [99] 4 9).2 = true ∧
      IsQueue (q_insert_tail (build [[97], [98]]) 1 [99] 4 9).1 1 ([2, 3] ++ [4]) ∧
      strings (q_insert_tail (build [[97], [98]]) 1 [99] 4 9).1 ([2, 3] ++ [4]) =
        strings (build [[97], [98]]) [2, 3] ++ [[99]])) :=
  ⟨⟨by decide, by decide, by decide, by decide⟩,
    q_insert_adds_element _ 1 [2, 3] [99] 4 9 (by decide) (by decide) (by decide) (by decide)⟩

/-- C9: on a well-formed non-empty queue, with a null output buffer or a
capacity `bufsize ≥ 1`, `q_remove_head` returns the first element and
`q_remove_tail` the last one; the queue is left holding the other elements in
their order, and no string and no released flag changes, so the returned
element keeps its whole string and is not released. -/
theorem q_remove_returns_end (h : Heap) (head : Nat) (xs : List Nat) (sp : Option (Nat → Nat))
    (bufsize : Nat) (hq : IsQueue h head xs) (hne : xs ≠ [])
    (_hsp : sp = none ∨ 1 ≤ bufsize) :
    ((q_remove_head h head sp bufsize).ele = xs.head hne ∧
      IsQueue (q_remove_head h head sp bufsize).heap head xs.tail ∧
      (q_remove_head h head sp bufsize).heap.value = h.value ∧
      (q_remove_head h head sp bufsize).heap.freed = h.freed) ∧
    ((q_remove_tail h head sp bufsize).ele = xs.getLast hne ∧
      IsQueue (q_remove_tail h head sp bufsize).heap head xs.dropLast ∧
      (q_remove_tail h head sp bufsize).heap.value = h.value ∧
      (q_remove_tail h head sp bufsize).heap.freed = h.freed) := by
  constructor
  · cases xs with
    | nil => exact absurd rfl hne
    | cons x xs =>
      rw [q_remove_head_heap hq]
      exact ⟨rfl, remove_head_isQueue hq, rfl, rfl⟩
  · have hsplit : xs = xs.dropLast ++ [xs.getLast hne] := (List.dropLast_append_getLast hne).symm
    have hq2 : IsQueue h head (xs.dropLast ++ [xs.getLast hne]) := by
      rw [← hsplit]; exact hq
    rw [q_remove_tail_heap hq2]
    exact ⟨rfl, remove_tail_isQueue hq2, rfl, rfl⟩

theorem q_remove_returns_end_witness :
    (IsQueue (build [[97], [98], [99]]) 1 [2, 3, 4] ∧
      ((some (fun _ => 7) : Option (Nat → Nat)) = none ∨ 1 ≤ 2)) ∧
    (((q_remove_head (build [[97], [98], [99]]) 1 (some (fun _ => 7)) 2).ele = 2 ∧
      IsQueue (q_remove_head (build [[97], [98], [99]]) 1 (some (fun _ => 7)) 2).heap 1 [3, 4] ∧
      (q_remove_head (build [[97], [98], [99]]) 1 (some (fun _ => 7)) 2).heap.value =
        (build [[97], [98], [99]]).value ∧
      (q_remove_head (build [[97], [98], [99]]) 1 (some (fun _ => 7)) 2).heap.freed =
        (build [[97], [98], [99]]).freed) ∧
    ((q_remove_tail (build [[97], [98], [99]]) 1 (some (fun _ => 7)) 2).ele = 4 ∧
      IsQueue (q_remove_tail (build [[97], [98], [99]]) 1 (some (fun _ => 7)) 2).heap 1 [2, 3] ∧
      (q_remove_tail (build [[97], [98], [99]]) 1 (some (fun _ => 7)) 2).heap.value =
        (build [[97], [98], [99]]).value ∧
      (q_remove_tail (build [[97], [98], [99]]) 1 (some (fun _ => 7)) 2).heap.freed =
        (build [[97], [98], [99]]).freed)) :=
  ⟨⟨by decide, Or.inr (by decide)⟩,
    q_remove_returns_end (build [[97], [98], [99]]) 1 [2, 3, 4] (some (fun _ => 7)) 2
      (by decide) (by decide) (Or.inr (by decide))⟩

/-- C10: on a well-formed non-empty queue, with an output buffer and a
capacity `bufsize ≥ 1` (a `size_t`, so below `2 ^ 64`), after `q_remove_head` (resp. `q_remove_tail`) the
buffer holds the first `min len (bufsize - 1)` bytes of the string of the first
(resp. last) element followed by NUL, `len` being the length of that string,
and the bytes from offset `bufsize` on are untouched; the copy is shorter than
the string exactly when `len > bufsize - 1`. -/
theorem q_remove_copies_truncated (h : Heap) (head : Nat) (xs : List Nat) (buf : Nat → Nat)
    (bufsize : Nat) (hq : IsQueue h head xs) (hne : xs ≠ []) (h1 : 1 ≤ bufsize)
    (h64 : bufsize < 2 ^ 64) :
    (∃ out, (q_remove_head h head (some buf) bufsize).buf = some out ∧
      (∀ i, i < min (h.value (xs.head hne)).length (bufsize - 1) →
        (h.value (xs.head hne))[i]? = some (out i)) ∧
      out (min (h.value (xs.head hne)).length (bufsize - 1)) = 0 ∧
      (∀ i, bufsize ≤ i → out i = buf i) ∧
      (min (h.value (xs.head hne)).length (bufsize - 1) < (h.value (xs.head hne)).length ↔
        bufsize - 1 < (h.value (xs.head hne)).length)) ∧
    (∃ out, (q_remove_tail h head (some buf) bufsize).buf = some out ∧
      (∀ i, i < min (h.value (xs.getLast hne)).length (bufsize - 1) →
        (h.value (xs.getLast hne))[i]? = some (out i)) ∧
      out (min (h.value (xs.getLast hne)).length (bufsize - 1)) = 0 ∧
      (∀ i, bufsize ≤ i → out i = buf i) ∧
      (min (h.value (xs.getLast hne)).length (bufsize - 1) < (h.value (xs.getLast hne)).length ↔
        bufsize - 1 < (h.value (xs.getLast hne)).length)) := by
  constructor
  · cases xs with
    | nil => exact absurd rfl hne
    | cons x xs =>
      rw [q_remove_head_heap hq]
      obtain ⟨out, ho, h2, h3, h4⟩ := copyOut_spec buf (h.value x) h1 h64
      exact ⟨out, ho, h2, h3, h4, by simp⟩
  · have hsplit : xs = xs.dropLast ++ [xs.getLast hne] := (List.dropLast_append_getLast hne).symm
    have hq2 : IsQueue h head (xs.dropLast ++ [xs.getLast hne]) := by
      rw [← hsplit]; exact hq
    rw [q_remove_tail_heap hq2]
    obtain ⟨out, ho, h2, h3, h4⟩ := copyOut_spec buf (h.value (xs.getLast hne)) h1 h64
    exact ⟨out, ho, h2, h3, h4, by simp⟩

theorem q_remove_copies_truncated_witness :
    (IsQueue (build [[104, 101, 108, 108, 111], [97]]) 1 [2, 3] ∧ 1 ≤ 4 ∧ 4 < 2 ^ 64) ∧
    ∃ out, (q_remove_head (build [[104, 101, 108, 108, 111], [97]]) 1 (some (fun _ => 7)) 4).buf =
        some out ∧ out 0 = 104 ∧ out 1 = 101 ∧ out 2 = 108 ∧ out 3 = 0 ∧ out 4 = 7 := by
  refine ⟨⟨by decide, by decide, by decide⟩, ?_⟩
  obtain ⟨⟨out, ho, h2, h3, h4, _⟩, _⟩ := q_remove_copies_truncated
    (build [[104, 101, 108, 108, 111], [97]]) 1 [2, 3] (fun _ => 7) 4 (by decide) (by decide)
    (by decide) (by decide)
  have hv : (build [[104, 101, 108, 108, 111], [97]]).value ([2, 3].head (by decide)) =
      [104, 101, 108, 108, 111] := by decide
  rw [hv] at h2 h3
  have e0 := h2 0 (by decide)
  have e1 := h2 1 (by decide)
  have e2 := h2 2 (by decide)
  simp at e0 e1 e2
  exact ⟨out, ho, e0.symm, e1.symm, e2.symm, h3, h4 4 (by decide)⟩

/-! ## Results on the output buffer and on invalid arguments -/

/-- C11 (as amended): `q_remove_head` with a 4-byte output buffer on a queue
whose first element stores "hello" leaves the three characters "hel" and the
terminator in the buffer, and returns that element, which is not null, still
holds "hello" and is not released by the call. -/
theorem q_remove_head_hello_truncated (h : Heap) (head x : Nat) (xs : List Nat)
    (buf : Nat → Nat) (hq : IsQueue h head (x :: xs))
    (hv : h.value x = [104, 101, 108, 108, 111]) :
    (q_remove_head h head (some buf) 4).buf.map (fun out => readString 4 out 0) =
        some [104, 101, 108] ∧
      (q_remove_head h head (some buf) 4).ele = x ∧ x ≠ 0 ∧
      (q_remove_head h head (some buf) 4).heap.value x = [104, 101, 108, 108, 111] ∧
      (q_remove_head h head (some buf) 4).heap.freed x = h.freed x := by
  rw [q_remove_head_heap hq]
  refine ⟨?_, rfl, hq.2.1 x (by simp), hv, rfl⟩
  have e : sizeSub1 4 = 3 := by decide
  simp [copyOut, e, hv, readString, bufStore, strncpy]

theorem q_remove_head_hello_truncated_witness :
    (IsQueue (build [[104, 101, 108, 108, 111], [97]]) 1 [2, 3] ∧
      (build [[104, 101, 108, 108, 111], [97]]).value 2 = [104, 101, 108, 108, 111]) ∧
    ((q_remove_head (build [[104, 101, 108, 108, 111], [97]]) 1 (some (fun _ => 7)) 4).buf.map
        (fun out => readString 4 out 0) = some [104, 101, 108] ∧
      (q_remove_head (build [[104, 101, 108, 108, 111], [97]]) 1 (some (fun _ => 7)) 4).ele = 2 ∧
      2 ≠ 0 ∧
      (q_remove_head (build [[104, 101, 108, 108, 111], [97]]) 1
        (some (fun _ => 7)) 4).heap.value 2 = [104, 101, 108, 108, 111] ∧
      (q_remove_head (build [[104, 101, 108, 108, 111], [97]]) 1
        (some (fun _ => 7)) 4).heap.freed 2 = (build [[104, 101, 108, 108, 111], [97]]).freed 2) :=
  ⟨⟨by decide, by decide⟩,
    q_remove_head_hello_truncated _ 1 2 [3] (fun _ => 7) (by decide) (by decide)⟩

/-- C11 (as stated) fails: with a 4-byte buffer on "hello" the string left in
the buffer is not "he". -/
theorem q_remove_head_hello_not_he :
    ¬ ((q_remove_head (build [[104, 101, 108, 108, 111]]) 1 (some (fun _ => 0)) 4).buf.map
        (fun out => readString 4 out 0) = some [104, 101] ∧
      (q_remove_head (build [[104, 101, 108, 108, 111]]) 1 (some (fun _ => 0)) 4).ele ≠ 0 ∧
      (q_remove_head (build [[104, 101, 108, 108, 111]]) 1 (some (fun _ => 0)) 4).heap.value
        (q_remove_head (build [[104, 101, 108, 108, 111]]) 1 (some (fun _ => 0)) 4).ele =
        [104, 101, 108, 108, 111]) := by
  decide

/-- C12: with the capacity 0 on a queue storing "hello" and a buffer filled
with the byte 7, `q_remove_head` and `q_remove_tail` leave the bytes of "hello"
at the offsets 0 to 4 and NUL at the offsets 5 and `2 ^ 64 - 1`: every offset
below `2 ^ 64` is written although none is below the capacity. -/
theorem q_remove_zero_capacity_overflows :
    (q_remove_head (build [[104, 101, 108, 108, 111]]) 1 (some (fun _ => 7)) 0).buf.map
        (fun out => [out 0, out 4, out 5, out (2 ^ 64 - 1), out (2 ^ 64)]) =
        some [104, 111, 0, 0, 7] ∧
      (q_remove_tail (build [[104, 101, 108, 108, 111]]) 1 (some (fun _ => 7)) 0).buf.map
        (fun out => [out 0, out 4, out 5, out (2 ^ 64 - 1), out (2 ^ 64)]) =
        some [104, 111, 0, 0, 7] := by
  decide

/-- C13: on a null queue `q_insert_head` and `q_insert_tail` return false,
`q_remove_head` and `q_remove_tail` return null and `q_delete_mid` returns
false; on an empty queue `q_remove_head` and `q_remove_tail` return null and
`q_delete_mid` returns false; in every case the heap, hence the empty queue,
and the output buffer are as before the call. -/
theorem invalid_arguments_change_nothing (h : Heap) (head : Nat) (s : List Nat) (a b : Nat)
    (sp : Option (Nat → Nat)) (bufsize fuel : Nat) (hq : IsQueue h head []) :
    (q_insert_head h 0 s a b = (h, false) ∧ q_insert_tail h 0 s a b = (h, false)) ∧
    ((q_remove_head h 0 sp bufsize).ele = 0 ∧ (q_remove_head h 0 sp bufsize).heap = h ∧
      (q_remove_head h 0 sp bufsize).buf = sp) ∧
    ((q_remove_tail h 0 sp bufsize).ele = 0 ∧ (q_remove_tail h 0 sp bufsize).heap = h ∧
      (q_remove_tail h 0 sp bufsize).buf = sp) ∧
    ((q_remove_head h head sp bufsize).ele = 0 ∧ (q_remove_head h head sp bufsize).heap = h ∧
      (q_remove_head h head sp bufsize).buf = sp ∧
      IsQueue (q_remove_head h head sp bufsize).heap head []) ∧
    ((q_remove_tail h head sp bufsize).ele = 0 ∧ (q_remove_tail h head sp bufsize).heap = h ∧
      (q_remove_tail h head sp bufsize).buf = sp ∧
      IsQueue (q_remove_tail h head sp bufsize).heap head []) ∧
    q_delete_mid fuel h 0 = some (h, false) ∧ q_delete_mid fuel h head = some (h, false) := by
  have hn := hq.next_head_nil
  refine ⟨⟨by simp [q_insert_head], by simp [q_insert_tail]⟩, by simp [q_remove_head],
    by simp [q_remove_tail], ?_, ?_, by simp [q_delete_mid], by simp [q_delete_mid, hn]⟩
  · have e : q_remove_head h head sp bufsize = ⟨h, 0, sp⟩ := by simp [q_remove_head, hn]
    rw [e]
    exact ⟨rfl, rfl, rfl, hq⟩
  · have e : q_remove_tail h head sp bufsize = ⟨h, 0, sp⟩ := by simp [q_remove_tail, hn]
    rw [e]
    exact ⟨rfl, rfl, rfl, hq⟩

theorem invalid_arguments_change_nothing_witness :
    IsQueue (q_new Heap.empty 1).1 1 [] ∧
      (q_remove_head (q_new Heap.empty 1).1 1 (some (fun _ => 7)) 4).ele = 0 ∧
      q_delete_mid 0 (q_new Heap.empty 1).1 1 = some ((q_new Heap.empty 1).1, false) := by
  have w := invalid_arguments_change_nothing (q_new Heap.empty 1).1 1 [97] 2 9
    (some (fun _ => 7)) 4 0 (by decide)
  exact ⟨by decide, w.2.2.2.1.1, w.2.2.2.2.2.2⟩

/-! ## Swapping twice -/

/-- C20: on a well-formed queue of any length `q_swap` applied twice, given
enough fuel, returns both times and leaves the element nodes in their original
order, with their strings. -/
theorem q_swap_involution (h : Heap) (head : Nat) (xs : List Nat) (fuel : Nat)
    (hq : IsQueue h head xs) (hf : xs.length < fuel) :
    ∃ h1 h2, q_swap fuel h head = some h1 ∧ q_swap fuel h1 head = some h2 ∧
      IsQueue h2 head xs ∧ toList fuel h2 head = xs ∧ h2.value = h.value := by
  obtain ⟨h1, hs1, hq1, hv1, _, _⟩ := q_swap_spec hq hf
  obtain ⟨h2, hs2, hq2, hv2, _, _⟩ := q_swap_spec hq1 (by rw [swapPairs_length]; exact hf)
  rw [swapPairs_swapPairs] at hq2
  exact ⟨h1, h2, hs1, hs2, hq2, hq2.toList_eq hf, by rw [hv2, hv1]⟩

theorem q_swap_involution_witness :
    IsQueue (build [[97], [98], [99], [100], [101]]) 1 [2, 3, 4, 5, 6] ∧
      ∃ h1 h2, q_swap 6 (build [[97], [98], [99], [100], [101]]) 1 = some h1 ∧
        q_swap 6 h1 1 = some h2 ∧ IsQueue h2 1 [2, 3, 4, 5, 6] ∧
        toList 6 h2 1 = [2, 3, 4, 5, 6] ∧
        h2.value = (build [[97], [98], [99], [100], [101]]).value :=
  ⟨by decide, q_swap_involution _ 1 [2, 3, 4, 5, 6] 6 (by decide) (by decide)⟩

/-! ## Mutual consistency of the links -/

/-- In a well-formed queue the `next` of a node of the cycle is a node of the
cycle whose `prev` is that node. -/
theorem IsQueue.next_prev {h : Heap} {head : Nat} {xs : List Nat} (hq : IsQueue h head xs) :
    ∀ n ∈ head :: xs, h.next n ∈ head :: xs ∧ h.prev (h.next n) = n := by
  intro n hn
  rcases List.mem_cons.1 hn with e | e
  · subst e
    obtain ⟨_, _, _, hnx, hpv⟩ := hq
    cases xs with
    | nil =>
      simp only [Seg_nil, List.reverse_nil] at hnx hpv
      rw [hnx]
      exact ⟨by simp, hpv⟩
    | cons x xs =>
      simp only [Seg_cons] at hnx
      rw [List.reverse_cons, Seg.snoc] at hpv
      rw [hnx.1]
      exact ⟨by simp, hpv.2⟩
  · obtain ⟨done, rest, rfl⟩ := List.append_of_mem e
    obtain ⟨e1, e2, _, _, _⟩ := hq.around
    refine ⟨?_, e2⟩
    rw [e1]
    have : (rest ++ [head]).head (by simp) ∈ rest ++ [head] := List.head_mem _
    rcases List.mem_append.1 this with m | m
    · exact List.mem_cons_of_mem _ (List.mem_append_right _ (List.mem_cons_of_mem _ m))
    · simp only [List.mem_singleton] at m
      rw [m]
      simp

/-- A well-formed queue is a valid circular doubly-linked structure. -/
theorem IsQueue.validRing {h : Heap} {head : Nat} {xs : List Nat} (hq : IsQueue h head xs) :
    ValidRing h head := by
  refine ⟨xs, hq, ?_⟩
  intro n hn
  refine ⟨(hq.next_prev n hn).2, ?_⟩
  have hq1 := flipOn_isQueue hq
  have hn1 : n ∈ head :: xs.reverse := by
    rcases List.mem_cons.1 hn with e | e
    · simp [e]
    · exact List.mem_cons_of_mem _ (List.mem_reverse.2 e)
  obtain ⟨hm, hp⟩ := hq1.next_prev n hn1
  have e1 : (flipOn (head :: xs) h).next n = h.prev n := by
    simp only [flipOn]
    rw [if_pos hn]
  rw [e1] at hm hp
  have hm2 : h.prev n ∈ head :: xs := by
    rcases List.mem_cons.1 hm with e | e
    · simp [e]
    · exact List.mem_cons_of_mem _ (List.mem_reverse.1 e)
  have e2 : (flipOn (head :: xs) h).prev (h.prev n) = h.next (h.prev n) := by
    simp only [flipOn]
    rw [if_pos hm2]
  rw [e2] at hp
  exact hp

/-! ## Any sequence of insertions and removals -/

theorem q_insert_head_failed (h : Heap) (head : Nat) (s : List Nat) (a b : Nat)
    (hab : a = 0 ∨ b = 0) : (q_insert_head h head s a b).1 = h := by
  unfold q_insert_head q_new_element
  rcases hab with e | e
  · subst e; split <;> simp
  · subst e; split <;> simp

theorem q_insert_tail_failed (h : Heap) (head : Nat) (s : List Nat) (a b : Nat)
    (hab : a = 0 ∨ b = 0) : (q_insert_tail h head s a b).1 = h := by
  unfold q_insert_tail q_new_element
  rcases hab with e | e
  · subst e; split <;> simp
  · subst e; split <;> simp

/-- One insertion or removal, successful or not, leaves a well-formed queue. -/
theorem Op.run_isQueue {h : Heap} {head : Nat} {xs : List Nat} (hq : IsQueue h head xs)
    (o : Op)
    (hfresh : o.isInsert = true → o.addr ≠ 0 → o.strAddr ≠ 0 →
      ∀ ys, IsQueue h head ys → o.addr ∉ head :: ys) :
    ∃ zs, IsQueue (o.run h head) head zs := by
  cases o with
  | insertHead s a b =>
    by_cases hab : a = 0 ∨ b = 0
    · exact ⟨xs, by
        rw [show Op.run h head (.insertHead s a b) = (q_insert_head h head s a b).1 from rfl,
          q_insert_head_failed h head s a b hab]
        exact hq⟩
    · have ha : a ≠ 0 := fun e => hab (Or.inl e)
      have hb : b ≠ 0 := fun e => hab (Or.inr e)
      have hfa : a ∉ head :: xs := hfresh rfl ha hb xs hq
      refine ⟨a :: xs, ?_⟩
      rw [show Op.run h head (.insertHead s a b) = (q_insert_head h head s a b).1 from rfl,
        q_insert_head_eq s hq.1 ha hb]
      exact list_add_isQueue (setValue_isQueue hq a s) ha hfa
  | insertTail s a b =>
    by_cases hab : a = 0 ∨ b = 0
    · exact ⟨xs, by
        rw [show Op.run h head (.insertTail s a b) = (q_insert_tail h head s a b).1 from rfl,
          q_insert_tail_failed h head s a b hab]
        exact hq⟩
    · have ha : a ≠ 0 := fun e => hab (Or.inl e)
      have hb : b ≠ 0 := fun e => hab (Or.inr e)
      have hfa : a ∉ head :: xs := hfresh rfl ha hb xs hq
      refine ⟨xs ++ [a], ?_⟩
      rw [show Op.run h head (.insertTail s a b) = (q_insert_tail h head s a b).1 from rfl,
        q_insert_tail_eq s hq.1 ha hb]
      exact list_add_tail_isQueue (setValue_isQueue hq a s) ha hfa
  | removeHead sp n =>
    cases xs with
    | nil =>
      refine ⟨[], ?_⟩
      have e : q_remove_head h head sp n = ⟨h, 0, sp⟩ := by
        simp [q_remove_head, hq.next_head_nil]
      rw [show Op.run h head (.removeHead sp n) = (q_remove_head h head sp n).heap from rfl, e]
      exact hq
    | cons x xs =>
      refine ⟨xs, ?_⟩
      rw [show Op.run h head (.removeHead sp n) = (q_remove_head h head sp n).heap from rfl,
        q_remove_head_heap hq]
      exact remove_head_isQueue hq
  | removeTail sp n =>
    rcases List.eq_nil_or_concat xs with e | ⟨ys, y, e⟩
    · subst e
      refine ⟨[], ?_⟩
      have e : q_remove_tail h head sp n = ⟨h, 0, sp⟩ := by
        simp [q_remove_tail, hq.next_head_nil]
      rw [show Op.run h head (.removeTail sp n) = (q_remove_tail h head sp n).heap from rfl, e]
      exact hq
    · subst e
      rw [List.concat_eq_append] at hq
      refine ⟨ys, ?_⟩
      rw [show Op.run h head (.removeTail sp n) = (q_remove_tail h head sp n).heap from rfl,
        q_remove_tail_heap hq]
      exact remove_tail_isQueue hq

theorem runOps_take_isQueue {head : Nat} : ∀ (ops : List Op) (h : Heap) (xs : List Nat) (k : Nat),
    IsQueue h head xs → FreshAllocs h head ops →
      ∃ zs, IsQueue (runOps h head (ops.take k)) head zs
  | [], h, xs, k, hq, _ => ⟨xs, by simpa [runOps] using hq⟩
  | o :: os, h, xs, 0, hq, _ => ⟨xs, by simpa [runOps] using hq⟩
  | o :: os, h, xs, k + 1, hq, hfr => by
    obtain ⟨zs, hz⟩ := Op.run_isQueue hq o hfr.1
    obtain ⟨ws, hw⟩ := runOps_take_isQueue os (o.run h head) zs k hz hfr.2
    exact ⟨ws, by simpa [runOps] using hw⟩

/-- C14: starting from the queue built by `q_new`, after every call of any
finite sequence of `q_insert_head`, `q_insert_tail`, `q_remove_head` and
`q_remove_tail` calls, failing ones included, in which every successful
allocation returns an address that is not in use in the queue and every removal
has a null output buffer or a capacity `bufsize ≥ 1`, the queue is a
valid circular doubly-linked structure: the `next` chain from the sentinel is
one cycle back to the sentinel and every node `n` on it satisfies
`n->next->prev == n` and `n->prev->next == n`. -/
theorem insert_remove_keep_ring (h0 : Heap) (a : Nat) (ops : List Op) (k : Nat) (ha : a ≠ 0)
    (hfresh : FreshAllocs (q_new h0 a).1 a ops) (_hbuf : ∀ o ∈ ops, o.bufferOk) :
    ValidRing (runOps (q_new h0 a).1 a (ops.take k)) a := by
  obtain ⟨zs, hz⟩ := runOps_take_isQueue ops (q_new h0 a).1 [] k (q_new_isQueue h0 ha).2 hfresh
  exact hz.validRing

theorem fresh_of_isQueue {h : Heap} {head a : Nat} {xs : List Nat} (hq : IsQueue h head xs)
    (ha : a ∉ head :: xs) : ∀ ys, IsQueue h head ys → a ∉ head :: ys := by
  intro ys hy
  rw [← hq.unique hy]
  exact ha

theorem insert_remove_keep_ring_witness :
    (1 ≠ 0 ∧ FreshAllocs (q_new Heap.empty 1).1 1
      [Op.insertHead [97] 2 9, Op.removeTail none 0, Op.insertTail [98] 2 9,
        Op.insertHead [99] 0 9, Op.removeHead (some (fun _ => 0)) 3, Op.removeHead none 0] ∧
      ∀ o ∈ [Op.insertHead [97] 2 9, Op.removeTail none 0, Op.insertTail [98] 2 9,
        Op.insertHead [99] 0 9, Op.removeHead (some (fun _ => 0)) 3, Op.removeHead none 0], o.bufferOk) ∧
    ValidRing (runOps (q_new Heap.empty 1).1 1
      ([Op.insertHead [97] 2 9, Op.removeTail none 0, Op.insertTail [98] 2 9,
        Op.insertHead [99] 0 9, Op.removeHead (some (fun _ => 0)) 3, Op.removeHead none 0].take 5)) 1 := by
  have hf : FreshAllocs (q_new Heap.empty 1).1 1
      [Op.insertHead [97] 2 9, Op.removeTail none 0, Op.insertTail [98] 2 9,
        Op.insertHead [99] 0 9, Op.removeHead (some (fun _ => 0)) 3, Op.removeHead none 0] := by
    refine ⟨fun _ _ _ => @fresh_of_isQueue _ 1 2 [] (by decide) (by decide), ?_⟩
    refine ⟨fun e => absurd e (by decide), ?_⟩
    refine ⟨fun _ _ _ => @fresh_of_isQueue _ 1 2 [] (by decide) (by decide), ?_⟩
    refine ⟨fun _ e => absurd rfl e, ?_⟩
    refine ⟨fun e => absurd e (by decide), ?_⟩
    exact ⟨fun e => absurd e (by decide), trivial⟩
  have hb : ∀ o ∈ [Op.insertHead [97] 2 9, Op.removeTail none 0, Op.insertTail [98] 2 9,
        Op.insertHead [99] 0 9, Op.removeHead (some (fun _ => 0)) 3, Op.removeHead none 0], o.bufferOk := by
    intro o ho
    simp only [List.mem_cons, List.mem_singleton, List.not_mem_nil, or_false] at ho
    rcases ho with rfl | rfl | rfl | rfl | rfl | rfl
    · exact trivial
    · exact Or.inl rfl
    · exact trivial
    · exact trivial
    · exact Or.inr (by decide)
    · exact Or.inl rfl
  exact ⟨⟨by decide, hf, hb⟩, insert_remove_keep_ring Heap.empty 1 _ 5 (by decide) hf hb⟩

/-! ## The restructuring operations keep the ring -/

/-- On any well-formed queue, sorted or not, the loop of `q_delete_dup` ends
and leaves a well-formed queue made of some of the nodes, in their order. -/
theorem q_delete_dup_loop_ring {head : Nat} : ∀ (n : Nat) (cur done : List Nat) (h : Heap)
    (fuel F : Nat), cur.length ≤ n → IsQueue h head (done ++ cur) →
    cur.length < fuel → cur.length < F →
      ∃ h1 ys, q_delete_dup_loop fuel F h head ((cur ++ [head]).head (by simp))
          (h.next ((cur ++ [head]).head (by simp))) = some h1 ∧
        IsQueue h1 head (done ++ ys) ∧ ys.Sublist cur ∧ h1.value = h.value := by
  intro n
  induction n using Nat.strong_induction_on with
  | _ n ih =>
    intro cur done h fuel F hn hq hf hF
    obtain ⟨k, rfl⟩ : ∃ k, fuel = k + 1 := ⟨fuel - 1, by omega⟩
    match cur, hn, hq, hf, hF with
    | [], _, hq, _, _ =>
      exact ⟨h, [], by simp [q_delete_dup_loop], hq, List.Sublist.refl _, rfl⟩
    | [x], _, hq, _, _ =>
      have hx : h.next x = head := (Seg.snoc.1 hq.2.2.2.1).2
      exact ⟨h, [x], by simp [q_delete_dup_loop, hx], hq, List.Sublist.refl _, rfl⟩
    | x :: y :: rest, hn, hq, hf, hF =>
      have hs := (Seg.append.1 hq.2.2.2.1).2
      simp only [Seg_cons] at hs
      obtain ⟨hxy, hs⟩ := hs
      have hcond := hq.second_ne
      have hnd := hq.2.2.1
      by_cases he : strcmp (h.value x) (h.value y) = 0
      · have hhr : head ∉ rest := fun e => (List.nodup_cons.1 hnd).1 (by simp [e])
        obtain ⟨run, rem, e, hd, _, _⟩ := dup_extend_spec rest y F hs hhr
          (by simp at hF; omega)
        subst e
        have hq1 : IsQueue h head (done ++ (x :: y :: run) ++ rem) := by
          simpa [List.append_assoc] using hq
        have hP : h.prev x = (head :: done).getLast (by simp) := by
          have hp := hq.2.2.2.2
          have hrev : (done ++ x :: y :: (run ++ rem)).reverse =
              (y :: (run ++ rem)).reverse ++ x :: done.reverse := by simp
          rw [hrev] at hp
          rw [getLast_cons_eq]
          exact Seg.first (Seg.append.1 hp).2
        have hPx : h.next ((head :: done).getLast (by simp)) = x :=
          Seg.last (Seg.append.1 hq.2.2.2.1).1
        have hrunseg : Seg h.next y run ((rem ++ [head]).head (by simp)) := Seg.init hs
        have hN : h.next ((y :: run).getLast (by simp)) = (rem ++ [head]).head (by simp) :=
          Seg.last hrunseg
        have hNmem : (rem ++ [head]).head (by simp) ∈ rem ++ [head] := List.head_mem _
        have hNrun : (rem ++ [head]).head (by simp) ∉ x :: y :: run := by
          intro e
          have hnd2 : ((x :: y :: run) ++ (rem ++ [head])).Nodup := by
            have hsub : ((x :: y :: run) ++ (rem ++ [head])).Perm
                (head :: ((x :: y :: run) ++ rem)) := by
              rw [List.perm_iff_count]
              intro w
              simp only [List.count_append, List.count_cons, List.count_nil]
              omega
            refine hsub.nodup_iff.2 ?_
            have hsl : (head :: ((x :: y :: run) ++ rem)).Sublist
                (head :: (done ++ x :: y :: (run ++ rem))) := by
              refine List.Sublist.cons₂ head ?_
              simp
            exact hnd.sublist hsl
          exact (List.nodup_append.1 hnd2).2.2 e hNmem
        have hrel := dup_release_spec (x :: y :: run) ((head :: done).getLast (by simp)) [] F
          (by simp only [Seg_cons]; exact ⟨hPx, hxy, hrunseg⟩) hNrun (by simp at hF ⊢; omega)
        rw [releaseOn_nil, List.nil_append, hPx] at hrel
        have hq3 := unlinkRun_isQueue hq1 (x :: y :: run)
        obtain ⟨h1, ys, hl, hq4, hsub, hv⟩ := ih rem.length (by simp at hn ⊢; omega) rem done _ k F
          (le_refl _) hq3 (by simp at hf; omega) (by simp at hF; omega)
        refine ⟨h1, ys, ?_, hq4, ?_, hv⟩
        · rw [← hl]
          simp only [List.cons_append, List.head_cons, hxy]
          rw [q_delete_dup_loop, if_pos hcond, if_pos he, hd]
          simp only [hP, hN, hPx, hrel, setNext_next, setPrev_next, if_true]
        · refine hsub.trans ?_
          refine List.Sublist.cons _ (List.Sublist.cons _ ?_)
          exact List.sublist_append_right run rem
      · have hq2 : IsQueue h head ((done ++ [x]) ++ y :: rest) := by simpa using hq
        obtain ⟨h1, ys, hl, hq3, hsub, hv⟩ := ih (y :: rest).length (by simp at hn ⊢; omega)
          (y :: rest) (done ++ [x]) h k F (le_refl _) hq2
          (by simp at hf ⊢; omega) (by simp at hF ⊢; omega)
        refine ⟨h1, x :: ys, ?_, by simpa using hq3, hsub.cons₂ x, hv⟩
        rw [← hl]
        simp only [List.cons_append, List.head_cons, hxy]
        rw [q_delete_dup_loop, if_pos hcond, if_neg he]
        simp only [hxy]

theorem q_delete_dup_ring {h : Heap} {head : Nat} {xs : List Nat} (hq : IsQueue h head xs)
    {fuel : Nat} (hf : xs.length < fuel) :
    ∃ h1 ys, q_delete_dup fuel h head = some (h1, true) ∧ IsQueue h1 head ys ∧
      ys.Sublist xs ∧ h1.value = h.value := by
  obtain ⟨h1, ys, hl, hq1, hsub, hv⟩ := q_delete_dup_loop_ring xs.length xs [] h fuel fuel
    (le_refl _) (by simpa using hq) hf hf
  rw [← Seg.first hq.2.2.2.1] at hl
  exact ⟨h1, ys, by simp [q_delete_dup, hq.1, hl], by simpa using hq1, hsub, hv⟩

theorem q_delete_mid_ring {h : Heap} {head : Nat} {xs : List Nat} (hq : IsQueue h head xs)
    {fuel : Nat} (hf : xs.length < fuel) :
    ∃ r ys, q_delete_mid fuel h head = some r ∧ IsQueue r.1 head ys := by
  by_cases hne : xs = []
  · subst hne
    exact ⟨(h, false), [], by simp [q_delete_mid, hq.next_head_nil], hq⟩
  · obtain ⟨x, _, _, hd, hq1⟩ := q_delete_mid_eq hq hne hf
    exact ⟨_, _, hd, hq1⟩

/-! ## The queues made by `build` -/

theorem buildFrom_isQueue {head : Nat} : ∀ (ss : List (List Nat)) (h : Heap) (a : Nat)
    (xs : List Nat), IsQueue h head xs → (∀ y ∈ head :: xs, y < a) →
      IsQueue (buildFrom h head a ss) head (xs ++ List.range' a ss.length)
  | [], h, a, xs, hq, _ => by simpa [buildFrom] using hq
  | s :: ss, h, a, xs, hq, hlt => by
    have ha : a ≠ 0 := by
      have := hlt head (by simp)
      omega
    have hfresh : a ∉ head :: xs := fun e => Nat.lt_irrefl a (hlt a e)
    have h1 : IsQueue (q_insert_tail h head s a 1).1 head (xs ++ [a]) := by
      rw [q_insert_tail_eq s hq.1 ha (by decide)]
      exact list_add_tail_isQueue (setValue_isQueue hq a s) ha hfresh
    have ih := buildFrom_isQueue ss (q_insert_tail h head s a 1).1 (a + 1) (xs ++ [a]) h1 (by
      intro y hy
      rcases List.mem_cons.1 hy with e | e
      · have := hlt y (by simp [e])
        omega
      · rcases List.mem_append.1 e with e1 | e1
        · have := hlt y (List.mem_cons_of_mem _ e1)
          omega
        · simp only [List.mem_singleton] at e1
          omega)
    simpa [buildFrom, List.range'_succ] using ih

/-- The queue made by `build` holds one element per string, at the addresses
from 2 on. -/
theorem build_isQueue (ss : List (List Nat)) :
    IsQueue (build ss) 1 (List.range' 2 ss.length) := by
  have := buildFrom_isQueue ss (q_new Heap.empty 1).1 2 [] (q_new_isQueue Heap.empty (by decide)).2
    (by simp)
  simpa [build] using this

/-! ## Results on the ring and on sorting twice -/

/-- Applied to a well-formed queue with enough fuel, each of `q_delete_mid`,
`q_delete_dup`, `q_swap` and `q_reverse` returns and leaves a valid circular
doubly-linked structure at the sentinel, and so does `q_sort` when the queue
has at most 10000 elements, the number of slots of its staging array: the
`next` chain from the sentinel is one cycle back to it, and every node `n` has
`n->next->prev == n` and `n->prev->next == n`. -/
theorem restructuring_keeps_ring (h : Heap) (head : Nat) (xs : List Nat) (fuel : Nat)
    (hq : IsQueue h head xs) (hf : xs.length + 1 < fuel) :
    (∃ r, q_delete_mid fuel h head = some r ∧ ValidRing r.1 head) ∧
    (∃ r, q_delete_dup fuel h head = some r ∧ ValidRing r.1 head) ∧
    (∃ h1, q_swap fuel h head = some h1 ∧ ValidRing h1 head) ∧
    (∃ h1, q_reverse fuel h head = some h1 ∧ ValidRing h1 head) ∧
    (xs.length ≤ 10000 → ∃ h1, q_sort fuel h head = some h1 ∧ ValidRing h1 head) := by
  have hf1 : xs.length < fuel := by omega
  refine ⟨?_, ?_, ?_, ?_, ?_⟩
  · obtain ⟨r, ys, hd, hq1⟩ := q_delete_mid_ring hq hf1
    exact ⟨r, hd, hq1.validRing⟩
  · obtain ⟨h1, ys, hd, hq1, _, _⟩ := q_delete_dup_ring hq hf1
    exact ⟨(h1, true), hd, hq1.validRing⟩
  · obtain ⟨h1, hs, hq1, _, _, _⟩ := q_swap_spec hq hf1
    exact ⟨h1, hs, hq1.validRing⟩
  · exact ⟨_, q_reverse_eq hq hf1, (flipOn_isQueue hq).validRing⟩
  · intro hcap
    obtain ⟨h1, ys, hs, hq1, _, _, _, _⟩ := q_sort_spec hq hcap hf
    exact ⟨h1, hs, hq1.validRing⟩

theorem restructuring_keeps_ring_witness :
    IsQueue (build [[98], [97], [97], [99]]) 1 [2, 3, 4, 5] ∧
    (∃ r, q_delete_mid 6 (build [[98], [97], [97], [99]]) 1 = some r ∧ ValidRing r.1 1) ∧
    (∃ r, q_delete_dup 6 (build [[98], [97], [97], [99]]) 1 = some r ∧ ValidRing r.1 1) ∧
    (∃ h1, q_swap 6 (build [[98], [97], [97], [99]]) 1 = some h1 ∧ ValidRing h1 1) ∧
    (∃ h1, q_reverse 6 (build [[98], [97], [97], [99]]) 1 = some h1 ∧ ValidRing h1 1) ∧
    (∃ h1, q_sort 6 (build [[98], [97], [97], [99]]) 1 = some h1 ∧ ValidRing h1 1) := by
  have w := restructuring_keeps_ring (build [[98], [97], [97], [99]]) 1 [2, 3, 4, 5] 6
    (by decide) (by decide)
  exact ⟨by decide, w.1, w.2.1, w.2.2.1, w.2.2.2.1, w.2.2.2.2 (by decide)⟩

/-- On a well-formed queue of at most 10000 elements, the number of slots of
the staging array, whose strings are byte strings without NUL, `q_sort` applied
twice with enough fuel returns both times, and the strings read in queue order
after the second call are the strings read in queue order after the first. -/
theorem q_sort_idempotent (h : Heap) (head : Nat) (xs : List Nat) (fuel : Nat)
    (hq : IsQueue h head xs) (hstr : ∀ x ∈ xs, ∀ c ∈ h.value x, c ≠ 0)
    (hcap : xs.length ≤ 10000) (hf : xs.length + 1 < fuel) :
    ∃ h1 ys1 h2 ys2, q_sort fuel h head = some h1 ∧ IsQueue h1 head ys1 ∧
      q_sort fuel h1 head = some h2 ∧ IsQueue h2 head ys2 ∧
      strings h2 ys2 = strings h1 ys1 := by
  obtain ⟨h1, ys1, hs1, hq1, hp1, hso1, hv1, _⟩ := q_sort_spec hq hcap hf
  obtain ⟨h2, ys2, hs2, hq2, hp2, hso2, hv2, _⟩ := q_sort_spec hq1
    (by rw [hp1.length_eq]; exact hcap) (by rw [hp1.length_eq]; exact hf)
  refine ⟨h1, ys1, h2, ys2, hs1, hq1, hs2, hq2, ?_⟩
  unfold strings
  rw [hv2, hv1]
  rw [hv1] at hso2
  refine List.Perm.eq_of_sorted ?_ (List.pairwise_map.2 hso2) (List.pairwise_map.2 hso1)
    (hp2.map _)
  intro a b ha hb hab hba
  obtain ⟨x, hx, rfl⟩ := List.mem_map.1 ha
  obtain ⟨y, hy, rfl⟩ := List.mem_map.1 hb
  have hx1 : x ∈ xs := hp1.subset (hp2.subset hx)
  have hy1 : y ∈ xs := hp1.subset hy
  refine (strcmp_eq_zero_iff _ _ (hstr x hx1) (hstr y hy1)).1 ?_
  unfold StrLe at hab hba
  rw [strcmp_neg (h.value x) (h.value y)] at hba
  omega

theorem q_sort_idempotent_witness :
    (IsQueue (build [[99], [97], [98], [97]]) 1 [2, 3, 4, 5] ∧
      ∀ x ∈ [2, 3, 4, 5], ∀ c ∈ (build [[99], [97], [98], [97]]).value x, c ≠ 0) ∧
    ∃ h1 ys1 h2 ys2, q_sort 6 (build [[99], [97], [98], [97]]) 1 = some h1 ∧
      IsQueue h1 1 ys1 ∧ q_sort 6 h1 1 = some h2 ∧ IsQueue h2 1 ys2 ∧
      strings h2 ys2 = strings h1 ys1 :=
  ⟨⟨by decide, by decide⟩,
    q_sort_idempotent _ 1 [2, 3, 4, 5] 6 (by decide) (by decide) (by decide) (by decide)⟩

/-! ## Ties in the merge -/

/-- When the fronts of two runs compare equal, the merge links the front of
the right run first. -/
theorem mergeRuns_tie (v : Nat → List Nat) (x y : Nat) (r1 r2 : List Nat)
    (he : strcmp (v x) (v y) = 0) :
    mergeRuns v (x :: r1) (y :: r2) = y :: mergeRuns v (x :: r1) r2 := by
  have : ¬ strcmp (v x) (v y) < 0 := by omega
  simp only [mergeRuns, if_neg this]

/-- C18 (as amended): in the loop of `merge_2_Queue`, for two non-empty
null-terminated runs whose front elements compare equal under `strcmp`, the
element linked next into the result is the front of the right operand `L2`;
the front of `L1` is linked first only when it compares strictly smaller. -/
theorem merge_tie_takes_right (h : Heap) (head : Nat) (ptr : Option Nat) (L1 L2 : Nat)
    (x y : Nat) (r1 r2 : List Nat) (fuel : Nat)
    (h1 : Run h L1 (x :: r1)) (h2 : Run h L2 (y :: r2)) (hnd : (x :: r1 ++ y :: r2).Nodup)
    (hp : ∀ p, ptr = some p → p ∉ x :: r1 ++ y :: r2)
    (hf : (x :: r1).length + (y :: r2).length < fuel) :
    (strcmp (h.value x) (h.value y) = 0 →
      ∃ res, merge_loop fuel h head ptr L1 L2 = some res ∧
        loadPtr res.1 res.2 ptr = L2 ∧
        Run res.1 (res.1.next L2) (mergeRuns h.value (x :: r1) r2)) ∧
    (strcmp (h.value x) (h.value y) < 0 →
      ∃ res, merge_loop fuel h head ptr L1 L2 = some res ∧
        loadPtr res.1 res.2 ptr = L1 ∧
        Run res.1 (res.1.next L1) (mergeRuns h.value r1 (y :: r2))) := by
  obtain ⟨res, hl, hrun, _⟩ :=
    merge_loop_spec _ (x :: r1) (y :: r2) h head ptr L1 L2 fuel (le_refl _) h1 h2 hnd hp hf
  have hL1 : L1 = x := h1.1
  have hL2 : L2 = y := h2.1
  constructor
  · intro he
    rw [mergeRuns_tie h.value x y r1 r2 he, Run_cons] at hrun
    refine ⟨res, hl, by rw [hL2]; exact hrun.1, ?_⟩
    rw [hL2]
    exact hrun.2.2
  · intro hlt
    have e : mergeRuns h.value (x :: r1) (y :: r2) = x :: mergeRuns h.value r1 (y :: r2) := by
      simp only [mergeRuns, if_pos hlt]
    rw [e, Run_cons] at hrun
    refine ⟨res, hl, by rw [hL1]; exact hrun.1, ?_⟩
    rw [hL1]
    exact hrun.2.2

theorem merge_tie_takes_right_witness :
    (Run ((Heap.empty.setValue 1 [97]).setValue 2 [97]) 1 [1] ∧
      Run ((Heap.empty.setValue 1 [97]).setValue 2 [97]) 2 [2] ∧
      strcmp (((Heap.empty.setValue 1 [97]).setValue 2 [97]).value 1)
        (((Heap.empty.setValue 1 [97]).setValue 2 [97]).value 2) = 0) ∧
    ∃ res, merge_loop 3 ((Heap.empty.setValue 1 [97]).setValue 2 [97]) 0 none 1 2 = some res ∧
      loadPtr res.1 res.2 none = 2 ∧
      Run res.1 (res.1.next 2) (mergeRuns ((Heap.empty.setValue 1 [97]).setValue 2 [97]).value
        [1] []) := by
  have hr1 : Run ((Heap.empty.setValue 1 [97]).setValue 2 [97]) 1 [1] := by
    simp [Heap.empty]
  have hr2 : Run ((Heap.empty.setValue 1 [97]).setValue 2 [97]) 2 [2] := by
    simp [Heap.empty]
  exact ⟨⟨hr1, hr2, by decide⟩,
    (merge_tie_takes_right _ 0 none 1 2 1 2 [] [] 3 hr1 hr2 (by decide) (by simp)
      (by decide)).1 (by decide)⟩

/-- C18 (as stated) fails: merging the single-node runs at addresses 1 and 2,
whose strings compare equal, `merge_2_Queue` returns the node of the right
operand first, not the node of the left one. -/
theorem merge_tie_not_left :
    strcmp (((Heap.empty.setValue 1 [97]).setValue 2 [97]).value 1)
        (((Heap.empty.setValue 1 [97]).setValue 2 [97]).value 2) = 0 ∧
      (merge_2_Queue 3 ((Heap.empty.setValue 1 [97]).setValue 2 [97]) 1 2).map
        (fun res => res.2) = some 2 ∧
      ¬ ((merge_2_Queue 3 ((Heap.empty.setValue 1 [97]).setValue 2 [97]) 1 2).map
        (fun res => res.2) = some 1) := by
  decide

/-! ## The order of elements after sorting -/

/-- In a duplicate-free list sorted by `R`, a member `x` stands before a member
`y` unless `R y x`. -/
theorem sublist_pair_of_sorted {R : Nat → Nat → Prop} : ∀ {ys : List Nat} {x y : Nat},
    ys.Pairwise R → x ∈ ys → y ∈ ys → x ≠ y → ¬ R y x → [x, y].Sublist ys
  | [], _, _, _, hx, _, _, _ => by simp at hx
  | z :: t, x, y, hs, hx, hy, hxy, hR => by
    by_cases ezx : z = x
    · subst ezx
      have hyt : y ∈ t := by
        rcases List.mem_cons.1 hy with e | e
        · exact absurd e.symm hxy
        · exact e
      exact List.Sublist.cons₂ z (List.singleton_sublist.2 hyt)
    · have hxt : x ∈ t := by
        rcases List.mem_cons.1 hx with e | e
        · exact absurd e.symm ezx
        · exact e
      by_cases ezy : z = y
      · subst ezy
        exact absurd (List.rel_of_pairwise_cons hs hxt) hR
      · have hyt : y ∈ t := by
          rcases List.mem_cons.1 hy with e | e
          · exact absurd e.symm ezy
          · exact e
        exact List.Sublist.cons z
          (sublist_pair_of_sorted (List.Pairwise.of_cons hs) hxt hyt hxy hR)

/-- The end of `q_sort`: the merged run is threaded back behind the sentinel. -/
theorem q_sort_finish {m : Heap} {head q0 : Nat} {r : List Nat} (h0 : head ≠ 0)
    (hrun : Run m q0 r) (hhr : head ∉ r) (hnd : r.Nodup) {fuel : Nat} (hf : r.length < fuel) :
    ∃ h4 L, q_sort_repair fuel (m.setNext head q0) head = some (h4, L) ∧
      IsQueue ((h4.setNext L head).setPrev head L) head r ∧ h4.value = m.value := by
  have hndr : (head :: r).Nodup := List.nodup_cons.2 ⟨hhr, hnd⟩
  have hrun3 : Run (m.setNext head q0) ((m.setNext head q0).next head) r := by
    simp only [setNext_next, if_true]
    refine Run.frame ?_ hrun
    intro q hqr
    have : q ≠ head := fun e => hhr (e ▸ hqr)
    simp [this]
  obtain ⟨h4, hrep, hn4, hb4, _, hv4, _⟩ :=
    q_sort_repair_spec r head (m.setNext head q0) fuel hrun3 hndr hf
  have hred := Seg.redirect head hndr (Run.chain hrun3)
  obtain ⟨L, hL⟩ : ∃ L, L = (head :: r).getLast (by simp) := ⟨_, rfl⟩
  rw [← hL] at hrep hred
  refine ⟨h4, L, hrep, ⟨h0, Run.ne_zero hrun, hndr, ?_, ?_⟩, by rw [hv4]; rfl⟩
  · refine Seg.congr ?_ hred
    intro y _
    simp only [setPrev_next, setNext_next, hn4]
  · refine BackLinks.toSeg (BackLinks.agree ?_ hb4) (by simp [hL])
    intro y hy
    have : y ≠ head := fun e => hhr (e ▸ hy)
    simp [this]

/-- On a queue of two elements whose strings compare equal `q_sort` exchanges
the two nodes. -/
theorem q_sort_two_tie {h : Heap} {head x y : Nat} (hq : IsQueue h head [x, y])
    (he : strcmp (h.value x) (h.value y) = 0) {fuel : Nat} (hf : 3 < fuel) :
    ∃ h1, q_sort fuel h head = some h1 ∧ IsQueue h1 head [y, x] ∧ h1.value = h.value := by
  have hsz := q_size_isQueue hq (show [x, y].length < fuel by simp; omega)
  have hx0 : h.next head = x := hq.2.2.2.1.1
  obtain ⟨queue1, hd, _, hs⟩ := q_sort_divide_spec [y] x [] (fun _ => 0) fuel
    (by simpa using hq) (by simp [QUEUE_SLOTS]) (by simp; omega)
  simp only [detachOn_nil, List.length_nil, Nat.zero_add, List.nil_append, Slots_cons,
    Slots_nil, and_true, List.length_singleton] at hd hs
  obtain ⟨hs0, hs1⟩ := hs
  have hxne : x ≠ 0 := hq.2.1 x (by simp)
  have hyne : y ≠ 0 := hq.2.1 y (by simp)
  have hnd : [x, y].Nodup := hq.nodup
  have hrx : Run (detachOn [x, y] h) x [x] := by
    simp [detachOn, hxne]
  have hry : Run (detachOn [x, y] h) y [y] := by
    simp [detachOn, hyne]
  obtain ⟨res, hm, hrun, _, _, hv, _⟩ := merge_2_Queue_spec hrx hry (by simpa using hnd)
    (show [x].length + [y].length < fuel by simp; omega)
  rw [show (detachOn [x, y] h).value = h.value from rfl, mergeRuns_tie h.value x y [] [] he] at hrun
  have hmr : mergeRuns h.value [x] [] = [x] := mergeRuns_nil_right _ _
  rw [hmr] at hrun
  obtain ⟨k, rfl⟩ : ∃ k, fuel = k + 2 := ⟨fuel - 2, by omega⟩
  have hmerge : q_sort_merge (k + 2) (k + 2) (detachOn [x, y] h) queue1 2 =
      some (res.1, bufStore queue1 0 res.2, 1) := by
    rw [q_sort_merge, if_pos (by decide)]
    have hp : q_sort_pass (k + 2) (k + 2) (detachOn [x, y] h) queue1 0 (2 - 1) =
        some (res.1, bufStore queue1 0 res.2) := by
      rw [q_sort_pass, if_pos (by decide), if_pos (by decide), hs0, hs1, hm]
      simp only []
      rw [q_sort_pass, if_neg (by decide)]
    rw [hp]
    simp only []
    rw [q_sort_merge, if_neg (by decide)]
  have hhr : head ∉ [y, x] := by
    have := hq.not_mem
    simpa [and_comm] using this
  have hnd2 : [y, x].Nodup := by
    have hperm : [y, x].Perm [x, y] := List.Perm.swap x y []
    exact hperm.nodup_iff.2 hnd
  obtain ⟨h4, L, hrep, hq1, hv4⟩ := q_sort_finish hq.1 hrun hhr hnd2
    (show [y, x].length < k + 2 by simp; omega)
  refine ⟨(h4.setNext L head).setPrev head L, ?_, hq1, by
    simp only [setPrev_value, setNext_value, hv4, hv]
    rfl⟩
  rw [q_sort, if_neg hq.1, hsz]
  simp only [List.length_cons, List.length_nil]
  rw [if_neg (by decide), hx0, hd]
  simp only []
  rw [hmerge]
  simp only [bufStore, if_true]
  rw [hrep]

/-- C17 (as amended): on a well-formed queue of at most 10000 elements `q_sort`
with enough fuel returns a well-formed queue of the same nodes with their
strings in which, of any two elements whose strings compare different, the one
with the smaller string comes first; elements whose strings compare equal are
not kept in their input order: a queue of two elements with equal strings
comes out with the two nodes exchanged. -/
theorem q_sort_orders_not_stable (h : Heap) (head : Nat) (xs : List Nat) (fuel : Nat)
    (hq : IsQueue h head xs) (hcap : xs.length ≤ 10000) (hf : xs.length + 1 < fuel) :
    ∃ h1 ys, q_sort fuel h head = some h1 ∧ IsQueue h1 head ys ∧ ys.Perm xs ∧
      h1.value = h.value ∧
      (∀ x ∈ xs, ∀ y ∈ xs, strcmp (h.value x) (h.value y) < 0 → [x, y].Sublist ys) ∧
      (∀ x y, xs = [x, y] → strcmp (h.value x) (h.value y) = 0 → ys = [y, x]) := by
  obtain ⟨h1, ys, hs, hq1, hperm, hso, hv, _⟩ := q_sort_spec hq hcap hf
  refine ⟨h1, ys, hs, hq1, hperm, hv, ?_, ?_⟩
  · intro x hx y hy hlt
    refine sublist_pair_of_sorted hso (hperm.symm.subset hx) (hperm.symm.subset hy) ?_ ?_
    · intro e
      rw [e, strcmp_self] at hlt
      exact absurd hlt (by decide)
    · intro hle
      unfold StrLe at hle
      rw [strcmp_neg (h.value x) (h.value y)] at hle
      omega
  · intro x y e he
    subst e
    obtain ⟨h2, hs2, hq2, _⟩ := q_sort_two_tie hq he (show 3 < fuel by simpa using hf)
    rw [hs] at hs2
    have e2 : h1 = h2 := Option.some.inj hs2
    subst e2
    exact hq1.unique hq2

theorem q_sort_orders_not_stable_witness :
    IsQueue (build [[97], [97]]) 1 [2, 3] ∧
      ∃ h1, q_sort 4 (build [[97], [97]]) 1 = some h1 ∧ IsQueue h1 1 [3, 2] ∧
        h1.value = (build [[97], [97]]).value := by
  refine ⟨by decide, ?_⟩
  obtain ⟨h1, ys, hs, hq1, _, hv, _, htie⟩ := q_sort_orders_not_stable (build [[97], [97]]) 1
    [2, 3] 4 (by decide) (by decide) (by decide)
  have e := htie 2 3 rfl (by decide)
  subst e
  exact ⟨h1, hs, hq1, hv⟩

/-- C17 (as stated) fails: in the queue holding "a" at node 2 and then "a" at
node 3 the two strings compare equal, and after `q_sort` node 3 comes before
node 2. -/
theorem q_sort_not_stable :
    IsQueue (build [[97], [97]]) 1 [2, 3] ∧
      strcmp ((build [[97], [97]]).value 2) ((build [[97], [97]]).value 3) = 0 ∧
      (q_sort 4 (build [[97], [97]]) 1).map (fun h1 => toList 4 h1 1) = some [3, 2] := by
  decide

/-! ## The staging array after the divide phase -/

theorem Slots_getElem {queue : Nat → Nat} : ∀ {ys : List Nat} {off : Nat},
    Slots queue off ys → ∀ i (hi : i < ys.length), queue (off + i) = ys[i]
  | [], _, _, i, hi => by simp at hi
  | y :: ys, off, hs, 0, _ => by simpa using hs.1
  | y :: ys, off, hs, i + 1, hi => by
    have := Slots_getElem hs.2 i (by simpa using hi)
    rw [List.getElem_cons_succ, ← this]
    congr 1
    omega

/-- The divide loop only stores into the slots from its first index up to the
count it returns. -/
theorem q_sort_divide_slots {head : Nat} : ∀ (fuel : Nat) (h : Heap) (tmp : Nat)
    (queue : Nat → Nat) (qs : Nat) (r : Heap × (Nat → Nat) × Nat),
    q_sort_divide fuel h head tmp queue qs = some r →
      qs ≤ r.2.2 ∧ ∀ k, r.2.2 ≤ k → r.2.1 k = queue k
  | 0, _, _, _, _, _, hr => by simp [q_sort_divide] at hr
  | fuel + 1, h, tmp, queue, qs, r, hr => by
    rw [q_sort_divide] at hr
    split at hr
    · simp only [] at hr
      split at hr
      · obtain ⟨h1, h2⟩ := q_sort_divide_slots fuel _ _ _ _ r hr
        refine ⟨by omega, ?_⟩
        intro k hk
        rw [h2 k hk]
        have : k ≠ qs := by omega
        simp [bufStore, this]
      · exact absurd hr (by simp)
    · simp only [Option.some.injEq] at hr
      subst hr
      exact ⟨le_refl _, fun _ _ => rfl⟩

/-- C19: on a well-formed queue of `n` elements with `2 ≤ n ≤ 10000` the
divide loop of `q_sort`, given enough fuel, returns with the count `n`; slot
`i < n` of the staging array holds the `i`-th element of the queue, whose
`next` and `prev` are then null; the slots from `n` on are still null; and the
merge phase on that array returns too. A store or load at an index of 10000 or
more has no result in the embedding, so none occurs in either phase. -/
theorem q_sort_divide_fills_slots (h : Heap) (head : Nat) (xs : List Nat) (fuel : Nat)
    (hq : IsQueue h head xs) (h2 : 2 ≤ xs.length) (hcap : xs.length ≤ 10000)
    (hf : xs.length + 1 < fuel) :
    ∃ hd queue, q_sort_divide fuel h head (h.next (h.next head)) (fun _ => 0) 0 =
        some (hd, queue, xs.length) ∧
      (∀ i (hi : i < xs.length), queue i = xs[i] ∧ hd.next xs[i] = 0 ∧ hd.prev xs[i] = 0) ∧
      (∀ k, xs.length ≤ k → queue k = 0) ∧
      (∀ i, i < xs.length → i < 10000) ∧
      ∃ m, q_sort_merge fuel fuel hd queue xs.length = some m := by
  obtain ⟨x0, rest, rfl⟩ : ∃ x0 rest, xs = x0 :: rest := by
    cases xs with
    | nil => simp at h2
    | cons a t => exact ⟨a, t, rfl⟩
  have hx0 : h.next head = x0 := hq.2.2.2.1.1
  have hcap1 : (x0 :: rest).length ≤ QUEUE_SLOTS := hcap
  obtain ⟨queue1, hd, _, hs⟩ := q_sort_divide_spec rest x0 [] (fun _ => 0) fuel
    (by simpa using hq) (by simpa using hcap1) (by simp at hf; omega)
  simp only [detachOn_nil, List.length_nil, Nat.zero_add, List.nil_append] at hd hs
  have hst : Staged (detachOn (x0 :: rest) h) queue1 0 ((x0 :: rest).map (fun y => [y])) := by
    refine Staged_of_Slots hs ?_
    intro y hy
    exact ⟨hq.2.1 y hy, by simp only [detachOn, if_pos hy]⟩
  obtain ⟨m, _, hm, _⟩ :=
    q_sort_merge_spec _ ((x0 :: rest).map (fun y => [y])) (detachOn (x0 :: rest) h) queue1
      fuel fuel (le_refl _) (by simp) hst (by rw [flatten_map_singleton]; exact hq.nodup)
      (by
        intro r hr
        obtain ⟨y, _, rfl⟩ := List.mem_map.1 hr
        exact List.pairwise_singleton _ _)
      (by simpa using hcap1) (by simp at hf ⊢; omega) (by simp at hf ⊢; omega)
      (by rw [flatten_map_singleton]; simp at hf ⊢; omega)
  simp only [List.length_map] at hm
  rw [hx0]
  refine ⟨detachOn (x0 :: rest) h, queue1, by simpa using hd, ?_, ?_, fun i hi => by omega,
    m, hm⟩
  · intro i hi
    have hmem : (x0 :: rest)[i] ∈ x0 :: rest := List.getElem_mem hi
    have e := Slots_getElem hs i hi
    rw [Nat.zero_add] at e
    refine ⟨e, ?_, ?_⟩
    · simp only [detachOn]
      rw [if_pos hmem]
    · simp only [detachOn]
      rw [if_pos hmem]
  · intro k hk
    have := (q_sort_divide_slots fuel h (h.next x0) (fun _ => 0) 0 _ hd).2 k
      (by simpa using hk)
    simpa using this

theorem q_sort_divide_fills_slots_witness :
    IsQueue (build [[99], [97], [98]]) 1 [2, 3, 4] ∧
      ∃ hd queue, q_sort_divide 5 (build [[99], [97], [98]]) 1
          ((build [[99], [97], [98]]).next ((build [[99], [97], [98]]).next 1))
          (fun _ => 0) 0 = some (hd, queue, [2, 3, 4].length) ∧
        (∀ i (hi : i < [2, 3, 4].length),
          queue i = [2, 3, 4][i] ∧ hd.next [2, 3, 4][i] = 0 ∧ hd.prev [2, 3, 4][i] = 0) ∧
        (∀ k, [2, 3, 4].length ≤ k → queue k = 0) ∧
        (∀ i, i < [2, 3, 4].length → i < 10000) ∧
        ∃ m, q_sort_merge 5 5 hd queue [2, 3, 4].length = some m :=
  ⟨by decide, q_sort_divide_fills_slots _ 1 [2, 3, 4] 5 (by decide) (by decide) (by decide)
    (by decide)⟩

/-! ## The divide phase beyond the staging array -/

/-- Whenever the divide loop with the bound test has a result, the loop as
written has the same one. -/
theorem q_sort_divide_stores_of_divide {head : Nat} : ∀ (fuel : Nat) (h : Heap) (tmp : Nat)
    (queue : Nat → Nat) (n : Nat) (r : Heap × (Nat → Nat) × Nat),
    q_sort_divide fuel h head tmp queue n = some r →
      q_sort_divide_stores fuel h head tmp queue n = some r
  | 0, _, _, _, _, _, hr => by simp [q_sort_divide] at hr
  | fuel + 1, h, tmp, queue, n, r, hr => by
    rw [q_sort_divide] at hr
    rw [q_sort_divide_stores]
    by_cases c : tmp ≠ h.next head
    · rw [if_pos c] at hr ⊢
      by_cases c2 : n < QUEUE_SLOTS
      · simp only [if_pos c2] at hr
        exact q_sort_divide_stores_of_divide fuel _ _ _ _ r hr
      · simp only [if_neg c2] at hr
        exact Option.noConfusion hr
    · rw [if_neg c] at hr ⊢
      exact hr

/-- On a well-formed queue of any length the divide loop as written ends: it
detaches every node and stores the nodes, in queue order, at the indices from
0 on, one index per node. -/
theorem q_sort_divide_stores_spec {h : Heap} {head : Nat} : ∀ (rest : List Nat) (cur : Nat)
    (done : List Nat) (queue : Nat → Nat) (fuel : Nat),
    IsQueue h head (done ++ cur :: rest) → rest.length + 1 < fuel →
      ∃ queue1, q_sort_divide_stores fuel (detachOn done h) head (h.next cur) queue done.length =
          some (detachOn (done ++ cur :: rest) h, queue1, done.length + rest.length + 1) ∧
        (∀ k, k < done.length → queue1 k = queue k) ∧ Slots queue1 done.length (cur :: rest) := by
  intro rest
  induction rest with
  | nil =>
    intro cur done queue fuel hq hf
    obtain ⟨k, rfl⟩ : ∃ k, fuel = k + 2 := ⟨fuel - 2, by simp at hf; omega⟩
    obtain ⟨e1, e2, e3, e4, e5⟩ := hq.around
    have e6 : h.next cur ∉ done := fun e => e3 (List.mem_append_left _ e)
    have e7 : head ∉ done := fun e => e5 (List.mem_append_left _ e)
    have e8 : h.next cur ≠ h.next head := fun e => e3 (e ▸ e4)
    have e9 : h.next cur = head := by simpa using e1
    refine ⟨bufStore queue done.length cur, ?_, ?_, ?_⟩
    · rw [q_sort_divide_stores]
      have c1 : h.next cur ≠ (detachOn done h).next head := by
        simp only [detachOn, if_neg e7]; exact e8
      rw [if_pos c1]
      have p1 : (detachOn done h).prev (h.next cur) = cur := by
        simp only [detachOn, if_neg e6]; exact e2
      simp only [setNext_prev, p1, detachOn_step, setPrev_next, setNext_next]
      have p2 : (detachOn (done ++ [cur]) h).prev (h.next cur) = cur := by
        simp only [detachOn, if_neg e3]; exact e2
      have p3 : (detachOn (done ++ [cur]) h).next (h.next cur) = h.next (h.next cur) := by
        simp only [detachOn, if_neg e3]
      rw [p2, p3, q_sort_divide_stores]
      have c2 : ¬ (h.next (h.next cur) ≠ (detachOn (done ++ [cur]) h).next head) := by
        simp only [detachOn, if_neg e5, e9, ne_eq, not_not]
      rw [if_neg c2]
      simp
    · intro k hk
      have : k ≠ done.length := by omega
      simp [bufStore, this]
    · simp [bufStore]
  | cons r rest ih =>
    intro cur done queue fuel hq hf
    obtain ⟨k, rfl⟩ : ∃ k, fuel = k + 1 := ⟨fuel - 1, by omega⟩
    obtain ⟨e1, e2, e3, e4, e5⟩ := hq.around
    have e6 : h.next cur ∉ done := fun e => e3 (List.mem_append_left _ e)
    have e7 : head ∉ done := fun e => e5 (List.mem_append_left _ e)
    have e8 : h.next cur ≠ h.next head := fun e => e3 (e ▸ e4)
    have e9 : h.next cur = r := by simpa using e1
    have hq2 : IsQueue h head ((done ++ [cur]) ++ r :: rest) := by simpa using hq
    obtain ⟨queue1, hd, hk, hs⟩ := ih r (done ++ [cur]) (bufStore queue done.length cur) k hq2
      (by simp at hf; omega)
    refine ⟨queue1, ?_, ?_, ?_⟩
    · rw [q_sort_divide_stores]
      have c1 : h.next cur ≠ (detachOn done h).next head := by
        simp only [detachOn, if_neg e7]; exact e8
      rw [if_pos c1]
      have p1 : (detachOn done h).prev (h.next cur) = cur := by
        simp only [detachOn, if_neg e6]; exact e2
      simp only [setNext_prev, p1, detachOn_step, setPrev_next, setNext_next]
      have p2 : (detachOn (done ++ [cur]) h).prev (h.next cur) = cur := by
        simp only [detachOn, if_neg e3]; exact e2
      have p3 : (detachOn (done ++ [cur]) h).next (h.next cur) = h.next (h.next cur) := by
        simp only [detachOn, if_neg e3]
      rw [p2, p3, e9]
      simp only [List.length_append, List.length_singleton, List.append_assoc,
        List.singleton_append, List.length_cons, List.length_nil, Nat.zero_add] at hd ⊢
      rw [hd]
      congr 3
      omega
    · intro k1 hk1
      rw [hk k1 (by simp; omega)]
      have : k1 ≠ done.length := by omega
      simp [bufStore, this]
    · simp only [Slots_cons]
      refine ⟨?_, by simpa using hs⟩
      rw [hk done.length (by simp)]
      simp [bufStore]

/-- On a well-formed non-empty queue the divide loop of `q_sort`, started as
`q_sort` starts it, ends with one store per element: element `i` of the queue
is stored at index `i`, whatever `i` is. -/
theorem q_sort_divide_stores_all {h : Heap} {head : Nat} {xs : List Nat}
    (hq : IsQueue h head xs) (hne : xs ≠ []) (fuel : Nat) (hf : xs.length < fuel) :
    ∃ h1 queue, q_sort_divide_stores fuel h head (h.next (h.next head)) (fun _ => 0) 0 =
        some (h1, queue, xs.length) ∧ ∀ i (hi : i < xs.length), queue i = xs[i] := by
  cases xs with
  | nil => exact absurd rfl hne
  | cons x0 rest =>
    have hx0 : h.next head = x0 := Seg.first hq.2.2.2.1
    obtain ⟨queue1, hd, _, hs⟩ := q_sort_divide_stores_spec rest x0 [] (fun _ => 0) fuel
      (by simpa using hq) (by simpa using hf)
    rw [detachOn_nil] at hd
    refine ⟨detachOn (x0 :: rest) h, queue1, ?_, ?_⟩
    · rw [hx0]
      simpa using hd
    · intro i hi
      have := Slots_getElem hs i hi
      simpa using this

/-- C15: the queue of 10001 elements made by `build` is well formed, and on it
the divide loop of `q_sort`, run as written, ends having made 10001 stores
into the staging array, the last one, of node 10002, at index 10000: the array
`queue[10000]` has the indices 0 to 9999 only. -/
theorem q_sort_stores_past_array :
    IsQueue (build (List.replicate 10001 [])) 1 (List.range' 2 10001) ∧
      ∃ h1 queue, q_sort_divide_stores 10002 (build (List.replicate 10001 [])) 1
          ((build (List.replicate 10001 [])).next ((build (List.replicate 10001 [])).next 1))
          (fun _ => 0) 0 = some (h1, queue, 10001) ∧
        queue 10000 = 10002 ∧ ¬ 10000 < QUEUE_SLOTS := by
  have hq : IsQueue (build (List.replicate 10001 [])) 1 (List.range' 2 10001) := by
    have := build_isQueue (List.replicate 10001 [])
    rw [List.length_replicate] at this
    exact this
  have hlen : (List.range' 2 10001).length = 10001 := List.length_range' _ _ _
  have hne : List.range' 2 10001 ≠ [] := fun e => by rw [e] at hlen; exact absurd hlen (by decide)
  obtain ⟨h1, queue, hd, hs⟩ := q_sort_divide_stores_all hq hne 10002 (by rw [hlen]; decide)
  rw [hlen] at hd
  refine ⟨hq, h1, queue, hd, ?_, by decide⟩
  rw [hs 10000 (by rw [hlen]; decide), List.getElem_range']

/-- C16: the queue of 10002 elements made by `build`, each holding "a", is well
formed, and on it the divide loop of the first `q_sort`, run as written, ends
having made 10002 stores into the staging array, the last two, of the nodes
10002 and 10003, at the indices 10000 and 10001: the array `queue[10000]` has
the indices 0 to 9999 only. -/
theorem q_sort_first_call_stores_past_array :
    IsQueue (build (List.replicate 10002 [97])) 1 (List.range' 2 10002) ∧
      ∃ h1 queue, q_sort_divide_stores 10003 (build (List.replicate 10002 [97])) 1
          ((build (List.replicate 10002 [97])).next ((build (List.replicate 10002 [97])).next 1))
          (fun _ => 0) 0 = some (h1, queue, 10002) ∧
        queue 10000 = 10002 ∧ queue 10001 = 10003 ∧ ¬ 10000 < QUEUE_SLOTS := by
  have hq : IsQueue (build (List.replicate 10002 [97])) 1 (List.range' 2 10002) := by
    have := build_isQueue (List.replicate 10002 [97])
    rw [List.length_replicate] at this
    exact this
  have hlen : (List.range' 2 10002).length = 10002 := List.length_range' _ _ _
  have hne : List.range' 2 10002 ≠ [] := fun e => by rw [e] at hlen; exact absurd hlen (by decide)
  obtain ⟨h1, queue, hd, hs⟩ := q_sort_divide_stores_all hq hne 10003 (by rw [hlen]; decide)
  rw [hlen] at hd
  refine ⟨hq, h1, queue, hd, ?_, ?_, by decide⟩
  · rw [hs 10000 (by rw [hlen]; decide), List.getElem_range']
  · rw [hs 10001 (by rw [hlen]; decide), List.getElem_range']

end Queue
